import Mathlib

/-!
Swarm: a binary search tree of robots with BST / AVL / SPLAY modes

Shallow embedding of `src/swarm.h` and `src/swarm.cpp`, together with the
structural checkers of `src/mytest.cpp` (`isBST`, `isBalanced`,
`isHeightCorrect`, `contains`).

Modelling decisions.

* A `Robot*` is a `Tree`: `Tree.nil` is `nullptr`, `Tree.node` is a pointer to
  a heap robot together with everything reachable from it.  Ownership is a
  tree in the source (every robot has one owner), so no sharing is lost.
* A `Robot` passed by value is the structure `Robot`; its link fields are
  whole subtrees.
* `int` is `Int`.  Identifiers are only compared.  Heights only go through
  `1 + max` (and `-`, a comparison, in `getBalance`), computed here in `Int`
  without a bound: the value is the one of the source's `int` expression
  whenever it does not exceed `INT_MAX`, which is the case on every tree with
  correct cached heights that are `int` values (`heightsInIntRange_of_hc`).  On
  a tree that caches an arbitrary height the source's `int` can overflow where
  `Int` does not; `wrapInt` and `heightsInIntRange` state the difference.
* Dereferencing `nullptr` is undefined behaviour in the source; the functions
  that may do so (`leftRotate`, `rightRotate`, `getMinNode` and their callers)
  return `Option`, with `none` standing for the undefined run.
* Deallocation (`delete`) is not observable in the embedding and is left out.
* The `while` loop of `clear` takes a bound on its number of iterations; `none`
  also stands for a run that uses the bound up.  `setType` and `operator=` hand
  the bound on to `clear`.
* `operator=` is embedded for `this != &rhs`; object identity is not part of the
  embedding, and the self-assignment branch returns without any effect.
-/

namespace SwarmModel

/-- `enum STATE` of `swarm.h`. -/
inductive STATE where
  | ALIVE
  | DEAD
deriving DecidableEq

/-- `enum ROBOTTYPE` of `swarm.h`. -/
inductive ROBOTTYPE where
  | BIRD
  | DRONE
  | REPTILE
  | SUB
  | QUADRUPED
deriving DecidableEq

/-- `enum TREETYPE` of `swarm.h`. -/
inductive TREETYPE where
  | NONE
  | BST
  | AVL
  | SPLAY
deriving DecidableEq

/-- `MINID` of `swarm.h`. -/
def MINID : Int := 10000

/-- `MAXID` of `swarm.h`. -/
def MAXID : Int := 99999

/-- A value of type `Robot*`: `nil` is `nullptr`, `node` points to a robot with
fields `m_left`, `m_id`, `m_type`, `m_state`, `m_height`, `m_right`. -/
inductive Tree where
  | nil : Tree
  | node (m_left : Tree) (m_id : Int) (m_type : ROBOTTYPE) (m_state : STATE)
      (m_height : Int) (m_right : Tree) : Tree
deriving DecidableEq

/-- A `Robot` held by value (class `Robot` of `swarm.h`). -/
structure Robot where
  m_id : Int
  m_type : ROBOTTYPE
  m_state : STATE
  m_left : Tree
  m_right : Tree
  m_height : Int
deriving DecidableEq

/-- The constructor `Robot(int id, ROBOTTYPE type = DEFAULT_TYPE, STATE state = DEFAULT_STATE)`:
no children, height `DEFAULT_HEIGHT = 0`. -/
def Robot.ctor (id : Int) (type : ROBOTTYPE) (state : STATE) : Robot :=
  { m_id := id, m_type := type, m_state := state,
    m_left := Tree.nil, m_right := Tree.nil, m_height := 0 }

/-- The expression `new Robot(robot)`: the implicit copy constructor copies every
field, the link fields and the cached height included. -/
def Robot.toTree (robot : Robot) : Tree :=
  Tree.node robot.m_left robot.m_id robot.m_type robot.m_state robot.m_height robot.m_right

/-- Class `Swarm`: the root link and the mode flag. -/
structure Swarm where
  m_root : Tree
  m_type : TREETYPE
deriving DecidableEq

/-- `Swarm::getHeight`: `-1` for `nullptr`, else the cached height. -/
def getHeight : Tree → Int
  | Tree.nil => -1
  | Tree.node _ _ _ _ h _ => h

/-- `Swarm::getBalance`: `0` for `nullptr`, else height(left) - height(right). -/
def getBalance : Tree → Int
  | Tree.nil => 0
  | Tree.node l _ _ _ _ r => getHeight l - getHeight r

/-- `Swarm::leftRotate(x)`: `y = x->m_right` becomes the subtree root; `x` and
then `y` get their heights recomputed.  `none` when `x` or `x->m_right` is
`nullptr` (the source dereferences it). -/
def leftRotate : Tree → Option Tree
  | Tree.node xl xid xty xst _ (Tree.node t2 yid yty yst _ yr) =>
      let x := Tree.node xl xid xty xst (1 + max (getHeight xl) (getHeight t2)) t2
      some (Tree.node x yid yty yst (1 + max (getHeight x) (getHeight yr)) yr)
  | _ => none

/-- `Swarm::rightRotate(y)`: `x = y->m_left` becomes the subtree root; `y` and
then `x` get their heights recomputed.  `none` when `y` or `y->m_left` is
`nullptr`. -/
def rightRotate : Tree → Option Tree
  | Tree.node (Tree.node xl xid xty xst _ t2) yid yty yst _ yr =>
      let y := Tree.node t2 yid yty yst (1 + max (getHeight t2) (getHeight yr)) yr
      some (Tree.node xl xid xty xst (1 + max (getHeight xl) (getHeight y)) y)
  | _ => none

/-- `Swarm::balanceTree`. -/
def balanceTree : Tree → Option Tree
  | Tree.nil => some Tree.nil
  | Tree.node l id ty st h r =>
      let balanceFactor := getBalance (Tree.node l id ty st h r)
      if balanceFactor > 1 then
        if getBalance l < 0 then
          (leftRotate l).bind fun l1 => rightRotate (Tree.node l1 id ty st h r)
        else rightRotate (Tree.node l id ty st h r)
      else if balanceFactor < -1 then
        if getBalance r > 0 then
          (rightRotate r).bind fun r1 => leftRotate (Tree.node l id ty st h r1)
        else leftRotate (Tree.node l id ty st h r)
      else some (Tree.node l id ty st h r)

/-- The common tail of `insertHelper` (lines 59-67) and `removeHelper`
(lines 112-120): recompute the height of `root`, then balance it when the mode
is `AVL`.  The sum `1 + max ...` is the exact one; the source's `int` holds the
same value as long as it is at most `INT_MAX` (see `wrapInt`). -/
def updateAndBalance (m_type : TREETYPE) : Tree → Option Tree
  | Tree.nil => none
  | Tree.node l id ty st _ r =>
      let root := Tree.node l id ty st (1 + max (getHeight l) (getHeight r)) r
      if m_type = TREETYPE.AVL then balanceTree root else some root

/-- `Swarm::insertHelper(root, newRobot)`; `newRobot` points to the copy made by
`insert`. -/
def insertHelper (m_type : TREETYPE) (newRobot : Robot) : Tree → Option Tree
  | Tree.nil => some newRobot.toTree
  | Tree.node l id ty st h r =>
      if newRobot.m_id < id then
        (insertHelper m_type newRobot l).bind fun l1 =>
          updateAndBalance m_type (Tree.node l1 id ty st h r)
      else if newRobot.m_id > id then
        (insertHelper m_type newRobot r).bind fun r1 =>
          updateAndBalance m_type (Tree.node l id ty st h r1)
      else updateAndBalance m_type (Tree.node l id ty st h r)

/-- Line 147 of `swarm.cpp`: `(root->m_left == nullptr) ? root : rightRotate(root)`. -/
def splayZig (root : Tree) : Option Tree :=
  match root with
  | Tree.nil => none
  | Tree.node Tree.nil id ty st h r => some (Tree.node Tree.nil id ty st h r)
  | Tree.node l id ty st h r => rightRotate (Tree.node l id ty st h r)

/-- Line 168 of `swarm.cpp`: `(root->m_right == nullptr) ? root : leftRotate(root)`. -/
def splayZag (root : Tree) : Option Tree :=
  match root with
  | Tree.nil => none
  | Tree.node l id ty st h Tree.nil => some (Tree.node l id ty st h Tree.nil)
  | Tree.node l id ty st h r => leftRotate (Tree.node l id ty st h r)

/-- `Swarm::splay(root, id)`; its two `return` lines 147 and 168 are `splayZig`
and `splayZag`.  The guarded rotations of lines 143-145 and 159-161 are the inner
`match` on the subtree the recursive call returned. -/
def splay : Tree → Int → Option Tree
  | Tree.nil, _ => some Tree.nil
  | Tree.node l rid ty st h r, id =>
      if rid = id then some (Tree.node l rid ty st h r)
      else if id < rid then
        match l with
        | Tree.nil => some (Tree.node Tree.nil rid ty st h r)
        | Tree.node ll lid lty lst lh lr =>
            if id < lid then
              (splay ll id).bind fun ll1 =>
                (rightRotate (Tree.node (Tree.node ll1 lid lty lst lh lr) rid ty st h r)).bind
                  splayZig
            else if id > lid then
              (splay lr id).bind fun lr1 =>
                match lr1 with
                | Tree.nil => splayZig (Tree.node (Tree.node ll lid lty lst lh lr1) rid ty st h r)
                | _ =>
                    (leftRotate (Tree.node ll lid lty lst lh lr1)).bind fun l1 =>
                      splayZig (Tree.node l1 rid ty st h r)
            else splayZig (Tree.node (Tree.node ll lid lty lst lh lr) rid ty st h r)
      else
        match r with
        | Tree.nil => some (Tree.node l rid ty st h Tree.nil)
        | Tree.node rl cid cty cst ch rr =>
            if id < cid then
              (splay rl id).bind fun rl1 =>
                match rl1 with
                | Tree.nil => splayZag (Tree.node l rid ty st h (Tree.node rl1 cid cty cst ch rr))
                | _ =>
                    (rightRotate (Tree.node rl1 cid cty cst ch rr)).bind fun r1 =>
                      splayZag (Tree.node l rid ty st h r1)
            else if id > cid then
              (splay rr id).bind fun rr1 =>
                (leftRotate (Tree.node l rid ty st h (Tree.node rl cid cty cst ch rr1))).bind
                  splayZag
            else splayZag (Tree.node l rid ty st h (Tree.node rl cid cty cst ch rr))

/-- `Swarm::insert(robot)`. -/
def insert (s : Swarm) (robot : Robot) : Option Swarm :=
  let root1 : Option Tree :=
    match s.m_root with
    | Tree.nil => some robot.toTree
    | Tree.node l id ty st h r => insertHelper s.m_type robot (Tree.node l id ty st h r)
  root1.bind fun root =>
    if s.m_type = TREETYPE.AVL then
      (balanceTree root).map fun t => { m_root := t, m_type := s.m_type }
    else if s.m_type = TREETYPE.SPLAY then
      (splay root robot.m_id).map fun t => { m_root := t, m_type := s.m_type }
    else some { m_root := root, m_type := s.m_type }

/-- `Swarm::getMinNode(root)`: the leftmost robot of a present subtree; `none`
for `nullptr`, which the source dereferences. -/
def getMinNode : Tree → Option Tree
  | Tree.nil => none
  | Tree.node Tree.nil id ty st h r => some (Tree.node Tree.nil id ty st h r)
  | Tree.node (Tree.node ll lid lty lst lh lr) _ _ _ _ _ =>
      getMinNode (Tree.node ll lid lty lst lh lr)

/-- `Robot::getID` through a pointer; `none` for `nullptr`. -/
def getID : Tree → Option Int
  | Tree.nil => none
  | Tree.node _ id _ _ _ _ => some id

/-- `Swarm::removeHelper(root, id)`.  In the two-children case only `m_id` is
overwritten with the successor's identifier; `m_type` and `m_state` stay. -/
def removeHelper (m_type : TREETYPE) : Tree → Int → Option Tree
  | Tree.nil, _ => some Tree.nil
  | Tree.node l rid ty st h r, id =>
      if id < rid then
        (removeHelper m_type l id).bind fun l1 =>
          updateAndBalance m_type (Tree.node l1 rid ty st h r)
      else if id > rid then
        (removeHelper m_type r id).bind fun r1 =>
          updateAndBalance m_type (Tree.node l rid ty st h r1)
      else
        match l, r with
        | Tree.nil, _ => some r
        | _, Tree.nil => some l
        | _, _ =>
            ((getMinNode r).bind getID).bind fun minId =>
              (removeHelper m_type r minId).bind fun r1 =>
                updateAndBalance m_type (Tree.node l minId ty st h r1)

/-- `Swarm::remove(id)`. -/
def remove (s : Swarm) (id : Int) : Option Swarm :=
  match s.m_root with
  | Tree.nil => some s
  | Tree.node l rid ty st h r =>
      (removeHelper s.m_type (Tree.node l rid ty st h r) id).bind fun root =>
        if s.m_type = TREETYPE.AVL then
          (balanceTree root).map fun t => { m_root := t, m_type := s.m_type }
        else if s.m_type = TREETYPE.SPLAY then
          match root with
          | Tree.nil => some { m_root := Tree.nil, m_type := s.m_type }
          | _ => (splay root id).map fun t => { m_root := t, m_type := s.m_type }
        else some { m_root := root, m_type := s.m_type }

/-! ## Observations and checkers -/

/-- In-order sequence of identifiers (the order in which `Swarm::dump` prints them). -/
def keys : Tree → List Int
  | Tree.nil => []
  | Tree.node l id _ _ _ r => keys l ++ id :: keys r

/-- In-order sequence of (key, category, state). -/
def inorder : Tree → List (Int × ROBOTTYPE × STATE)
  | Tree.nil => []
  | Tree.node l id ty st _ r => inorder l ++ (id, ty, st) :: inorder r

/-- BST order: the in-order key sequence is strictly increasing. -/
def BSTOrdered (t : Tree) : Prop := (keys t).Pairwise (fun a b => a < b)

instance (t : Tree) : Decidable (BSTOrdered t) :=
  inferInstanceAs (Decidable ((keys t).Pairwise (fun a b => a < b)))

/-- `Tester::isBalanced` of `mytest.cpp`. -/
def isBalanced : Tree → Bool
  | Tree.nil => true
  | Tree.node l _ _ _ _ r =>
      let balanceFactor := getHeight l - getHeight r
      if Int.natAbs balanceFactor > 1 then false
      else isBalanced l && isBalanced r

/-- `Tester::isHeightCorrect` of `mytest.cpp`. -/
def isHeightCorrect : Tree → Bool
  | Tree.nil => true
  | Tree.node l _ _ _ h r =>
      let leftHeight := getHeight l
      let rightHeight := getHeight r
      if h ≠ 1 + max leftHeight rightHeight then false
      else isHeightCorrect l && isHeightCorrect r

/-- `Tester::contains` of `mytest.cpp`: the BST lookup. -/
def contains : Tree → Int → Bool
  | Tree.nil, _ => false
  | Tree.node l nid _ _ _ r, id =>
      if nid = id then true
      else if id < nid then contains l id
      else contains r id

/-- Well-formed tree of a mode: BST-ordered, cached heights correct, and
AVL-balanced when the mode is `AVL`. -/
def WellFormed (m : TREETYPE) (t : Tree) : Prop :=
  BSTOrdered t ∧ isHeightCorrect t = true ∧ (m = TREETYPE.AVL → isBalanced t = true)

instance (m : TREETYPE) (t : Tree) : Decidable (WellFormed m t) :=
  inferInstanceAs (Decidable
    (BSTOrdered t ∧ isHeightCorrect t = true ∧ (m = TREETYPE.AVL → isBalanced t = true)))

/-- One step of a run of the container: an insert of a freshly constructed robot
or a remove of a key. -/
inductive Op where
  | ins (id : Int) (type : ROBOTTYPE) (state : STATE)
  | rem (id : Int)
deriving DecidableEq

/-- Apply one operation. -/
def applyOp (s : Swarm) : Op → Option Swarm
  | Op.ins id ty st => insert s (Robot.ctor id ty st)
  | Op.rem id => remove s id

/-- Run a sequence of operations from left to right. -/
def runOps : Swarm → List Op → Option Swarm
  | s, [] => some s
  | s, op :: ops => (applyOp s op).bind fun s1 => runOps s1 ops

/-- Place `x` at the sorted position of key `k` in an in-order sequence. -/
def placeSorted (k : Int) (x : Int × ROBOTTYPE × STATE) (xs : List (Int × ROBOTTYPE × STATE)) :
    List (Int × ROBOTTYPE × STATE) :=
  xs.filter (fun y => decide (y.1 < k)) ++ x :: xs.filter (fun y => decide (k < y.1))


/-- The (key, category, state) of the robot a pointer points to; `none` for `nullptr`. -/
def rootEntity : Tree → Option (Int × ROBOTTYPE × STATE)
  | Tree.nil => none
  | Tree.node _ id ty st _ _ => some (id, ty, st)

/-- Spec-side definition (not a function of the source): the robot at which a BST
search for `id` stops, following the descent of `Tester::contains`: the robot
holding `id` if the descent meets it, otherwise the last robot visited before the
descent reaches an absent child.  `none` for the empty tree. -/
def searchStop : Tree → Int → Option (Int × ROBOTTYPE × STATE)
  | Tree.nil, _ => none
  | Tree.node l nid ty st _ r, id =>
      if nid = id then some (nid, ty, st)
      else if id < nid then
        match searchStop l id with
        | none => some (nid, ty, st)
        | some e => some e
      else
        match searchStop r id with
        | none => some (nid, ty, st)
        | some e => some e

/-- A three-robot tree, well-formed in every mode: `((10001:0) 10002:1 (10003:0))`. -/
def sampleTree : Tree :=
  Tree.node (Tree.node Tree.nil 10001 ROBOTTYPE.DRONE STATE.ALIVE 0 Tree.nil)
    10002 ROBOTTYPE.BIRD STATE.DEAD 1
    (Tree.node Tree.nil 10003 ROBOTTYPE.SUB STATE.ALIVE 0 Tree.nil)

/-- The identifier at the root of the container an operation returned. -/
def rootKey (s : Option Swarm) : Option Int := s.bind fun s1 => getID s1.m_root

/-- Insert `Robot(k)` for each `k` of the list in order, as the loops of
`mytest.cpp` do (`DEFAULT_TYPE = DRONE`, `DEFAULT_STATE = ALIVE`). -/
def insertKeys (s : Swarm) (ks : List Int) : Option Swarm :=
  runOps s (ks.map fun k => Op.ins k ROBOTTYPE.DRONE STATE.ALIVE)

/-- The keys `MINID + 1, ..., MINID + n`. -/
def idsUpTo (n : Nat) : List Int := (List.range n).map fun i => MINID + 1 + (i : Int)

/-- The test `min != nullptr && node->getID() <= min->getID()` of `Tester::isBST`;
the bound pointer is only read through `getID`, so it is an optional identifier. -/
def atOrBelowMin (id : Int) : Option Int → Bool
  | some mn => decide (id ≤ mn)
  | none => false

/-- The test `max != nullptr && node->getID() >= max->getID()` of `Tester::isBST`. -/
def atOrAboveMax (id : Int) : Option Int → Bool
  | some mx => decide (id ≥ mx)
  | none => false

/-- `Tester::isBST(node, min, max)` of `mytest.cpp`. -/
def isBST : Tree → Option Int → Option Int → Bool
  | Tree.nil, _, _ => true
  | Tree.node l id _ _ _ r, min, max =>
      if atOrBelowMin id min || atOrAboveMax id max then false
      else isBST l min (some id) && isBST r (some id) max

/-! ## Mode switching, clearing and copying -/

/-- `Swarm::getType`. -/
def getType (s : Swarm) : TREETYPE := s.m_type

/-- `Swarm::clear`: the loop `while (m_root != nullptr) remove(m_root->getID())`.
The first argument bounds the number of loop iterations; the result is `none`
when the bound is used up with the root still present, or when a `remove` is
undefined. -/
def clear : Nat → Swarm → Option Swarm
  | 0, s =>
      match s.m_root with
      | Tree.nil => some s
      | Tree.node _ _ _ _ _ _ => none
  | fuel + 1, s =>
      match s.m_root with
      | Tree.nil => some s
      | Tree.node _ id _ _ _ _ => (remove s id).bind (clear fuel)

/-- `Swarm::rebuildAVL(node)`: in-order walk of the old tree `node`; at each robot
the mode is set to `AVL` and `Robot(id, type, state)` is inserted into the
container `s` being rebuilt. -/
def rebuildAVL : Tree → Swarm → Option Swarm
  | Tree.nil, s => some s
  | Tree.node l id ty st _ r, s =>
      (rebuildAVL l s).bind fun s1 =>
        (insert { m_root := s1.m_root, m_type := TREETYPE.AVL } (Robot.ctor id ty st)).bind
          fun s2 => rebuildAVL r s2

/-- `Swarm::setType(type)`; the first argument is the iteration bound handed to
`clear`. -/
def setType (fuel : Nat) (s : Swarm) (type : TREETYPE) : Option Swarm :=
  if s.m_type = type then some s
  else if type = TREETYPE.NONE then
    (clear fuel s).map fun s1 => { m_root := s1.m_root, m_type := type }
  else if type = TREETYPE.AVL ∧ s.m_type ≠ TREETYPE.AVL then
    (rebuildAVL s.m_root { m_root := Tree.nil, m_type := s.m_type }).map fun s1 =>
      { m_root := s1.m_root, m_type := type }
  else some { m_root := s.m_root, m_type := type }

/-- `Swarm::clone(root)`: a new robot `Robot(id, type, state)` per robot, with the
cloned children and the same cached height. -/
def clone : Tree → Tree
  | Tree.nil => Tree.nil
  | Tree.node l id ty st h r => Tree.node (clone l) id ty st h (clone r)

/-- `Swarm::operator=` for `this != &rhs`: clear the left-hand side (iteration
bound in the first argument), then copy the mode and clone the tree of `rhs`.
The result is the new left-hand side; `rhs` is `const` and is not written.
Self-assignment (`this == &rhs`) returns at once and is not part of this
function. -/
def assign (fuel : Nat) (lhs rhs : Swarm) : Option Swarm :=
  (clear fuel lhs).map fun _ => { m_root := clone rhs.m_root, m_type := rhs.m_type }

/-- A tree that is not BST-ordered (in-order keys 10001, 10005, 10005, 10003) with
correct cached heights: the root 10005 has two children and the leftmost robot of
its right subtree also holds 10005, below a robot holding 10003. -/
def loopTree : Tree :=
  Tree.node (Tree.node Tree.nil 10001 ROBOTTYPE.DRONE STATE.ALIVE 0 Tree.nil)
    10005 ROBOTTYPE.DRONE STATE.ALIVE 2
    (Tree.node (Tree.node Tree.nil 10005 ROBOTTYPE.DRONE STATE.ALIVE 0 Tree.nil)
      10003 ROBOTTYPE.DRONE STATE.ALIVE 1 Tree.nil)

/-- A degenerate chain `10001 -> 10002 -> 10003 -> 10004` of right children whose
cached heights are all wrong. -/
def chainTree : Tree :=
  Tree.node Tree.nil 10001 ROBOTTYPE.BIRD STATE.ALIVE 7
    (Tree.node Tree.nil 10002 ROBOTTYPE.SUB STATE.DEAD 7
      (Tree.node Tree.nil 10003 ROBOTTYPE.DRONE STATE.ALIVE 7
        (Tree.node Tree.nil 10004 ROBOTTYPE.REPTILE STATE.DEAD 7 Tree.nil)))

/-! ## Height bounds: runs of inserts and tree shapes -/

/-- Insert the freshly constructed robots `Robot(id, type, state)` of the list in
order. -/
def insertRobots (s : Swarm) (es : List (Int × ROBOTTYPE × STATE)) : Option Swarm :=
  runOps s (es.map fun e => Op.ins e.1 e.2.1 e.2.2)

/-- Number of levels of a tree as cached at its root: height + 1, and 0 for the
empty tree. -/
def levels (t : Tree) : Nat := (getHeight t + 1).toNat

/-- Least number of robots of a balanced tree with `n` levels:
0, 1, 2, 4, 7, 12, 20, 33, 54, 88, 143, ... -/
def minNodes : Nat → Nat
  | 0 => 0
  | 1 => 1
  | n + 2 => minNodes (n + 1) + minNodes n + 1

/-- Shape predicate: `t` is the perfect tree with `n` levels, with the cached
heights of a perfect tree. -/
def Perfect : Nat → Tree → Prop
  | 0, t => t = Tree.nil
  | _ + 1, Tree.nil => False
  | n + 1, Tree.node l _ _ _ h r => h = (n : Int) ∧ Perfect n l ∧ Perfect n r

/-- Shape predicate for the trees that ascending insertion builds in `AVL` mode:
`n` levels, and at every robot of the right spine the left subtree is perfect
with as many levels as the right subtree, or one level fewer. -/
def Asc : Nat → Tree → Prop
  | 0, t => t = Tree.nil
  | _ + 1, Tree.nil => False
  | n + 1, Tree.node l _ _ _ h r =>
      h = (n : Int) ∧ Asc n r ∧ (Perfect n l ∨ (1 ≤ n ∧ Perfect (n - 1) l))

/-- Shape predicate for the result of inserting above every key of a perfect tree
with `n` levels: one level more, the left subtree still the perfect tree with
`n - 1` levels. -/
def Grown : Nat → Tree → Prop
  | _, Tree.nil => False
  | 0, Tree.node l _ _ _ h r => h = 0 ∧ l = Tree.nil ∧ r = Tree.nil
  | m + 1, Tree.node l _ _ _ h r => h = ((m + 1 : Nat) : Int) ∧ Asc (m + 1) r ∧ Perfect m l

/-- An insertion order of the 54 keys 10001..10054 (level order of the sparsest
balanced tree with 8 levels). -/
def keys54 : List Int :=
  [10034, 10021, 10047, 10013, 10029, 10042, 10052, 10008, 10018, 10026, 10032, 10039,
   10045, 10050, 10054, 10005, 10011, 10016, 10020, 10024, 10028, 10031, 10033, 10037,
   10041, 10044, 10046, 10049, 10051, 10053, 10003, 10007, 10010, 10012, 10015, 10017,
   10019, 10023, 10025, 10027, 10030, 10036, 10038, 10040, 10043, 10048, 10002, 10004,
   10006, 10009, 10014, 10022, 10035, 10001]

/-- An insertion order of the 100 keys 10001..10100 (level order of a balanced tree
with 9 levels). -/
def keys100 : List Int :=
  [10055, 10034, 10076, 10021, 10047, 10068, 10085, 10013, 10029, 10042, 10052, 10063,
   10073, 10081, 10093, 10008, 10018, 10026, 10032, 10039, 10045, 10050, 10054, 10060,
   10066, 10071, 10075, 10079, 10083, 10089, 10097, 10005, 10011, 10016, 10020, 10024,
   10028, 10031, 10033, 10037, 10041, 10044, 10046, 10049, 10051, 10053, 10058, 10062,
   10065, 10067, 10070, 10072, 10074, 10078, 10080, 10082, 10084, 10087, 10091, 10095,
   10099, 10003, 10007, 10010, 10012, 10015, 10017, 10019, 10023, 10025, 10027, 10030,
   10036, 10038, 10040, 10043, 10048, 10057, 10059, 10061, 10064, 10069, 10077, 10086,
   10088, 10090, 10092, 10094, 10096, 10098, 10100, 10002, 10004, 10006, 10009, 10014,
   10022, 10035, 10056, 10001]

/-- The cached height at the root of the container an operation returned. -/
def rootHeight (s : Option Swarm) : Option Int := s.map fun s1 => getHeight s1.m_root

/-- Three robots with distinct keys, not in key order. -/
def sampleRun : List (Int × ROBOTTYPE × STATE) :=
  [(10002, ROBOTTYPE.DRONE, STATE.ALIVE), (10001, ROBOTTYPE.BIRD, STATE.DEAD),
    (10003, ROBOTTYPE.SUB, STATE.ALIVE)]

/-- Four robots with strictly increasing keys. -/
def ascendingRun : List (Int × ROBOTTYPE × STATE) :=
  [(10001, ROBOTTYPE.DRONE, STATE.ALIVE), (10002, ROBOTTYPE.BIRD, STATE.DEAD),
    (10003, ROBOTTYPE.SUB, STATE.ALIVE), (10004, ROBOTTYPE.DRONE, STATE.ALIVE)]

/-! ## Attributes under a key, and the pivot children of the rotations -/

/-- Spec-side observation (not a function of the source): the category and state
stored under key `id`, found by the descent of `Tester::contains`. -/
def attributesAt : Tree → Int → Option (ROBOTTYPE × STATE)
  | Tree.nil, _ => none
  | Tree.node l nid ty st _ r, id =>
      if nid = id then some (ty, st)
      else if id < nid then attributesAt l id
      else attributesAt r id

/-- The pointer is present and its `m_left` is present: what `rightRotate`
dereferences. -/
def hasLeft : Tree → Bool
  | Tree.node (Tree.node _ _ _ _ _ _) _ _ _ _ _ => true
  | _ => false

/-- The pointer is present and its `m_right` is present: what `leftRotate`
dereferences. -/
def hasRight : Tree → Bool
  | Tree.node _ _ _ _ _ (Tree.node _ _ _ _ _ _) => true
  | _ => false

/-- The run `insert(Robot(10002, BIRD, DEAD)); insert(Robot(10001, DRONE, ALIVE));
insert(Robot(10003, SUB, ALIVE))`, which builds `sampleTree` in every mode but
`SPLAY`. -/
def sampleOps : List Op :=
  [Op.ins 10002 ROBOTTYPE.BIRD STATE.DEAD, Op.ins 10001 ROBOTTYPE.DRONE STATE.ALIVE,
    Op.ins 10003 ROBOTTYPE.SUB STATE.ALIVE]

/-- The robot `Robot r(10001); r.setHeight(5);`. -/
def tallRobot : Robot :=
  { m_id := 10001, m_type := ROBOTTYPE.DRONE, m_state := STATE.ALIVE,
    m_left := Tree.nil, m_right := Tree.nil, m_height := 5 }

/-- The robot `Robot other(10009); Robot r(10005); r.setLeft(&other);`. -/
def linkedRobot : Robot :=
  { m_id := 10005, m_type := ROBOTTYPE.DRONE, m_state := STATE.ALIVE,
    m_left := Tree.node Tree.nil 10009 ROBOTTYPE.DRONE STATE.ALIVE 0 Tree.nil,
    m_right := Tree.nil, m_height := 0 }

/-- The category and state stored under key `j` in the container an operation
returned. -/
def attributesAfter (s : Option Swarm) (j : Int) : Option (ROBOTTYPE × STATE) :=
  s.bind fun s1 => attributesAt s1.m_root j

/-- The in-order sequence of (key, category, state) of the container an operation
returned. -/
def inorderAfter (s : Option Swarm) : Option (List (Int × ROBOTTYPE × STATE)) :=
  s.map fun s1 => inorder s1.m_root

/-! ## The range of `int` -/

/-- `INT_MAX` of the 32-bit `int` that holds `m_height`. -/
def INT_MAX : Int := 2147483647

/-- `INT_MIN` of the 32-bit `int` that holds `m_height`. -/
def INT_MIN : Int := -2147483648

/-- The value a 32-bit two's-complement `int` computation leaves when its exact
result is `x`: `x` itself inside `[INT_MIN, INT_MAX]`, wrapped around outside
(signed overflow, undefined behaviour in the source language). -/
def wrapInt (x : Int) : Int := (x + 2147483648) % 4294967296 - 2147483648

/-- Every cached height of the tree is a value of type `int`. -/
def heightsInIntRange : Tree → Bool
  | Tree.nil => true
  | Tree.node l _ _ _ h r =>
      decide (INT_MIN ≤ h) && decide (h ≤ INT_MAX) && heightsInIntRange l && heightsInIntRange r

/-- The robot `Robot left(10001); left.setHeight(INT_MAX);` as a subtree. -/
def overflowLeft : Tree :=
  Tree.node Tree.nil 10001 ROBOTTYPE.DRONE STATE.ALIVE 2147483647 Tree.nil

/-- The subtree of the single robot `Robot(10003, SUB, ALIVE)`. -/
def overflowRight : Tree :=
  Tree.node Tree.nil 10003 ROBOTTYPE.SUB STATE.ALIVE 0 Tree.nil

/-- A BST-ordered tree `((10001) 10002 (10003))` whose left child caches the
height `INT_MAX`: every cached height is an `int`, but they are not correct. -/
def overflowTree : Tree :=
  Tree.node overflowLeft 10002 ROBOTTYPE.BIRD STATE.DEAD 1 overflowRight

/-! ## Basic facts -/

theorem keys_eq_map_inorder (t : Tree) : keys t = (inorder t).map Prod.fst := by
  induction t with
  | nil => rfl
  | node l id ty st h r ihl ihr => simp [keys, inorder, ihl, ihr]

theorem isHeightCorrect_node (l r : Tree) (id : Int) (ty : ROBOTTYPE) (st : STATE) (h : Int) :
    isHeightCorrect (Tree.node l id ty st h r) = true ↔
      h = 1 + max (getHeight l) (getHeight r) ∧ isHeightCorrect l = true ∧
        isHeightCorrect r = true := by
  simp [isHeightCorrect]

theorem isBalanced_node (l r : Tree) (id : Int) (ty : ROBOTTYPE) (st : STATE) (h : Int) :
    isBalanced (Tree.node l id ty st h r) = true ↔
      (getHeight l - getHeight r ≤ 1 ∧ getHeight r - getHeight l ≤ 1) ∧
        isBalanced l = true ∧ isBalanced r = true := by
  simp only [isBalanced]
  by_cases hb : Int.natAbs (getHeight l - getHeight r) > 1
  · simp only [hb, if_true]
    constructor
    · intro h0; cases h0
    · rintro ⟨⟨h1, h2⟩, -⟩; omega
  · simp only [hb, if_false, Bool.and_eq_true]
    constructor
    · intro h0; exact ⟨⟨by omega, by omega⟩, h0⟩
    · intro h0; exact h0.2

theorem getHeight_ge (t : Tree) (h : isHeightCorrect t = true) : -1 ≤ getHeight t := by
  induction t with
  | nil => simp [getHeight]
  | node l id ty st ht r ihl ihr =>
    rw [isHeightCorrect_node] at h
    have := ihl h.2.1
    simp only [getHeight]; omega

theorem getHeight_node_nonneg (l r : Tree) (id : Int) (ty : ROBOTTYPE) (st : STATE) (h : Int)
    (hc : isHeightCorrect (Tree.node l id ty st h r) = true) : 0 ≤ h := by
  rw [isHeightCorrect_node] at hc
  have := getHeight_ge l hc.2.1
  omega

theorem BSTOrdered_node (l r : Tree) (id : Int) (ty : ROBOTTYPE) (st : STATE) (h : Int) :
    BSTOrdered (Tree.node l id ty st h r) ↔
      BSTOrdered l ∧ BSTOrdered r ∧ (∀ a ∈ keys l, a < id) ∧ (∀ b ∈ keys r, id < b) := by
  simp only [BSTOrdered, keys, List.pairwise_append, List.pairwise_cons, List.mem_cons]
  constructor
  · rintro ⟨hl, ⟨hr1, hr2⟩, h3⟩
    exact ⟨hl, hr2, fun a ha => h3 a ha id (Or.inl rfl), hr1⟩
  · rintro ⟨hl, hr, h1, h2⟩
    refine ⟨hl, ⟨h2, hr⟩, ?_⟩
    intro a ha b hb
    rcases hb with hb | hb
    · subst hb; exact h1 a ha
    · exact lt_trans (h1 a ha) (h2 b hb)
/-! ## Rotations and `balanceTree` -/

theorem rightRotate_inorder (t t1 : Tree) (h : rightRotate t = some t1) :
    inorder t1 = inorder t := by
  cases t with
  | nil => simp [rightRotate] at h
  | node l id ty st ht r =>
    cases l with
    | nil => simp [rightRotate] at h
    | node ll lid lty lst lh lr =>
      simp only [rightRotate, Option.some.injEq] at h
      subst h
      simp [inorder]

theorem leftRotate_inorder (t t1 : Tree) (h : leftRotate t = some t1) :
    inorder t1 = inorder t := by
  cases t with
  | nil => simp [leftRotate] at h
  | node l id ty st ht r =>
    cases r with
    | nil => simp [leftRotate] at h
    | node rl cid cty cst ch rr =>
      simp only [leftRotate, Option.some.injEq] at h
      subst h
      simp [inorder]

theorem inorder_node_congr_left (l l1 r : Tree) (id : Int) (ty : ROBOTTYPE) (st : STATE)
    (h h1 : Int) (e : inorder l1 = inorder l) :
    inorder (Tree.node l1 id ty st h1 r) = inorder (Tree.node l id ty st h r) := by
  simp [inorder, e]

theorem inorder_node_congr_right (l r r1 : Tree) (id : Int) (ty : ROBOTTYPE) (st : STATE)
    (h h1 : Int) (e : inorder r1 = inorder r) :
    inorder (Tree.node l id ty st h1 r1) = inorder (Tree.node l id ty st h r) := by
  simp [inorder, e]

theorem balanceTree_inorder (t t1 : Tree) (h : balanceTree t = some t1) :
    inorder t1 = inorder t := by
  cases t with
  | nil => simp only [balanceTree, Option.some.injEq] at h; subst h; rfl
  | node l id ty st ht r =>
    simp only [balanceTree] at h
    split_ifs at h with h1 h2 h3 h4
    · cases hl : leftRotate l with
      | none => simp [hl] at h
      | some l1 =>
        simp only [hl, Option.some_bind] at h
        rw [rightRotate_inorder _ _ h]
        exact inorder_node_congr_left _ _ _ _ _ _ _ _ (leftRotate_inorder _ _ hl)
    · exact rightRotate_inorder _ _ h
    · cases hr : rightRotate r with
      | none => simp [hr] at h
      | some r1 =>
        simp only [hr, Option.some_bind] at h
        rw [leftRotate_inorder _ _ h]
        exact inorder_node_congr_right _ _ _ _ _ _ _ _ (rightRotate_inorder _ _ hr)
    · exact leftRotate_inorder _ _ h
    · simp only [Option.some.injEq] at h; subst h; rfl

theorem getHeight_nil : getHeight Tree.nil = -1 := rfl

theorem getHeight_node (l r : Tree) (id : Int) (ty : ROBOTTYPE) (st : STATE) (h : Int) :
    getHeight (Tree.node l id ty st h r) = h := rfl

/-- The rotation policy at a node whose subtrees are height-correct and balanced
and whose balance factor is within `[-2, 2]`. -/
theorem balanceTree_spec (l r : Tree) (id : Int) (ty : ROBOTTYPE) (st : STATE)
    (hl : isHeightCorrect l = true) (hr : isHeightCorrect r = true)
    (bl : isBalanced l = true) (br : isBalanced r = true)
    (d1 : getHeight l - getHeight r ≤ 2) (d2 : getHeight r - getHeight l ≤ 2) :
    ∃ t1, balanceTree (Tree.node l id ty st (1 + max (getHeight l) (getHeight r)) r) = some t1 ∧
      isHeightCorrect t1 = true ∧ isBalanced t1 = true ∧
      (getHeight t1 = 1 + max (getHeight l) (getHeight r) ∨
        getHeight t1 = max (getHeight l) (getHeight r)) ∧
      ((getHeight l - getHeight r ≤ 1 ∧ getHeight r - getHeight l ≤ 1) →
        t1 = Tree.node l id ty st (1 + max (getHeight l) (getHeight r)) r) := by
  have gl := getHeight_ge l hl
  have gr := getHeight_ge r hr
  simp only [balanceTree, getBalance]
  by_cases c1 : getHeight l - getHeight r > 1
  · simp only [c1, if_true]
    cases l with
    | nil => simp only [getHeight_nil] at c1; omega
    | node ll lid lty lst lh lr =>
      rw [isHeightCorrect_node] at hl
      rw [isBalanced_node] at bl
      obtain ⟨e1, hll, hlr⟩ := hl
      obtain ⟨⟨b1, b2⟩, bll, blr⟩ := bl
      have gll := getHeight_ge ll hll
      have glr := getHeight_ge lr hlr
      simp only [getHeight_node] at c1 d1 d2 gl ⊢
      by_cases c2 : getHeight ll - getHeight lr < 0
      · simp only [getBalance, c2, if_true]
        cases lr with
        | nil => simp only [getHeight_nil] at c2; omega
        | node lrl xid xty xst xh lrr =>
          rw [isHeightCorrect_node] at hlr
          rw [isBalanced_node] at blr
          obtain ⟨e2, hlrl, hlrr⟩ := hlr
          obtain ⟨⟨b3, b4⟩, blrl, blrr⟩ := blr
          have g1 := getHeight_ge lrl hlrl
          have g2 := getHeight_ge lrr hlrr
          simp only [getHeight_node] at c2 b1 b2 e1 glr
          refine ⟨_, rfl, ?_, ?_, ?_, ?_⟩
          · simp only [isHeightCorrect_node, getHeight_node, hll, hlrl, hlrr, hr, and_true, true_and]
            try omega
          · simp only [isBalanced_node, getHeight_node, bll, blrl, blrr, br, and_true, true_and]
            try omega
          · simp only [getHeight_node]; omega
          · intro hc; omega
      · simp only [getBalance, c2, if_false]
        refine ⟨_, rfl, ?_, ?_, ?_, ?_⟩
        · simp only [isHeightCorrect_node, getHeight_node, hll, hlr, hr, and_true, true_and]
          try omega
        · simp only [isBalanced_node, getHeight_node, bll, blr, br, and_true, true_and]
          try omega
        · simp only [getHeight_node]; omega
        · intro hc; omega
  · simp only [c1, if_false]
    by_cases c3 : getHeight l - getHeight r < -1
    · simp only [c3, if_true]
      cases r with
      | nil => simp only [getHeight_nil] at c3; omega
      | node rl cid cty cst ch rr =>
        rw [isHeightCorrect_node] at hr
        rw [isBalanced_node] at br
        obtain ⟨e1, hrl, hrr⟩ := hr
        obtain ⟨⟨b1, b2⟩, brl, brr⟩ := br
        have grl := getHeight_ge rl hrl
        have grr := getHeight_ge rr hrr
        simp only [getHeight_node] at c3 d1 d2 gr ⊢
        by_cases c4 : getHeight rl - getHeight rr > 0
        · simp only [getBalance, c4, if_true]
          cases rl with
          | nil => simp only [getHeight_nil] at c4; omega
          | node rll xid xty xst xh rlr =>
            rw [isHeightCorrect_node] at hrl
            rw [isBalanced_node] at brl
            obtain ⟨e2, hrll, hrlr⟩ := hrl
            obtain ⟨⟨b3, b4⟩, brll, brlr⟩ := brl
            have g1 := getHeight_ge rll hrll
            have g2 := getHeight_ge rlr hrlr
            simp only [getHeight_node] at c4 b1 b2 e1 grl
            refine ⟨_, rfl, ?_, ?_, ?_, ?_⟩
            · simp only [isHeightCorrect_node, getHeight_node, hl, hrll, hrlr, hrr, and_true,
                true_and]
              try omega
            · simp only [isBalanced_node, getHeight_node, bl, brll, brlr, brr, and_true,
                true_and]
              try omega
            · simp only [getHeight_node]; omega
            · intro hc; omega
        · simp only [getBalance, c4, if_false]
          refine ⟨_, rfl, ?_, ?_, ?_, ?_⟩
          · simp only [isHeightCorrect_node, getHeight_node, hl, hrl, hrr, and_true, true_and]
            try omega
          · simp only [isBalanced_node, getHeight_node, bl, brl, brr, and_true, true_and]
            try omega
          · simp only [getHeight_node]; omega
          · intro hc; omega
    · simp only [c3, if_false]
      refine ⟨_, rfl, ?_, ?_, ?_, ?_⟩
      · simp only [isHeightCorrect_node, hl, hr, and_true, true_and]
      · simp only [isBalanced_node, bl, br, and_true]; omega
      · simp only [getHeight_node]; left; trivial
      · intro _; rfl
/-! ## The common tail `updateAndBalance` -/

theorem updateAndBalance_inorder (m : TREETYPE) (t t1 : Tree)
    (h : updateAndBalance m t = some t1) : inorder t1 = inorder t := by
  cases t with
  | nil => simp [updateAndBalance] at h
  | node l id ty st ht r =>
    simp only [updateAndBalance] at h
    split_ifs at h with hm
    · rw [balanceTree_inorder _ _ h]; simp [inorder]
    · simp only [Option.some.injEq] at h; subst h; simp [inorder]

theorem updateAndBalance_spec (m : TREETYPE) (l r : Tree) (id : Int) (ty : ROBOTTYPE)
    (st : STATE) (h0 : Int)
    (hl : isHeightCorrect l = true) (hr : isHeightCorrect r = true)
    (bl : m = TREETYPE.AVL → isBalanced l = true)
    (br : m = TREETYPE.AVL → isBalanced r = true)
    (d1 : m = TREETYPE.AVL → getHeight l - getHeight r ≤ 2)
    (d2 : m = TREETYPE.AVL → getHeight r - getHeight l ≤ 2) :
    ∃ t1, updateAndBalance m (Tree.node l id ty st h0 r) = some t1 ∧
      isHeightCorrect t1 = true ∧ (m = TREETYPE.AVL → isBalanced t1 = true) ∧
      (getHeight t1 = 1 + max (getHeight l) (getHeight r) ∨
        (m = TREETYPE.AVL ∧ getHeight t1 = max (getHeight l) (getHeight r) ∧
          (getHeight l - getHeight r = 2 ∨ getHeight r - getHeight l = 2))) ∧
      ((m = TREETYPE.AVL → getHeight l - getHeight r ≤ 1 ∧ getHeight r - getHeight l ≤ 1) →
        t1 = Tree.node l id ty st (1 + max (getHeight l) (getHeight r)) r) := by
  simp only [updateAndBalance]
  by_cases hm : m = TREETYPE.AVL
  · simp only [hm, if_true]
    obtain ⟨t1, e, c, b, hh, same⟩ :=
      balanceTree_spec l r id ty st hl hr (bl hm) (br hm) (d1 hm) (d2 hm)
    refine ⟨t1, e, c, fun _ => b, ?_, fun hs => same (hs trivial)⟩
    have a1 := d1 hm
    have a2 := d2 hm
    by_cases hs : getHeight l - getHeight r ≤ 1 ∧ getHeight r - getHeight l ≤ 1
    · left; rw [same hs]; rfl
    · rcases hh with hh | hh
      · left; exact hh
      · right; refine ⟨trivial, hh, ?_⟩; omega
  · simp only [hm, if_false]
    refine ⟨_, rfl, ?_, fun hc => hc.elim, Or.inl rfl, fun _ => rfl⟩
    simp only [isHeightCorrect_node, hl, hr, and_true]

/-! ## `insertHelper` -/

theorem insertHelper_wf (m : TREETYPE) (k : Int) (c : ROBOTTYPE) (s : STATE) (t : Tree)
    (ht : isHeightCorrect t = true) (bt : m = TREETYPE.AVL → isBalanced t = true) :
    ∃ t1, insertHelper m (Robot.ctor k c s) t = some t1 ∧
      isHeightCorrect t1 = true ∧ (m = TREETYPE.AVL → isBalanced t1 = true) ∧
      (getHeight t1 = getHeight t ∨ getHeight t1 = getHeight t + 1) := by
  induction t with
  | nil =>
    refine ⟨_, rfl, ?_, fun _ => ?_, Or.inr ?_⟩
    · simp [Robot.toTree, Robot.ctor, isHeightCorrect, getHeight]
    · simp [Robot.toTree, Robot.ctor, isBalanced, getHeight]
    · simp [Robot.toTree, Robot.ctor, getHeight]
  | node l id ty st h r ihl ihr =>
    rw [isHeightCorrect_node] at ht
    obtain ⟨eh, hl, hr⟩ := ht
    have bl : m = TREETYPE.AVL → isBalanced l = true := fun hm =>
      ((isBalanced_node l r id ty st h).1 (bt hm)).2.1
    have br : m = TREETYPE.AVL → isBalanced r = true := fun hm =>
      ((isBalanced_node l r id ty st h).1 (bt hm)).2.2
    have bd : m = TREETYPE.AVL →
        getHeight l - getHeight r ≤ 1 ∧ getHeight r - getHeight l ≤ 1 := fun hm =>
      ((isBalanced_node l r id ty st h).1 (bt hm)).1
    simp only [insertHelper, getHeight_node]
    have kid : (Robot.ctor k c s).m_id = k := rfl
    rw [kid]
    by_cases c1 : k < id
    · simp only [c1, if_true]
      obtain ⟨l1, e1, hl1, bl1, hh1⟩ := ihl hl bl
      obtain ⟨t1, e2, ht1, bt1, hh2, -⟩ := updateAndBalance_spec m l1 r id ty st h hl1 hr bl1 br
        (fun hm => by have := bd hm; omega) (fun hm => by have := bd hm; omega)
      refine ⟨t1, by rw [e1]; exact e2, ht1, bt1, ?_⟩
      rcases hh2 with hh2 | ⟨hm, hh2, hd⟩
      · omega
      · have := bd hm; omega
    · simp only [c1, if_false]
      by_cases c2 : k > id
      · simp only [c2, if_true]
        obtain ⟨r1, e1, hr1, br1, hh1⟩ := ihr hr br
        obtain ⟨t1, e2, ht1, bt1, hh2, -⟩ := updateAndBalance_spec m l r1 id ty st h hl hr1 bl br1
          (fun hm => by have := bd hm; omega) (fun hm => by have := bd hm; omega)
        refine ⟨t1, by rw [e1]; exact e2, ht1, bt1, ?_⟩
        rcases hh2 with hh2 | ⟨hm, hh2, hd⟩
        · omega
        · have := bd hm; omega
      · simp only [c2, if_false]
        obtain ⟨t1, e2, ht1, bt1, hh2, -⟩ := updateAndBalance_spec m l r id ty st h hl hr bl br
          (fun hm => by have := bd hm; omega) (fun hm => by have := bd hm; omega)
        refine ⟨t1, e2, ht1, bt1, ?_⟩
        rcases hh2 with hh2 | ⟨hm, hh2, hd⟩
        · omega
        · have := bd hm; omega
/-! ## In-order sequence after `insertHelper` -/

theorem mem_keys_of_mem_inorder (t : Tree) (y : Int × ROBOTTYPE × STATE) (h : y ∈ inorder t) :
    y.1 ∈ keys t := by
  rw [keys_eq_map_inorder]; exact List.mem_map_of_mem _ h

theorem placeSorted_left (k : Int) (x : Int × ROBOTTYPE × STATE)
    (L R : List (Int × ROBOTTYPE × STATE)) (hR : ∀ y ∈ R, k < y.1) :
    placeSorted k x (L ++ R) = placeSorted k x L ++ R := by
  have e1 : R.filter (fun y => decide (y.1 < k)) = [] := by
    rw [List.filter_eq_nil_iff]
    intro y hy; have := hR y hy; simp only [decide_eq_true_eq]; omega
  have e2 : R.filter (fun y => decide (k < y.1)) = R := by
    rw [List.filter_eq_self]
    intro y hy; have := hR y hy; simp only [decide_eq_true_eq]; omega
  simp only [placeSorted, List.filter_append, e1, e2, List.append_nil, List.append_assoc,
    List.cons_append]

theorem placeSorted_right (k : Int) (x : Int × ROBOTTYPE × STATE)
    (L R : List (Int × ROBOTTYPE × STATE)) (hL : ∀ y ∈ L, y.1 < k) :
    placeSorted k x (L ++ R) = L ++ placeSorted k x R := by
  have e1 : L.filter (fun y => decide (y.1 < k)) = L := by
    rw [List.filter_eq_self]
    intro y hy; have := hL y hy; simp only [decide_eq_true_eq]; omega
  have e2 : L.filter (fun y => decide (k < y.1)) = [] := by
    rw [List.filter_eq_nil_iff]
    intro y hy; have := hL y hy; simp only [decide_eq_true_eq]; omega
  simp only [placeSorted, List.filter_append, e1, e2, List.nil_append, List.append_assoc]

theorem insertHelper_inorder (m : TREETYPE) (k : Int) (c : ROBOTTYPE) (s : STATE) (t t1 : Tree)
    (ho : BSTOrdered t) (h : insertHelper m (Robot.ctor k c s) t = some t1) :
    inorder t1 = if k ∈ keys t then inorder t else placeSorted k (k, c, s) (inorder t) := by
  induction t generalizing t1 with
  | nil =>
    simp only [insertHelper, Option.some.injEq] at h
    subst h
    simp [Robot.toTree, Robot.ctor, inorder, keys, placeSorted]
  | node l id ty st ht r ihl ihr =>
    rw [BSTOrdered_node] at ho
    obtain ⟨ol, or, lo, hi⟩ := ho
    have kid : (Robot.ctor k c s).m_id = k := rfl
    simp only [insertHelper, kid] at h
    by_cases c1 : k < id
    · simp only [c1, if_true] at h
      cases e1 : insertHelper m (Robot.ctor k c s) l with
      | none => simp [e1] at h
      | some l1 =>
        simp only [e1, Option.some_bind] at h
        rw [updateAndBalance_inorder _ _ _ h]
        have hk : k ∈ keys (Tree.node l id ty st ht r) ↔ k ∈ keys l := by
          simp only [keys, List.mem_append, List.mem_cons]
          constructor
          · rintro (h1 | h1 | h1)
            · exact h1
            · omega
            · have := hi k h1; omega
          · intro h1; exact Or.inl h1
        simp only [hk, inorder, ihl l1 ol e1]
        by_cases hm : k ∈ keys l
        · simp only [hm, if_true]
        · simp only [hm, if_false]
          rw [placeSorted_left]
          intro y hy
          simp only [List.mem_cons] at hy
          rcases hy with hy | hy
          · subst hy; exact c1
          · have := hi _ (mem_keys_of_mem_inorder r y hy); omega
    · simp only [c1, if_false] at h
      by_cases c2 : k > id
      · simp only [c2, if_true] at h
        cases e1 : insertHelper m (Robot.ctor k c s) r with
        | none => simp [e1] at h
        | some r1 =>
          simp only [e1, Option.some_bind] at h
          rw [updateAndBalance_inorder _ _ _ h]
          have hk : k ∈ keys (Tree.node l id ty st ht r) ↔ k ∈ keys r := by
            simp only [keys, List.mem_append, List.mem_cons]
            constructor
            · rintro (h1 | h1 | h1)
              · have := lo k h1; omega
              · omega
              · exact h1
            · intro h1; exact Or.inr (Or.inr h1)
          simp only [hk, inorder, ihr r1 or e1]
          by_cases hm : k ∈ keys r
          · simp only [hm, if_true]
          · simp only [hm, if_false]
            have e3 : inorder l ++ (id, ty, st) :: inorder r =
                (inorder l ++ [(id, ty, st)]) ++ inorder r := by simp
            rw [e3, placeSorted_right, List.append_assoc]
            · rfl
            · intro y hy
              simp only [List.mem_append, List.mem_singleton] at hy
              rcases hy with hy | hy
              · have := lo _ (mem_keys_of_mem_inorder l y hy); omega
              · subst hy; exact c2
      · simp only [c2, if_false] at h
        rw [updateAndBalance_inorder _ _ _ h]
        have hk : k ∈ keys (Tree.node l id ty st ht r) := by
          have : k = id := by omega
          simp [keys, this]
        simp only [hk, if_true]
/-! ## `splay` -/

theorem searchStop_eq_none (t : Tree) (k : Int) : searchStop t k = none ↔ t = Tree.nil := by
  cases t with
  | nil => simp [searchStop]
  | node l id ty st h r =>
    simp only [searchStop]
    split_ifs
    · simp
    · split <;> simp
    · split <;> simp

theorem splayZig_spec (l r : Tree) (id : Int) (ty : ROBOTTYPE) (st : STATE) (h : Int) :
    ∃ t1, splayZig (Tree.node l id ty st h r) = some t1 ∧
      inorder t1 = inorder (Tree.node l id ty st h r) ∧
      (isHeightCorrect l = true → isHeightCorrect r = true →
        (l = Tree.nil → h = 1 + max (getHeight l) (getHeight r)) → isHeightCorrect t1 = true) ∧
      rootEntity t1 = (match rootEntity l with
        | none => some (id, ty, st)
        | some e => some e) := by
  cases l with
  | nil =>
    refine ⟨_, rfl, rfl, ?_, rfl⟩
    intro _ hr hh
    simp only [isHeightCorrect_node, hr, and_true]
    exact ⟨hh rfl, rfl⟩
  | node ll lid lty lst lh lr =>
    refine ⟨_, rfl, ?_, ?_, rfl⟩
    · simp [inorder]
    · intro hl hr _
      rw [isHeightCorrect_node] at hl
      simp only [isHeightCorrect_node, getHeight_node, hl.2.1, hl.2.2, hr, and_true, true_and]

theorem splayZag_spec (l r : Tree) (id : Int) (ty : ROBOTTYPE) (st : STATE) (h : Int) :
    ∃ t1, splayZag (Tree.node l id ty st h r) = some t1 ∧
      inorder t1 = inorder (Tree.node l id ty st h r) ∧
      (isHeightCorrect l = true → isHeightCorrect r = true →
        (r = Tree.nil → h = 1 + max (getHeight l) (getHeight r)) → isHeightCorrect t1 = true) ∧
      rootEntity t1 = (match rootEntity r with
        | none => some (id, ty, st)
        | some e => some e) := by
  cases r with
  | nil =>
    refine ⟨_, rfl, rfl, ?_, rfl⟩
    intro hl _ hh
    simp only [isHeightCorrect_node, hl, true_and]
    exact ⟨hh rfl, rfl⟩
  | node rl cid cty cst ch rr =>
    refine ⟨_, rfl, ?_, ?_, rfl⟩
    · simp [inorder]
    · intro hl hr _
      rw [isHeightCorrect_node] at hr
      simp only [isHeightCorrect_node, getHeight_node, hr.2.1, hr.2.2, hl, and_true, true_and]

/-! Unfolding equations of `splay`, one per branch of the source. -/

theorem splay_found (l r : Tree) (id : Int) (ty : ROBOTTYPE) (st : STATE) (h : Int) :
    splay (Tree.node l id ty st h r) id = some (Tree.node l id ty st h r) := by
  cases l <;> cases r <;> simp only [splay, if_true]

theorem splay_left_nil (r : Tree) (rid id : Int) (ty : ROBOTTYPE) (st : STATE) (h : Int)
    (hne : ¬ rid = id) (hlt : id < rid) :
    splay (Tree.node Tree.nil rid ty st h r) id = some (Tree.node Tree.nil rid ty st h r) := by
  cases r <;> simp only [splay, hne, hlt, if_true, if_false]

theorem splay_zigzig (ll lr r : Tree) (rid lid id : Int) (ty lty : ROBOTTYPE) (st lst : STATE)
    (h lh : Int) (hne : ¬ rid = id) (hlt : id < rid) (h2 : id < lid) :
    splay (Tree.node (Tree.node ll lid lty lst lh lr) rid ty st h r) id =
      (splay ll id).bind fun ll1 =>
        (rightRotate (Tree.node (Tree.node ll1 lid lty lst lh lr) rid ty st h r)).bind
          splayZig := by
  cases r <;> simp only [splay, hne, hlt, h2, if_true, if_false]

theorem splay_zigzag (ll lr r : Tree) (rid lid id : Int) (ty lty : ROBOTTYPE) (st lst : STATE)
    (h lh : Int) (hne : ¬ rid = id) (hlt : id < rid) (h2 : ¬ id < lid) (h3 : id > lid) :
    splay (Tree.node (Tree.node ll lid lty lst lh lr) rid ty st h r) id =
      (splay lr id).bind fun lr1 =>
        match lr1 with
        | Tree.nil => splayZig (Tree.node (Tree.node ll lid lty lst lh lr1) rid ty st h r)
        | _ =>
            (leftRotate (Tree.node ll lid lty lst lh lr1)).bind fun l1 =>
              splayZig (Tree.node l1 rid ty st h r) := by
  cases r <;> simp only [splay, hne, hlt, h2, h3, if_true, if_false]

theorem splay_zig (ll lr r : Tree) (rid lid id : Int) (ty lty : ROBOTTYPE) (st lst : STATE)
    (h lh : Int) (hne : ¬ rid = id) (hlt : id < rid) (h2 : ¬ id < lid) (h3 : ¬ id > lid) :
    splay (Tree.node (Tree.node ll lid lty lst lh lr) rid ty st h r) id =
      splayZig (Tree.node (Tree.node ll lid lty lst lh lr) rid ty st h r) := by
  cases r <;> simp only [splay, hne, hlt, h2, h3, if_true, if_false]

theorem splay_right_nil (l : Tree) (rid id : Int) (ty : ROBOTTYPE) (st : STATE) (h : Int)
    (hne : ¬ rid = id) (hlt : ¬ id < rid) :
    splay (Tree.node l rid ty st h Tree.nil) id = some (Tree.node l rid ty st h Tree.nil) := by
  cases l <;> simp only [splay, hne, hlt, if_true, if_false]

theorem splay_zagzig (l rl rr : Tree) (rid cid id : Int) (ty cty : ROBOTTYPE) (st cst : STATE)
    (h ch : Int) (hne : ¬ rid = id) (hlt : ¬ id < rid) (h2 : id < cid) :
    splay (Tree.node l rid ty st h (Tree.node rl cid cty cst ch rr)) id =
      (splay rl id).bind fun rl1 =>
        match rl1 with
        | Tree.nil => splayZag (Tree.node l rid ty st h (Tree.node rl1 cid cty cst ch rr))
        | _ =>
            (rightRotate (Tree.node rl1 cid cty cst ch rr)).bind fun r1 =>
              splayZag (Tree.node l rid ty st h r1) := by
  cases l <;> simp only [splay, hne, hlt, h2, if_true, if_false]

theorem splay_zagzag (l rl rr : Tree) (rid cid id : Int) (ty cty : ROBOTTYPE) (st cst : STATE)
    (h ch : Int) (hne : ¬ rid = id) (hlt : ¬ id < rid) (h2 : ¬ id < cid) (h3 : id > cid) :
    splay (Tree.node l rid ty st h (Tree.node rl cid cty cst ch rr)) id =
      (splay rr id).bind fun rr1 =>
        (leftRotate (Tree.node l rid ty st h (Tree.node rl cid cty cst ch rr1))).bind
          splayZag := by
  cases l <;> simp only [splay, hne, hlt, h2, h3, if_true, if_false]

theorem splay_zag (l rl rr : Tree) (rid cid id : Int) (ty cty : ROBOTTYPE) (st cst : STATE)
    (h ch : Int) (hne : ¬ rid = id) (hlt : ¬ id < rid) (h2 : ¬ id < cid) (h3 : ¬ id > cid) :
    splay (Tree.node l rid ty st h (Tree.node rl cid cty cst ch rr)) id =
      splayZag (Tree.node l rid ty st h (Tree.node rl cid cty cst ch rr)) := by
  cases l <;> simp only [splay, hne, hlt, h2, h3, if_true, if_false]

/-- What `splay` does on every tree: it returns, keeps the in-order sequence and
height correctness, and its root is the robot at which the search for `k` stops. -/
theorem splay_spec (t : Tree) (k : Int) :
    ∃ t1, splay t k = some t1 ∧ inorder t1 = inorder t ∧
      (isHeightCorrect t = true → isHeightCorrect t1 = true) ∧
      rootEntity t1 = searchStop t k := by
  induction t, k using splay.induct with
  | case1 x => exact ⟨Tree.nil, rfl, rfl, fun h => h, rfl⟩
  | case2 l ty st h r id =>
    refine ⟨_, splay_found l r id ty st h, rfl, fun h => h, ?_⟩
    simp [rootEntity, searchStop]
  | case3 rid ty st h r id hne hlt =>
    refine ⟨_, splay_left_nil r rid id ty st h hne hlt, rfl, fun h => h, ?_⟩
    simp [rootEntity, searchStop, hne, hlt]
  | case4 rid ty st h r id hne hlt ll lid lty lst lh lr h2 ih =>
    obtain ⟨ll1, e, io, hc, re⟩ := ih
    obtain ⟨t1, e2, io2, hc2, re2⟩ := splayZig_spec ll1
      (Tree.node lr rid ty st (1 + max (getHeight lr) (getHeight r)) r) lid lty lst
      (1 + max (getHeight ll1)
        (getHeight (Tree.node lr rid ty st (1 + max (getHeight lr) (getHeight r)) r)))
    refine ⟨t1, ?_, ?_, ?_, ?_⟩
    · rw [splay_zigzig _ _ _ _ _ _ _ _ _ _ _ _ hne hlt h2]
      simp only [e, Option.some_bind, rightRotate]
      exact e2
    · rw [io2]; simp [inorder, io]
    · intro hh
      rw [isHeightCorrect_node, isHeightCorrect_node] at hh
      refine hc2 (hc hh.2.1.2.1) ?_ (fun _ => rfl)
      simp only [isHeightCorrect_node, hh.2.1.2.2, hh.2.2, and_true]
    · have h3 : ¬ lid = id := by omega
      rw [re2, re]
      simp only [searchStop, hne, hlt, h2, h3, if_true, if_false]
      cases searchStop ll id <;> rfl
  | case5 rid ty st h r id hne hlt ll lid lty lst lh lr h2 h3 ih =>
    obtain ⟨lr1, e, io, hc, re⟩ := ih
    have h4 : ¬ lid = id := by omega
    cases lr1 with
    | nil =>
      obtain ⟨t1, e2, io2, hc2, re2⟩ := splayZig_spec (Tree.node ll lid lty lst lh Tree.nil)
        r rid ty st h
      refine ⟨t1, ?_, ?_, ?_, ?_⟩
      · rw [splay_zigzag _ _ _ _ _ _ _ _ _ _ _ _ hne hlt h2 h3]
        simp only [e, Option.some_bind]
        exact e2
      · rw [io2]; simp only [inorder] at io ⊢; rw [← io]
      · intro hh
        have hlr : lr = Tree.nil := by
          have := re
          rw [rootEntity] at this
          exact (searchStop_eq_none lr id).1 this.symm
        subst hlr
        rw [isHeightCorrect_node] at hh
        exact hc2 hh.2.1 hh.2.2 (fun hn => by cases hn)
      · rw [re2]
        simp only [rootEntity] at re ⊢
        simp only [searchStop, hne, hlt, h2, h3, h4, if_true, if_false, ← re]
    | node a p pty pst ph b =>
      obtain ⟨t1, e2, io2, hc2, re2⟩ := splayZig_spec
        (Tree.node (Tree.node ll lid lty lst (1 + max (getHeight ll) (getHeight a)) a) p pty pst
          (1 + max (getHeight (Tree.node ll lid lty lst (1 + max (getHeight ll) (getHeight a)) a))
            (getHeight b)) b)
        r rid ty st h
      refine ⟨t1, ?_, ?_, ?_, ?_⟩
      · rw [splay_zigzag _ _ _ _ _ _ _ _ _ _ _ _ hne hlt h2 h3]
        simp only [e, Option.some_bind, leftRotate]
        exact e2
      · rw [io2]; simp only [inorder] at io ⊢; rw [← io]; simp
      · intro hh
        rw [isHeightCorrect_node, isHeightCorrect_node] at hh
        have hp := hc hh.2.1.2.2
        rw [isHeightCorrect_node] at hp
        refine hc2 ?_ hh.2.2 (fun hn => by cases hn)
        simp only [isHeightCorrect_node, getHeight_node, hh.2.1.2.1, hp.2.1, hp.2.2, and_true]
      · rw [re2]
        simp only [rootEntity] at re ⊢
        simp only [searchStop, hne, hlt, h2, h3, h4, if_true, if_false, ← re]
  | case6 rid ty st h r id hne hlt ll lid lty lst lh lr h2 h3 =>
    have h4 : lid = id := by omega
    obtain ⟨t1, e2, io2, hc2, re2⟩ := splayZig_spec (Tree.node ll lid lty lst lh lr) r rid ty st h
    refine ⟨t1, ?_, io2, ?_, ?_⟩
    · rw [splay_zig _ _ _ _ _ _ _ _ _ _ _ _ hne hlt h2 h3]
      exact e2
    · intro hh
      rw [isHeightCorrect_node] at hh
      exact hc2 hh.2.1 hh.2.2 (fun hn => by cases hn)
    · rw [re2]
      simp only [rootEntity, searchStop, hne, hlt, h4, if_true, if_false]
  | case7 l rid ty st h id hne hlt =>
    refine ⟨_, splay_right_nil l rid id ty st h hne hlt, rfl, fun h => h, ?_⟩
    simp [rootEntity, searchStop, hne, hlt]
  | case8 l rid ty st h id hne hlt rl cid cty cst ch rr h2 ih =>
    obtain ⟨rl1, e, io, hc, re⟩ := ih
    have h3 : ¬ id > cid := by omega
    have h4 : ¬ cid = id := by omega
    cases rl1 with
    | nil =>
      obtain ⟨t1, e2, io2, hc2, re2⟩ := splayZag_spec l (Tree.node Tree.nil cid cty cst ch rr)
        rid ty st h
      refine ⟨t1, ?_, ?_, ?_, ?_⟩
      · rw [splay_zagzig _ _ _ _ _ _ _ _ _ _ _ _ hne hlt h2]
        simp only [e, Option.some_bind]
        exact e2
      · rw [io2]; simp only [inorder] at io ⊢; rw [← io]
      · intro hh
        have hrl : rl = Tree.nil := by
          have := re
          rw [rootEntity] at this
          exact (searchStop_eq_none rl id).1 this.symm
        subst hrl
        rw [isHeightCorrect_node] at hh
        exact hc2 hh.2.1 hh.2.2 (fun hn => by cases hn)
      · rw [re2]
        simp only [rootEntity] at re ⊢
        simp only [searchStop, hne, hlt, h2, h4, if_true, if_false, ← re]
    | node a p pty pst ph b =>
      obtain ⟨t1, e2, io2, hc2, re2⟩ := splayZag_spec l
        (Tree.node a p pty pst
          (1 + max (getHeight a)
            (getHeight (Tree.node b cid cty cst (1 + max (getHeight b) (getHeight rr)) rr)))
          (Tree.node b cid cty cst (1 + max (getHeight b) (getHeight rr)) rr))
        rid ty st h
      refine ⟨t1, ?_, ?_, ?_, ?_⟩
      · rw [splay_zagzig _ _ _ _ _ _ _ _ _ _ _ _ hne hlt h2]
        simp only [e, Option.some_bind, rightRotate]
        exact e2
      · rw [io2]; simp only [inorder] at io ⊢; rw [← io]; simp
      · intro hh
        rw [isHeightCorrect_node, isHeightCorrect_node] at hh
        have hp := hc hh.2.2.2.1
        rw [isHeightCorrect_node] at hp
        refine hc2 hh.2.1 ?_ (fun hn => by cases hn)
        simp only [isHeightCorrect_node, getHeight_node, hh.2.2.2.2, hp.2.1, hp.2.2, and_true]
      · rw [re2]
        simp only [rootEntity] at re ⊢
        simp only [searchStop, hne, hlt, h2, h4, if_true, if_false, ← re]
  | case9 l rid ty st h id hne hlt rl cid cty cst ch rr h2 h3 ih =>
    obtain ⟨rr1, e, io, hc, re⟩ := ih
    obtain ⟨t1, e2, io2, hc2, re2⟩ := splayZag_spec
      (Tree.node l rid ty st (1 + max (getHeight l) (getHeight rl)) rl) rr1 cid cty cst
      (1 + max (getHeight (Tree.node l rid ty st (1 + max (getHeight l) (getHeight rl)) rl))
        (getHeight rr1))
    refine ⟨t1, ?_, ?_, ?_, ?_⟩
    · rw [splay_zagzag _ _ _ _ _ _ _ _ _ _ _ _ hne hlt h2 h3]
      simp only [e, Option.some_bind, leftRotate]
      exact e2
    · rw [io2]; simp [inorder, io]
    · intro hh
      rw [isHeightCorrect_node, isHeightCorrect_node] at hh
      refine hc2 ?_ (hc hh.2.2.2.2) (fun _ => rfl)
      simp only [isHeightCorrect_node, hh.2.1, hh.2.2.2.1, and_true]
    · have h4 : ¬ cid = id := by omega
      rw [re2, re]
      simp only [searchStop, hne, hlt, h2, h4, if_true, if_false]
      cases searchStop rr id <;> rfl
  | case10 l rid ty st h id hne hlt rl cid cty cst ch rr h2 h3 =>
    have h4 : cid = id := by omega
    obtain ⟨t1, e2, io2, hc2, re2⟩ := splayZag_spec l (Tree.node rl cid cty cst ch rr) rid ty st h
    refine ⟨t1, ?_, io2, ?_, ?_⟩
    · rw [splay_zag _ _ _ _ _ _ _ _ _ _ _ _ hne hlt h2 h3]
      exact e2
    · intro hh
      rw [isHeightCorrect_node] at hh
      exact hc2 hh.2.1 hh.2.2 (fun hn => by cases hn)
    · rw [re2]
      simp only [rootEntity, searchStop, hne, hlt, h4, if_true, if_false]
/-! ## `getMinNode` and `removeHelper` -/

theorem getMinNode_spec (t : Tree) (hne : t ≠ Tree.nil) :
    ∃ mid rest, (getMinNode t).bind getID = some mid ∧ keys t = mid :: rest := by
  induction t with
  | nil => exact absurd rfl hne
  | node l id ty st h r ihl _ =>
    cases l with
    | nil => exact ⟨id, keys r, rfl, rfl⟩
    | node ll lid lty lst lh lr =>
      obtain ⟨mid, rest, e1, e2⟩ := ihl (by simp)
      refine ⟨mid, rest ++ id :: keys r, ?_, ?_⟩
      · simp only [getMinNode]; exact e1
      · simp only [keys] at e2 ⊢; rw [e2]; rfl

theorem removeHelper_lt (m : TREETYPE) (l r : Tree) (rid id : Int) (ty : ROBOTTYPE) (st : STATE)
    (h : Int) (c1 : id < rid) :
    removeHelper m (Tree.node l rid ty st h r) id =
      (removeHelper m l id).bind fun l1 => updateAndBalance m (Tree.node l1 rid ty st h r) := by
  cases l <;> cases r <;> simp only [removeHelper, c1, if_true]

theorem removeHelper_gt (m : TREETYPE) (l r : Tree) (rid id : Int) (ty : ROBOTTYPE) (st : STATE)
    (h : Int) (c1 : ¬ id < rid) (c2 : id > rid) :
    removeHelper m (Tree.node l rid ty st h r) id =
      (removeHelper m r id).bind fun r1 => updateAndBalance m (Tree.node l rid ty st h r1) := by
  cases l <;> cases r <;> simp only [removeHelper, c1, c2, if_true, if_false]

theorem removeHelper_left_nil (m : TREETYPE) (r : Tree) (rid id : Int) (ty : ROBOTTYPE)
    (st : STATE) (h : Int) (c1 : ¬ id < rid) (c2 : ¬ id > rid) :
    removeHelper m (Tree.node Tree.nil rid ty st h r) id = some r := by
  cases r <;> simp only [removeHelper, c1, c2, if_false]

theorem removeHelper_right_nil (m : TREETYPE) (ll lr : Tree) (rid lid id : Int)
    (ty lty : ROBOTTYPE) (st lst : STATE) (h lh : Int) (c1 : ¬ id < rid) (c2 : ¬ id > rid) :
    removeHelper m (Tree.node (Tree.node ll lid lty lst lh lr) rid ty st h Tree.nil) id =
      some (Tree.node ll lid lty lst lh lr) := by
  simp only [removeHelper, c1, c2, if_false]

theorem removeHelper_two (m : TREETYPE) (ll lr rl rr : Tree) (rid lid cid id : Int)
    (ty lty cty : ROBOTTYPE) (st lst cst : STATE) (h lh ch : Int)
    (c1 : ¬ id < rid) (c2 : ¬ id > rid) :
    removeHelper m (Tree.node (Tree.node ll lid lty lst lh lr) rid ty st h
        (Tree.node rl cid cty cst ch rr)) id =
      ((getMinNode (Tree.node rl cid cty cst ch rr)).bind getID).bind fun minId =>
        (removeHelper m (Tree.node rl cid cty cst ch rr) minId).bind fun r1 =>
          updateAndBalance m (Tree.node (Tree.node ll lid lty lst lh lr) minId ty st h r1) := by
  rw [removeHelper]
  · simp only [c1, c2, if_false]
  · intro hh; cases hh
  · intro hh; cases hh

theorem removeHelper_wf (m : TREETYPE) (t : Tree) (k : Int)
    (ht : isHeightCorrect t = true) (bt : m = TREETYPE.AVL → isBalanced t = true) :
    ∃ t1, removeHelper m t k = some t1 ∧
      isHeightCorrect t1 = true ∧ (m = TREETYPE.AVL → isBalanced t1 = true) ∧
      (getHeight t1 = getHeight t ∨ getHeight t1 = getHeight t - 1) := by
  induction t generalizing k with
  | nil => exact ⟨Tree.nil, rfl, rfl, fun _ => rfl, Or.inl rfl⟩
  | node l id ty st h r ihl ihr =>
    have ht0 := ht
    rw [isHeightCorrect_node] at ht
    obtain ⟨eh, hl, hr⟩ := ht
    have gl := getHeight_ge l hl
    have gr := getHeight_ge r hr
    have bl : m = TREETYPE.AVL → isBalanced l = true := fun hm =>
      ((isBalanced_node l r id ty st h).1 (bt hm)).2.1
    have br : m = TREETYPE.AVL → isBalanced r = true := fun hm =>
      ((isBalanced_node l r id ty st h).1 (bt hm)).2.2
    have bd : m = TREETYPE.AVL →
        getHeight l - getHeight r ≤ 1 ∧ getHeight r - getHeight l ≤ 1 := fun hm =>
      ((isBalanced_node l r id ty st h).1 (bt hm)).1
    simp only [getHeight_node]
    by_cases c1 : k < id
    · rw [removeHelper_lt m l r id k ty st h c1]
      obtain ⟨l1, e1, hl1, bl1, hh1⟩ := ihl k hl bl
      obtain ⟨t1, e2, ht1, bt1, hh2, -⟩ := updateAndBalance_spec m l1 r id ty st h hl1 hr bl1 br
        (fun hm => by have := bd hm; omega) (fun hm => by have := bd hm; omega)
      refine ⟨t1, by rw [e1]; exact e2, ht1, bt1, ?_⟩
      rcases hh2 with hh2 | ⟨hm, hh2, hd⟩
      · omega
      · have := bd hm; omega
    · by_cases c2 : k > id
      · rw [removeHelper_gt m l r id k ty st h c1 c2]
        obtain ⟨r1, e1, hr1, br1, hh1⟩ := ihr k hr br
        obtain ⟨t1, e2, ht1, bt1, hh2, -⟩ := updateAndBalance_spec m l r1 id ty st h hl hr1 bl br1
          (fun hm => by have := bd hm; omega) (fun hm => by have := bd hm; omega)
        refine ⟨t1, by rw [e1]; exact e2, ht1, bt1, ?_⟩
        rcases hh2 with hh2 | ⟨hm, hh2, hd⟩
        · omega
        · have := bd hm; omega
      · cases l with
        | nil =>
          rw [removeHelper_left_nil m r id k ty st h c1 c2]
          refine ⟨r, rfl, hr, br, ?_⟩
          simp only [getHeight_nil] at eh
          omega
        | node ll lid lty lst lh lr =>
          cases r with
          | nil =>
            rw [removeHelper_right_nil m ll lr id lid k ty lty st lst h lh c1 c2]
            refine ⟨_, rfl, hl, bl, ?_⟩
            simp only [getHeight_nil, getHeight_node] at eh gl ⊢
            omega
          | node rl cid cty cst ch rr =>
            rw [removeHelper_two m ll lr rl rr id lid cid k ty lty cty st lst cst h lh ch c1 c2]
            obtain ⟨mid, rest, e0, -⟩ := getMinNode_spec (Tree.node rl cid cty cst ch rr) (by simp)
            obtain ⟨r1, e1, hr1, br1, hh1⟩ := ihr mid hr br
            obtain ⟨t1, e2, ht1, bt1, hh2, -⟩ := updateAndBalance_spec m
              (Tree.node ll lid lty lst lh lr) r1 mid ty st h hl hr1 bl br1
              (fun hm => by have := bd hm; omega) (fun hm => by have := bd hm; omega)
            refine ⟨t1, by rw [e0, Option.some_bind, e1]; exact e2, ht1, bt1, ?_⟩
            rcases hh2 with hh2 | ⟨hm, hh2, hd⟩
            · omega
            · have := bd hm; omega

theorem removeHelper_keys (m : TREETYPE) (t t1 : Tree) (k : Int)
    (ho : BSTOrdered t) (h : removeHelper m t k = some t1) :
    keys t1 = (keys t).erase k := by
  induction t generalizing k t1 with
  | nil =>
    simp only [removeHelper, Option.some.injEq] at h
    subst h; rfl
  | node l id ty st ht r ihl ihr =>
    rw [BSTOrdered_node] at ho
    obtain ⟨ol, or, lo, hi⟩ := ho
    have keq : ∀ u : Tree, keys u = (inorder u).map Prod.fst := keys_eq_map_inorder
    by_cases c1 : k < id
    · rw [removeHelper_lt m l r id k ty st ht c1] at h
      cases e1 : removeHelper m l k with
      | none => simp [e1] at h
      | some l1 =>
        simp only [e1, Option.some_bind] at h
        rw [keq, updateAndBalance_inorder _ _ _ h, ← keq]
        simp only [keys, ihl l1 k ol e1]
        by_cases hm : k ∈ keys l
        · rw [List.erase_append_left _ hm]
        · rw [List.erase_append_right _ hm, List.erase_of_not_mem hm, List.erase_of_not_mem]
          simp only [List.mem_cons, not_or]
          exact ⟨by omega, fun hk => by have := hi k hk; omega⟩
    · by_cases c2 : k > id
      · rw [removeHelper_gt m l r id k ty st ht c1 c2] at h
        cases e1 : removeHelper m r k with
        | none => simp [e1] at h
        | some r1 =>
          simp only [e1, Option.some_bind] at h
          rw [keq, updateAndBalance_inorder _ _ _ h, ← keq]
          simp only [keys, ihr r1 k or e1]
          have hm : k ∉ keys l := fun hk => by have := lo k hk; omega
          have hne : ¬ id = k := by omega
          rw [List.erase_append_right _ hm, List.erase_cons_tail (by simpa using hne)]
      · have hk : id = k := by omega
        subst hk
        have hm : id ∉ keys l := fun hk => by have := lo id hk; omega
        cases l with
        | nil =>
          rw [removeHelper_left_nil m r id id ty st ht c1 c2] at h
          simp only [Option.some.injEq] at h
          subst h
          simp [keys]
        | node ll lid lty lst lh lr =>
          cases r with
          | nil =>
            rw [removeHelper_right_nil m ll lr id lid id ty lty st lst ht lh c1 c2] at h
            simp only [Option.some.injEq] at h
            subst h
            rw [show keys (Tree.node (Tree.node ll lid lty lst lh lr) id ty st ht Tree.nil) =
              keys (Tree.node ll lid lty lst lh lr) ++ [id] from rfl]
            rw [List.erase_append_right _ hm]
            simp
          | node rl cid cty cst ch rr =>
            rw [removeHelper_two m ll lr rl rr id lid cid id ty lty cty st lst cst ht lh ch c1 c2]
              at h
            obtain ⟨mid, rest, e0, e3⟩ := getMinNode_spec (Tree.node rl cid cty cst ch rr)
              (by simp)
            rw [e0, Option.some_bind] at h
            cases e1 : removeHelper m (Tree.node rl cid cty cst ch rr) mid with
            | none => simp [e1] at h
            | some r1 =>
              simp only [e1, Option.some_bind] at h
              rw [keq, updateAndBalance_inorder _ _ _ h, ← keq]
              rw [show keys (Tree.node (Tree.node ll lid lty lst lh lr) mid ty st ht r1) =
                keys (Tree.node ll lid lty lst lh lr) ++ mid :: keys r1 from rfl]
              rw [show keys (Tree.node (Tree.node ll lid lty lst lh lr) id ty st ht
                  (Tree.node rl cid cty cst ch rr)) =
                keys (Tree.node ll lid lty lst lh lr) ++ id :: keys (Tree.node rl cid cty cst ch rr)
                from rfl]
              rw [ihr r1 mid or e1, e3, List.erase_append_right _ hm]
              simp
/-! ## Top-level `insert` and `remove` -/

theorem BSTOrdered_iff_inorder (t : Tree) :
    BSTOrdered t ↔ (inorder t).Pairwise (fun a b => a.1 < b.1) := by
  simp only [BSTOrdered, keys_eq_map_inorder, List.pairwise_map]

theorem placeSorted_pairwise (k : Int) (c : ROBOTTYPE) (s : STATE)
    (xs : List (Int × ROBOTTYPE × STATE)) (h : xs.Pairwise (fun a b => a.1 < b.1)) :
    (placeSorted k (k, c, s) xs).Pairwise (fun a b => a.1 < b.1) := by
  simp only [placeSorted, List.pairwise_append, List.pairwise_cons, List.mem_cons,
    List.mem_filter, decide_eq_true_eq]
  refine ⟨h.sublist (List.filter_sublist _), ⟨fun b hb => hb.2, h.sublist (List.filter_sublist _)⟩,
    ?_⟩
  rintro a ⟨-, ha⟩ b (hb | ⟨-, hb⟩)
  · subst hb; exact ha
  · exact lt_trans ha hb

theorem balanceTree_of_balanced (t : Tree) (hb : isBalanced t = true) :
    balanceTree t = some t := by
  cases t with
  | nil => rfl
  | node l id ty st h r =>
    rw [isBalanced_node] at hb
    have h1 : ¬ getHeight l - getHeight r > 1 := by omega
    have h2 : ¬ getHeight l - getHeight r < -1 := by omega
    simp only [balanceTree, getBalance, h1, h2, if_false]

theorem insert_root (m : TREETYPE) (t : Tree) (robot : Robot) :
    (match t with
      | Tree.nil => some robot.toTree
      | Tree.node l id ty st h r => insertHelper m robot (Tree.node l id ty st h r)) =
      insertHelper m robot t := by
  cases t <;> rfl

theorem insert_eq (m : TREETYPE) (t : Tree) (robot : Robot) :
    insert { m_root := t, m_type := m } robot =
      (insertHelper m robot t).bind fun root =>
        if m = TREETYPE.AVL then
          (balanceTree root).map fun t1 => { m_root := t1, m_type := m }
        else if m = TREETYPE.SPLAY then
          (splay root robot.m_id).map fun t1 => { m_root := t1, m_type := m }
        else some { m_root := root, m_type := m } := by
  cases t <;> rfl

theorem remove_eq (m : TREETYPE) (t : Tree) (id : Int) :
    remove { m_root := t, m_type := m } id =
      (removeHelper m t id).bind fun root =>
        if m = TREETYPE.AVL then
          (balanceTree root).map fun t1 => { m_root := t1, m_type := m }
        else if m = TREETYPE.SPLAY then
          (splay root id).map fun t1 => { m_root := t1, m_type := m }
        else some { m_root := root, m_type := m } := by
  cases t with
  | nil =>
    simp only [remove, removeHelper, Option.some_bind, balanceTree, splay, Option.map_some']
    split_ifs <;> rfl
  | node l rid ty st h r =>
    simp only [remove]
    cases e : removeHelper m (Tree.node l rid ty st h r) id with
    | none => rfl
    | some root =>
      simp only [Option.some_bind]
      split_ifs with h1 h2
      · rfl
      · cases root with
        | nil => simp only [splay, Option.map_some']
        | node _ _ _ _ _ _ => rfl
      · rfl

/-- `insert` of a freshly constructed robot on a well-formed tree. -/
theorem insert_spec (m : TREETYPE) (t : Tree) (k : Int) (c : ROBOTTYPE) (s : STATE)
    (hw : WellFormed m t) :
    ∃ t1, insert { m_root := t, m_type := m } (Robot.ctor k c s) =
        some { m_root := t1, m_type := m } ∧
      WellFormed m t1 ∧
      inorder t1 = (if k ∈ keys t then inorder t else placeSorted k (k, c, s) (inorder t)) := by
  obtain ⟨ho, hc, hb⟩ := hw
  obtain ⟨t0, e0, hc0, hb0, -⟩ := insertHelper_wf m k c s t hc hb
  have io0 := insertHelper_inorder m k c s t t0 ho e0
  have ho0 : BSTOrdered t0 := by
    rw [BSTOrdered_iff_inorder, io0]
    split_ifs
    · exact (BSTOrdered_iff_inorder t).1 ho
    · exact placeSorted_pairwise k c s _ ((BSTOrdered_iff_inorder t).1 ho)
  rw [insert_eq, e0, Option.some_bind]
  by_cases h1 : m = TREETYPE.AVL
  · simp only [h1, if_true]
    rw [balanceTree_of_balanced t0 (hb0 h1)]
    exact ⟨t0, rfl, ⟨ho0, hc0, fun _ => hb0 h1⟩, io0⟩
  · simp only [h1, if_false]
    by_cases h2 : m = TREETYPE.SPLAY
    · simp only [h2, if_true]
      obtain ⟨t1, e1, io1, hc1, -⟩ := splay_spec t0 (Robot.ctor k c s).m_id
      rw [e1]
      refine ⟨t1, rfl, ⟨?_, hc1 hc0, fun hh => by cases hh⟩, by rw [io1]; exact io0⟩
      rw [BSTOrdered_iff_inorder, io1, ← BSTOrdered_iff_inorder]; exact ho0
    · simp only [h2, if_false]
      exact ⟨t0, rfl, ⟨ho0, hc0, fun hh => absurd hh h1⟩, io0⟩

/-- `remove` on a well-formed tree. -/
theorem remove_spec (m : TREETYPE) (t : Tree) (k : Int) (hw : WellFormed m t) :
    ∃ t1, remove { m_root := t, m_type := m } k = some { m_root := t1, m_type := m } ∧
      WellFormed m t1 ∧ keys t1 = (keys t).erase k := by
  obtain ⟨ho, hc, hb⟩ := hw
  obtain ⟨t0, e0, hc0, hb0, -⟩ := removeHelper_wf m t k hc hb
  have ks0 := removeHelper_keys m t t0 k ho e0
  have ho0 : BSTOrdered t0 := by
    unfold BSTOrdered at ho ⊢
    rw [ks0]
    exact ho.sublist (List.erase_sublist k (keys t))
  rw [remove_eq, e0, Option.some_bind]
  by_cases h1 : m = TREETYPE.AVL
  · simp only [h1, if_true]
    rw [balanceTree_of_balanced t0 (hb0 h1)]
    exact ⟨t0, rfl, ⟨ho0, hc0, fun _ => hb0 h1⟩, ks0⟩
  · simp only [h1, if_false]
    by_cases h2 : m = TREETYPE.SPLAY
    · simp only [h2, if_true]
      obtain ⟨t1, e1, io1, hc1, -⟩ := splay_spec t0 k
      rw [e1]
      have ks1 : keys t1 = keys t0 := by rw [keys_eq_map_inorder, io1, ← keys_eq_map_inorder]
      refine ⟨t1, rfl, ⟨?_, hc1 hc0, fun hh => by cases hh⟩, by rw [ks1]; exact ks0⟩
      unfold BSTOrdered; rw [ks1]; exact ho0
    · simp only [h2, if_false]
      exact ⟨t0, rfl, ⟨ho0, hc0, fun hh => absurd hh h1⟩, ks0⟩

/-- Every run of inserts and removes from a well-formed tree succeeds, keeps the
mode and ends in a well-formed tree. -/
theorem runOps_spec (m : TREETYPE) (ops : List Op) (t : Tree) (hw : WellFormed m t) :
    ∃ t1, runOps { m_root := t, m_type := m } ops = some { m_root := t1, m_type := m } ∧
      WellFormed m t1 := by
  induction ops generalizing t with
  | nil => exact ⟨t, rfl, hw⟩
  | cons op ops ih =>
    cases op with
    | ins id ty st =>
      obtain ⟨t1, e1, hw1, -⟩ := insert_spec m t id ty st hw
      obtain ⟨t2, e2, hw2⟩ := ih t1 hw1
      exact ⟨t2, by simp only [runOps, applyOp, e1, Option.some_bind]; exact e2, hw2⟩
    | rem id =>
      obtain ⟨t1, e1, hw1, -⟩ := remove_spec m t id hw
      obtain ⟨t2, e2, hw2⟩ := ih t1 hw1
      exact ⟨t2, by simp only [runOps, applyOp, e1, Option.some_bind]; exact e2, hw2⟩

theorem wellFormed_nil (m : TREETYPE) : WellFormed m Tree.nil :=
  ⟨List.Pairwise.nil, rfl, fun _ => rfl⟩
/-! ## Search path and modes without balancing -/

theorem updateAndBalance_of_ne_AVL (m : TREETYPE) (hm : m ≠ TREETYPE.AVL) (l r : Tree)
    (id : Int) (ty : ROBOTTYPE) (st : STATE) (h : Int) :
    updateAndBalance m (Tree.node l id ty st h r) =
      some (Tree.node l id ty st (1 + max (getHeight l) (getHeight r)) r) := by
  simp only [updateAndBalance, hm, if_false]

theorem insertHelper_some_of_ne_AVL (m : TREETYPE) (hm : m ≠ TREETYPE.AVL) (robot : Robot)
    (t : Tree) : ∃ t1, insertHelper m robot t = some t1 := by
  induction t with
  | nil => exact ⟨_, rfl⟩
  | node l id ty st h r ihl ihr =>
    obtain ⟨l1, e1⟩ := ihl
    obtain ⟨r1, e2⟩ := ihr
    simp only [insertHelper, e1, e2, Option.some_bind, updateAndBalance_of_ne_AVL m hm]
    split_ifs <;> exact ⟨_, rfl⟩

theorem removeHelper_some_of_ne_AVL (m : TREETYPE) (hm : m ≠ TREETYPE.AVL) (t : Tree) (k : Int) :
    ∃ t1, removeHelper m t k = some t1 := by
  induction t generalizing k with
  | nil => exact ⟨_, rfl⟩
  | node l id ty st h r ihl ihr =>
    by_cases c1 : k < id
    · obtain ⟨l1, e1⟩ := ihl k
      rw [removeHelper_lt m l r id k ty st h c1, e1, Option.some_bind,
        updateAndBalance_of_ne_AVL m hm]
      exact ⟨_, rfl⟩
    · by_cases c2 : k > id
      · obtain ⟨r1, e1⟩ := ihr k
        rw [removeHelper_gt m l r id k ty st h c1 c2, e1, Option.some_bind,
          updateAndBalance_of_ne_AVL m hm]
        exact ⟨_, rfl⟩
      · cases l with
        | nil => exact ⟨r, removeHelper_left_nil m r id k ty st h c1 c2⟩
        | node ll lid lty lst lh lr =>
          cases r with
          | nil => exact ⟨_, removeHelper_right_nil m ll lr id lid k ty lty st lst h lh c1 c2⟩
          | node rl cid cty cst ch rr =>
            obtain ⟨mid, rest, e0, -⟩ := getMinNode_spec (Tree.node rl cid cty cst ch rr)
              (by simp)
            obtain ⟨r1, e1⟩ := ihr mid
            rw [removeHelper_two m ll lr rl rr id lid cid k ty lty cty st lst cst h lh ch c1 c2,
              e0, Option.some_bind, e1, Option.some_bind, updateAndBalance_of_ne_AVL m hm]
            exact ⟨_, rfl⟩

theorem searchStop_of_mem (t : Tree) (k : Int) (ho : BSTOrdered t) (hk : k ∈ keys t) :
    ∃ c s, searchStop t k = some (k, c, s) ∧ (k, c, s) ∈ inorder t := by
  induction t with
  | nil => simp [keys] at hk
  | node l id ty st h r ihl ihr =>
    rw [BSTOrdered_node] at ho
    obtain ⟨ol, or, lo, hi⟩ := ho
    simp only [keys, List.mem_append, List.mem_cons] at hk
    by_cases c0 : id = k
    · subst c0
      exact ⟨ty, st, by simp only [searchStop, if_true], by simp [inorder]⟩
    · by_cases c1 : k < id
      · have hl : k ∈ keys l := by
          rcases hk with hk | hk | hk
          · exact hk
          · omega
          · have := hi k hk; omega
        obtain ⟨c, s, e, hm⟩ := ihl ol hl
        refine ⟨c, s, ?_, ?_⟩
        · simp only [searchStop, c0, c1, if_true, if_false, e]
        · simp only [inorder, List.mem_append]; exact Or.inl hm
      · have hr : k ∈ keys r := by
          rcases hk with hk | hk | hk
          · have := lo k hk; omega
          · omega
          · exact hk
        obtain ⟨c, s, e, hm⟩ := ihr or hr
        refine ⟨c, s, ?_, ?_⟩
        · simp only [searchStop, c0, c1, if_false, e]
        · simp only [inorder, List.mem_append, List.mem_cons]; exact Or.inr (Or.inr hm)

theorem mem_placeSorted_key (k : Int) (x y : Int × ROBOTTYPE × STATE)
    (xs : List (Int × ROBOTTYPE × STATE)) (hy : y ∈ placeSorted k x xs) (hk : y.1 = k) :
    y = x := by
  simp only [placeSorted, List.mem_append, List.mem_cons, List.mem_filter,
    decide_eq_true_eq] at hy
  rcases hy with ⟨-, h⟩ | h | ⟨-, h⟩
  · omega
  · exact h
  · omega

theorem mem_keys_placeSorted (k : Int) (c : ROBOTTYPE) (s : STATE)
    (xs : List (Int × ROBOTTYPE × STATE)) : (k, c, s) ∈ placeSorted k (k, c, s) xs := by
  simp [placeSorted]
/-! ## Size, duplicates and absent keys -/

theorem split_at_key (k : Int) (xs : List (Int × ROBOTTYPE × STATE))
    (h : xs.Pairwise (fun a b => a.1 < b.1)) (hk : k ∉ xs.map Prod.fst) :
    xs = xs.filter (fun y => decide (y.1 < k)) ++ xs.filter (fun y => decide (k < y.1)) := by
  induction xs with
  | nil => rfl
  | cons x xs ih =>
    rw [List.pairwise_cons] at h
    simp only [List.map_cons, List.mem_cons, not_or] at hk
    have ih1 := ih h.2 hk.2
    by_cases c1 : x.1 < k
    · have c2 : ¬ k < x.1 := by omega
      simp only [List.filter_cons, c1, c2, decide_True, decide_False, if_true,
        Bool.false_eq_true, if_false, List.cons_append]
      rw [← ih1]
    · have c2 : k < x.1 := by omega
      have e1 : xs.filter (fun y => decide (y.1 < k)) = [] := by
        rw [List.filter_eq_nil_iff]
        intro y hy; have := h.1 y hy; simp only [decide_eq_true_eq]; omega
      have e2 : xs.filter (fun y => decide (k < y.1)) = xs := by
        rw [List.filter_eq_self]
        intro y hy; have := h.1 y hy; simp only [decide_eq_true_eq]; omega
      simp only [List.filter_cons, c1, c2, decide_True, decide_False, if_true,
        Bool.false_eq_true, if_false, e1, e2, List.nil_append]

theorem length_inorder (t : Tree) : (inorder t).length = (keys t).length := by
  rw [keys_eq_map_inorder, List.length_map]

/-- On a well-formed tree that holds `k`, `insertHelper` rebuilds the same tree. -/
theorem insertHelper_dup (m : TREETYPE) (k : Int) (c : ROBOTTYPE) (s : STATE) (t : Tree)
    (hw : WellFormed m t) (hk : k ∈ keys t) :
    insertHelper m (Robot.ctor k c s) t = some t := by
  induction t with
  | nil => simp [keys] at hk
  | node l id ty st h r ihl ihr =>
    obtain ⟨ho, hc, hb⟩ := hw
    rw [BSTOrdered_node] at ho
    obtain ⟨ol, or, lo, hi⟩ := ho
    rw [isHeightCorrect_node] at hc
    obtain ⟨eh, hl, hr⟩ := hc
    have bl : m = TREETYPE.AVL → isBalanced l = true := fun hm =>
      ((isBalanced_node l r id ty st h).1 (hb hm)).2.1
    have br : m = TREETYPE.AVL → isBalanced r = true := fun hm =>
      ((isBalanced_node l r id ty st h).1 (hb hm)).2.2
    have bd : m = TREETYPE.AVL →
        getHeight l - getHeight r ≤ 1 ∧ getHeight r - getHeight l ≤ 1 := fun hm =>
      ((isBalanced_node l r id ty st h).1 (hb hm)).1
    obtain ⟨t1, e2, -, -, -, same⟩ := updateAndBalance_spec m l r id ty st h hl hr bl br
      (fun hm => by have := bd hm; omega) (fun hm => by have := bd hm; omega)
    have e3 : updateAndBalance m (Tree.node l id ty st h r) = some (Tree.node l id ty st h r) := by
      rw [e2, same bd, ← eh]
    simp only [keys, List.mem_append, List.mem_cons] at hk
    have kid : (Robot.ctor k c s).m_id = k := rfl
    simp only [insertHelper, kid]
    by_cases c1 : k < id
    · have hkl : k ∈ keys l := by
        rcases hk with hk | hk | hk
        · exact hk
        · omega
        · have := hi k hk; omega
      simp only [c1, if_true, ihl ⟨ol, hl, bl⟩ hkl, Option.some_bind]
      exact e3
    · by_cases c2 : k > id
      · have hkr : k ∈ keys r := by
          rcases hk with hk | hk | hk
          · have := lo k hk; omega
          · omega
          · exact hk
        simp only [c1, c2, if_true, if_false, ihr ⟨or, hr, br⟩ hkr, Option.some_bind]
        exact e3
      · simp only [c1, c2, if_false]
        exact e3

/-- On a well-formed tree that does not hold `k`, `removeHelper` rebuilds the same tree. -/
theorem removeHelper_absent (m : TREETYPE) (k : Int) (t : Tree)
    (hw : WellFormed m t) (hk : k ∉ keys t) :
    removeHelper m t k = some t := by
  induction t with
  | nil => rfl
  | node l id ty st h r ihl ihr =>
    obtain ⟨ho, hc, hb⟩ := hw
    rw [BSTOrdered_node] at ho
    obtain ⟨ol, or, lo, hi⟩ := ho
    rw [isHeightCorrect_node] at hc
    obtain ⟨eh, hl, hr⟩ := hc
    have bl : m = TREETYPE.AVL → isBalanced l = true := fun hm =>
      ((isBalanced_node l r id ty st h).1 (hb hm)).2.1
    have br : m = TREETYPE.AVL → isBalanced r = true := fun hm =>
      ((isBalanced_node l r id ty st h).1 (hb hm)).2.2
    have bd : m = TREETYPE.AVL →
        getHeight l - getHeight r ≤ 1 ∧ getHeight r - getHeight l ≤ 1 := fun hm =>
      ((isBalanced_node l r id ty st h).1 (hb hm)).1
    obtain ⟨t1, e2, -, -, -, same⟩ := updateAndBalance_spec m l r id ty st h hl hr bl br
      (fun hm => by have := bd hm; omega) (fun hm => by have := bd hm; omega)
    have e3 : updateAndBalance m (Tree.node l id ty st h r) = some (Tree.node l id ty st h r) := by
      rw [e2, same bd, ← eh]
    simp only [keys, List.mem_append, List.mem_cons, not_or] at hk
    obtain ⟨hkl, hne, hkr⟩ := hk
    by_cases c1 : k < id
    · rw [removeHelper_lt m l r id k ty st h c1, ihl ⟨ol, hl, bl⟩ hkl, Option.some_bind]
      exact e3
    · have c2 : k > id := by omega
      rw [removeHelper_gt m l r id k ty st h c1 c2, ihr ⟨or, hr, br⟩ hkr, Option.some_bind]
      exact e3

theorem contains_iff_mem (t : Tree) (k : Int) (ho : BSTOrdered t) :
    contains t k = true ↔ k ∈ keys t := by
  induction t with
  | nil => simp [contains, keys]
  | node l id ty st h r ihl ihr =>
    rw [BSTOrdered_node] at ho
    obtain ⟨ol, or, lo, hi⟩ := ho
    simp only [contains, keys, List.mem_append, List.mem_cons]
    by_cases c0 : id = k
    · simp [c0]
    · by_cases c1 : k < id
      · simp only [c0, c1, if_true, if_false, ihl ol]
        constructor
        · intro hh; exact Or.inl hh
        · rintro (hh | hh | hh)
          · exact hh
          · omega
          · have := hi k hh; omega
      · simp only [c0, c1, if_false, ihr or]
        constructor
        · intro hh; exact Or.inr (Or.inr hh)
        · rintro (hh | hh | hh)
          · have := lo k hh; omega
          · omega
          · exact hh

theorem keys_eq_nil (t : Tree) (h : keys t = []) : t = Tree.nil := by
  cases t with
  | nil => rfl
  | node l id ty st ht r => simp [keys] at h

theorem BSTOrdered.nodup (t : Tree) (ho : BSTOrdered t) : (keys t).Nodup := by
  unfold BSTOrdered at ho
  exact ho.imp (fun h => by omega)

/-- In a BST-ordered tree that does not hold `k`, the search for `k` stops at a
robot of the tree whose key is the nearest one below `k` or the nearest one above. -/
theorem searchStop_neighbor (t : Tree) (k : Int) (ho : BSTOrdered t) (hk : k ∉ keys t)
    (e : Int × ROBOTTYPE × STATE) (he : searchStop t k = some e) :
    e ∈ inorder t ∧ e.1 ≠ k ∧
      (e.1 < k → ∀ x ∈ keys t, x < k → x ≤ e.1) ∧
      (k < e.1 → ∀ x ∈ keys t, k < x → e.1 ≤ x) := by
  induction t generalizing e with
  | nil => simp [searchStop] at he
  | node l id ty st h r ihl ihr =>
    rw [BSTOrdered_node] at ho
    obtain ⟨ol, or, lo, hi⟩ := ho
    simp only [keys, List.mem_append, List.mem_cons, not_or] at hk
    obtain ⟨hkl, hne, hkr⟩ := hk
    have c0 : ¬ id = k := fun hh => hne hh.symm
    simp only [keys, List.mem_append, List.mem_cons, inorder]
    by_cases c1 : k < id
    · simp only [searchStop, c0, c1, if_true, if_false] at he
      cases es : searchStop l k with
      | none =>
        simp only [es, Option.some.injEq] at he
        subst he
        have hl : l = Tree.nil := (searchStop_eq_none l k).1 es
        subst hl
        refine ⟨Or.inr (Or.inl rfl), c0, fun hh => by simp only at hh; omega, ?_⟩
        rintro - x (hx | hx | hx) hxk
        · simp [keys] at hx
        · simp only; omega
        · have := hi x hx; simp only; omega
      | some e1 =>
        simp only [es, Option.some.injEq] at he
        subst he
        obtain ⟨m1, m2, m3, m4⟩ := ihl ol hkl e1 es
        have hel : e1.1 < id := lo _ (mem_keys_of_mem_inorder l e1 m1)
        refine ⟨Or.inl m1, m2, ?_, ?_⟩
        · rintro hh x (hx | hx | hx) hxk
          · exact m3 hh x hx hxk
          · omega
          · have := hi x hx; omega
        · rintro hh x (hx | hx | hx) hxk
          · exact m4 hh x hx hxk
          · omega
          · have := hi x hx; omega
    · have c2 : id < k := by omega
      simp only [searchStop, c0, c1, if_false] at he
      cases es : searchStop r k with
      | none =>
        simp only [es, Option.some.injEq] at he
        subst he
        have hr : r = Tree.nil := (searchStop_eq_none r k).1 es
        subst hr
        refine ⟨Or.inr (Or.inl rfl), c0, ?_, fun hh => by simp only at hh; omega⟩
        rintro - x (hx | hx | hx) hxk
        · have := lo x hx; simp only; omega
        · simp only; omega
        · simp [keys] at hx
      | some e1 =>
        simp only [es, Option.some.injEq] at he
        subst he
        obtain ⟨m1, m2, m3, m4⟩ := ihr or hkr e1 es
        have hel : id < e1.1 := hi _ (mem_keys_of_mem_inorder r e1 m1)
        refine ⟨Or.inr (Or.inr m1), m2, ?_, ?_⟩
        · rintro hh x (hx | hx | hx) hxk
          · have := lo x hx; omega
          · omega
          · exact m3 hh x hx hxk
        · rintro hh x (hx | hx | hx) hxk
          · have := lo x hx; omega
          · omega
          · exact m4 hh x hx hxk
/-! ## The checker `isBST` agrees with the in-order characterisation -/

theorem atOrBelowMin_eq_false (id : Int) (lo : Option Int) :
    atOrBelowMin id lo = false ↔ ∀ mn, lo = some mn → mn < id := by
  cases lo with
  | none => simp [atOrBelowMin]
  | some mn => simp [atOrBelowMin]

theorem atOrAboveMax_eq_false (id : Int) (hi : Option Int) :
    atOrAboveMax id hi = false ↔ ∀ mx, hi = some mx → id < mx := by
  cases hi with
  | none => simp [atOrAboveMax]
  | some mx => simp [atOrAboveMax]

theorem isBST_node (l r : Tree) (id : Int) (ty : ROBOTTYPE) (st : STATE) (h : Int)
    (lo hi : Option Int) :
    isBST (Tree.node l id ty st h r) lo hi = true ↔
      ((∀ mn, lo = some mn → mn < id) ∧ (∀ mx, hi = some mx → id < mx)) ∧
        isBST l lo (some id) = true ∧ isBST r (some id) hi = true := by
  rw [← atOrBelowMin_eq_false, ← atOrAboveMax_eq_false]
  simp only [isBST]
  cases atOrBelowMin id lo <;> cases atOrAboveMax id hi <;> simp

theorem isBST_iff (t : Tree) (lo hi : Option Int) :
    isBST t lo hi = true ↔
      BSTOrdered t ∧ ∀ a ∈ keys t, (∀ mn, lo = some mn → mn < a) ∧ (∀ mx, hi = some mx → a < mx) := by
  induction t generalizing lo hi with
  | nil => simp [isBST, BSTOrdered, keys]
  | node l id ty st h r ihl ihr =>
    rw [BSTOrdered_node, isBST_node, ihl, ihr]
    simp only [keys, List.mem_append, List.mem_cons]
    constructor
    · rintro ⟨⟨b1, b2⟩, ⟨ol, bl⟩, ⟨or, br⟩⟩
      refine ⟨⟨ol, or, fun a ha => (bl a ha).2 id rfl, fun b hb => (br b hb).1 id rfl⟩, ?_⟩
      rintro a (ha | ha | ha)
      · exact ⟨(bl a ha).1, fun mx hmx => lt_trans ((bl a ha).2 id rfl) (b2 mx hmx)⟩
      · subst ha; exact ⟨b1, b2⟩
      · exact ⟨fun mn hmn => lt_trans (b1 mn hmn) ((br a ha).1 id rfl), (br a ha).2⟩
    · rintro ⟨⟨ol, or, hl, hr⟩, hb⟩
      refine ⟨hb id (Or.inr (Or.inl rfl)), ⟨ol, fun a ha => ⟨(hb a (Or.inl ha)).1, ?_⟩⟩,
        ⟨or, fun a ha => ⟨?_, (hb a (Or.inr (Or.inr ha))).2⟩⟩⟩
      · intro mx hmx; cases hmx; exact hl a ha
      · intro mn hmn; cases hmn; exact hr a ha

/-- `Tester::isBST(root, nullptr, nullptr)` holds exactly when the in-order key
sequence is strictly increasing. -/
theorem isBST_iff_BSTOrdered (t : Tree) : isBST t none none = true ↔ BSTOrdered t := by
  rw [isBST_iff]
  constructor
  · exact fun h => h.1
  · intro h
    refine ⟨h, fun a _ => ⟨?_, ?_⟩⟩ <;> intro x hx <;> cases hx
/-! ## Rotations, the minimum robot and two-child removal -/

theorem BSTOrdered_of_inorder_eq (t t1 : Tree) (h : inorder t1 = inorder t) :
    BSTOrdered t1 ↔ BSTOrdered t := by
  rw [BSTOrdered_iff_inorder, BSTOrdered_iff_inorder, h]

/-- Removing the key of the first robot in in-order position splices that robot
out and leaves every other robot as it was (modes without balancing). -/
theorem removeHelper_min (m : TREETYPE) (hm : m ≠ TREETYPE.AVL) (t : Tree)
    (ho : BSTOrdered t) (e : Int × ROBOTTYPE × STATE) (rest : List (Int × ROBOTTYPE × STATE))
    (hi : inorder t = e :: rest) :
    ∃ t1, removeHelper m t e.1 = some t1 ∧ inorder t1 = rest := by
  induction t generalizing rest with
  | nil => simp [inorder] at hi
  | node l id ty st h r ihl _ =>
    rw [BSTOrdered_node] at ho
    obtain ⟨ol, -, lo, -⟩ := ho
    cases l with
    | nil =>
      simp only [inorder, List.nil_append, List.cons.injEq] at hi
      obtain ⟨h1, h2⟩ := hi
      subst h1
      refine ⟨r, ?_, h2⟩
      exact removeHelper_left_nil m r id id ty st h (by simp) (by simp)
    | node ll lid lty lst lh lr =>
      cases hl : inorder (Tree.node ll lid lty lst lh lr) with
      | nil => simp [inorder] at hl
      | cons e1 rest1 =>
        have hi0 := hi
        rw [inorder, hl, List.cons_append, List.cons.injEq] at hi
        obtain ⟨h1, h2⟩ := hi
        subst h1
        obtain ⟨l1, e2, io⟩ := ihl ol rest1 hl
        have hlt : e1.1 < id := by
          apply lo
          apply mem_keys_of_mem_inorder
          rw [hl]; exact List.mem_cons_self _ _
        refine ⟨Tree.node l1 id ty st (1 + max (getHeight l1) (getHeight r)) r, ?_, ?_⟩
        · rw [removeHelper_lt m _ r id e1.1 ty st h hlt, e2, Option.some_bind,
            updateAndBalance_of_ne_AVL m hm]
        · rw [inorder, io, h2]
/-! ## Height correctness alone keeps `remove` defined; `clear` -/

/-- With height-correct subtrees `balanceTree` always finds the child it pivots
on, whatever the balance factor, and returns a height-correct tree. -/
theorem balanceTree_hc (l r : Tree) (id : Int) (ty : ROBOTTYPE) (st : STATE)
    (hl : isHeightCorrect l = true) (hr : isHeightCorrect r = true) :
    ∃ t1, balanceTree (Tree.node l id ty st (1 + max (getHeight l) (getHeight r)) r) = some t1 ∧
      isHeightCorrect t1 = true := by
  have gl := getHeight_ge l hl
  have gr := getHeight_ge r hr
  simp only [balanceTree, getBalance]
  by_cases c1 : getHeight l - getHeight r > 1
  · simp only [c1, if_true]
    cases l with
    | nil => simp only [getHeight_nil] at c1; omega
    | node ll lid lty lst lh lr =>
      rw [isHeightCorrect_node] at hl
      obtain ⟨-, hll, hlr⟩ := hl
      have gll := getHeight_ge ll hll
      by_cases c2 : getHeight ll - getHeight lr < 0
      · simp only [getBalance, c2, if_true]
        cases lr with
        | nil => simp only [getHeight_nil] at c2; omega
        | node lrl xid xty xst xh lrr =>
          rw [isHeightCorrect_node] at hlr
          refine ⟨_, rfl, ?_⟩
          simp only [isHeightCorrect_node, getHeight_node, hll, hlr.2.1, hlr.2.2, hr, and_true,
            true_and]
      · simp only [getBalance, c2, if_false]
        refine ⟨_, rfl, ?_⟩
        simp only [isHeightCorrect_node, getHeight_node, hll, hlr, hr, and_true, true_and]
  · simp only [c1, if_false]
    by_cases c3 : getHeight l - getHeight r < -1
    · simp only [c3, if_true]
      cases r with
      | nil => simp only [getHeight_nil] at c3; omega
      | node rl cid cty cst ch rr =>
        rw [isHeightCorrect_node] at hr
        obtain ⟨-, hrl, hrr⟩ := hr
        have grr := getHeight_ge rr hrr
        by_cases c4 : getHeight rl - getHeight rr > 0
        · simp only [getBalance, c4, if_true]
          cases rl with
          | nil => simp only [getHeight_nil] at c4; omega
          | node rll xid xty xst xh rlr =>
            rw [isHeightCorrect_node] at hrl
            refine ⟨_, rfl, ?_⟩
            simp only [isHeightCorrect_node, getHeight_node, hl, hrl.2.1, hrl.2.2, hrr, and_true,
              true_and]
        · simp only [getBalance, c4, if_false]
          refine ⟨_, rfl, ?_⟩
          simp only [isHeightCorrect_node, getHeight_node, hl, hrl, hrr, and_true, true_and]
    · simp only [c3, if_false]
      refine ⟨_, rfl, ?_⟩
      simp only [isHeightCorrect_node, hl, hr, and_true]

theorem updateAndBalance_hc (m : TREETYPE) (l r : Tree) (id : Int) (ty : ROBOTTYPE)
    (st : STATE) (h0 : Int) (hl : isHeightCorrect l = true) (hr : isHeightCorrect r = true) :
    ∃ t1, updateAndBalance m (Tree.node l id ty st h0 r) = some t1 ∧
      isHeightCorrect t1 = true := by
  simp only [updateAndBalance]
  by_cases hm : m = TREETYPE.AVL
  · simp only [hm, if_true]
    exact balanceTree_hc l r id ty st hl hr
  · simp only [hm, if_false]
    refine ⟨_, rfl, ?_⟩
    simp only [isHeightCorrect_node, hl, hr, and_true]

theorem removeHelper_hc (m : TREETYPE) (t : Tree) (k : Int) (ht : isHeightCorrect t = true) :
    ∃ t1, removeHelper m t k = some t1 ∧ isHeightCorrect t1 = true := by
  induction t generalizing k with
  | nil => exact ⟨Tree.nil, rfl, rfl⟩
  | node l id ty st h r ihl ihr =>
    rw [isHeightCorrect_node] at ht
    obtain ⟨-, hl, hr⟩ := ht
    by_cases c1 : k < id
    · obtain ⟨l1, e1, hl1⟩ := ihl k hl
      obtain ⟨t1, e2, ht1⟩ := updateAndBalance_hc m l1 r id ty st h hl1 hr
      exact ⟨t1, by rw [removeHelper_lt m l r id k ty st h c1, e1]; exact e2, ht1⟩
    · by_cases c2 : k > id
      · obtain ⟨r1, e1, hr1⟩ := ihr k hr
        obtain ⟨t1, e2, ht1⟩ := updateAndBalance_hc m l r1 id ty st h hl hr1
        exact ⟨t1, by rw [removeHelper_gt m l r id k ty st h c1 c2, e1]; exact e2, ht1⟩
      · cases l with
        | nil => exact ⟨r, removeHelper_left_nil m r id k ty st h c1 c2, hr⟩
        | node ll lid lty lst lh lr =>
          cases r with
          | nil =>
            exact ⟨_, removeHelper_right_nil m ll lr id lid k ty lty st lst h lh c1 c2, hl⟩
          | node rl cid cty cst ch rr =>
            obtain ⟨mid, rest, e0, -⟩ := getMinNode_spec (Tree.node rl cid cty cst ch rr)
              (by simp)
            obtain ⟨r1, e1, hr1⟩ := ihr mid hr
            obtain ⟨t1, e2, ht1⟩ := updateAndBalance_hc m (Tree.node ll lid lty lst lh lr) r1
              mid ty st h hl hr1
            refine ⟨t1, ?_, ht1⟩
            rw [removeHelper_two m ll lr rl rr id lid cid k ty lty cty st lst cst h lh ch c1 c2,
              e0, Option.some_bind, e1]
            exact e2

/-- `remove` on a BST-ordered tree with correct cached heights, in any mode and
whether or not the tree is balanced. -/
theorem remove_hc (m : TREETYPE) (t : Tree) (k : Int) (ho : BSTOrdered t)
    (hc : isHeightCorrect t = true) :
    ∃ t1, remove { m_root := t, m_type := m } k = some { m_root := t1, m_type := m } ∧
      BSTOrdered t1 ∧ isHeightCorrect t1 = true ∧ keys t1 = (keys t).erase k := by
  obtain ⟨t0, e0, hc0⟩ := removeHelper_hc m t k hc
  have ks0 := removeHelper_keys m t t0 k ho e0
  have ho0 : BSTOrdered t0 := by
    unfold BSTOrdered at ho ⊢
    rw [ks0]
    exact ho.sublist (List.erase_sublist k (keys t))
  rw [remove_eq, e0, Option.some_bind]
  by_cases h1 : m = TREETYPE.AVL
  · simp only [h1, if_true]
    have hb : ∃ t1, balanceTree t0 = some t1 ∧ isHeightCorrect t1 = true := by
      cases t0 with
      | nil => exact ⟨Tree.nil, rfl, rfl⟩
      | node l id ty st h r =>
        rw [isHeightCorrect_node] at hc0
        rw [hc0.1]
        exact balanceTree_hc l r id ty st hc0.2.1 hc0.2.2
    obtain ⟨t1, e1, hc1⟩ := hb
    have io1 := balanceTree_inorder _ _ e1
    have ks1 : keys t1 = keys t0 := by rw [keys_eq_map_inorder, io1, ← keys_eq_map_inorder]
    rw [e1]
    exact ⟨t1, rfl, (BSTOrdered_of_inorder_eq t0 t1 io1).2 ho0, hc1, by rw [ks1]; exact ks0⟩
  · simp only [h1, if_false]
    by_cases h2 : m = TREETYPE.SPLAY
    · simp only [h2, if_true]
      obtain ⟨t1, e1, io1, hc1, -⟩ := splay_spec t0 k
      have ks1 : keys t1 = keys t0 := by rw [keys_eq_map_inorder, io1, ← keys_eq_map_inorder]
      rw [e1]
      exact ⟨t1, rfl, (BSTOrdered_of_inorder_eq t0 t1 io1).2 ho0, hc1 hc0,
        by rw [ks1]; exact ks0⟩
    · simp only [h2, if_false]
      exact ⟨t0, rfl, ho0, hc0, ks0⟩

theorem clear_nil (fuel : Nat) (m : TREETYPE) :
    clear fuel { m_root := Tree.nil, m_type := m } = some { m_root := Tree.nil, m_type := m } := by
  cases fuel <;> rfl

/-- The loop of `clear` ends with the root absent once it is allowed as many
iterations as the tree has robots. -/
theorem clear_spec (m : TREETYPE) (fuel : Nat) (t : Tree) (ho : BSTOrdered t)
    (hc : isHeightCorrect t = true) (hf : (keys t).length ≤ fuel) :
    clear fuel { m_root := t, m_type := m } = some { m_root := Tree.nil, m_type := m } := by
  induction fuel generalizing t with
  | zero =>
    have : t = Tree.nil := keys_eq_nil t (List.eq_nil_of_length_eq_zero (by omega))
    subst this; rfl
  | succ n ih =>
    cases t with
    | nil => rfl
    | node l id ty st h r =>
      obtain ⟨t1, e1, ho1, hc1, ks1⟩ := remove_hc m (Tree.node l id ty st h r) id ho hc
      have hmem : id ∈ keys (Tree.node l id ty st h r) := by simp [keys]
      have hlen : (keys t1).length ≤ n := by
        rw [ks1, List.length_erase_of_mem hmem]
        omega
      simp only [clear, e1, Option.some_bind]
      exact ih t1 ho1 hc1 hlen

theorem clone_eq (t : Tree) : clone t = t := by
  induction t with
  | nil => rfl
  | node l id ty st h r ihl ihr => simp only [clone, ihl, ihr]
/-! ## `rebuildAVL` -/

theorem placeSorted_last (k : Int) (x : Int × ROBOTTYPE × STATE)
    (xs : List (Int × ROBOTTYPE × STATE)) (h : ∀ y ∈ xs, y.1 < k) :
    placeSorted k x xs = xs ++ [x] := by
  have := placeSorted_right k x xs [] h
  simpa [placeSorted] using this

theorem mem_inorder_of_mem_keys (t : Tree) (a : Int) (h : a ∈ keys t) :
    ∃ y ∈ inorder t, y.1 = a := by
  rw [keys_eq_map_inorder, List.mem_map] at h
  exact h

/-- Inserting a key above every stored key appends the new robot to the in-order
sequence. -/
theorem insert_above (m : TREETYPE) (t : Tree) (k : Int) (c : ROBOTTYPE) (s : STATE)
    (hw : WellFormed m t) (hk : ∀ a ∈ keys t, a < k) :
    ∃ t1, insert { m_root := t, m_type := m } (Robot.ctor k c s) =
        some { m_root := t1, m_type := m } ∧
      WellFormed m t1 ∧ inorder t1 = inorder t ++ [(k, c, s)] := by
  obtain ⟨t1, e1, hw1, io⟩ := insert_spec m t k c s hw
  have hn : k ∉ keys t := fun hh => by have := hk k hh; omega
  simp only [hn, if_false] at io
  refine ⟨t1, e1, hw1, ?_⟩
  rw [io]
  exact placeSorted_last k (k, c, s) (inorder t)
    (fun y hy => hk _ (mem_keys_of_mem_inorder t y hy))

theorem rebuildAVL_spec (old : Tree) (s : Swarm) (ho : BSTOrdered old)
    (hw : WellFormed TREETYPE.AVL s.m_root)
    (hlt : ∀ a ∈ keys s.m_root, ∀ b ∈ keys old, a < b) :
    ∃ s1, rebuildAVL old s = some s1 ∧ WellFormed TREETYPE.AVL s1.m_root ∧
      inorder s1.m_root = inorder s.m_root ++ inorder old := by
  induction old generalizing s with
  | nil => exact ⟨s, rfl, hw, by simp [inorder]⟩
  | node l id ty st h r ihl ihr =>
    rw [BSTOrdered_node] at ho
    obtain ⟨ol, or, lo, hi⟩ := ho
    have hkl : ∀ a ∈ keys s.m_root, ∀ b ∈ keys l, a < b := fun a ha b hb =>
      hlt a ha b (by simp [keys, hb])
    obtain ⟨s1, e1, hw1, io1⟩ := ihl s ol hw hkl
    have hk1 : ∀ a ∈ keys s1.m_root, a < id := by
      intro a ha
      rw [keys_eq_map_inorder, io1, List.map_append, List.mem_append,
        ← keys_eq_map_inorder, ← keys_eq_map_inorder] at ha
      rcases ha with ha | ha
      · exact hlt a ha id (by simp [keys])
      · exact lo a ha
    obtain ⟨t2, e2, hw2, io2⟩ := insert_above TREETYPE.AVL s1.m_root id ty st hw1 hk1
    have hk2 : ∀ a ∈ keys t2, ∀ b ∈ keys r, a < b := by
      intro a ha b hb
      rw [keys_eq_map_inorder, io2, List.map_append, List.mem_append,
        ← keys_eq_map_inorder] at ha
      have hb1 := hi b hb
      rcases ha with ha | ha
      · have := hk1 a ha; omega
      · simp only [List.map_cons, List.map_nil, List.mem_singleton] at ha
        omega
    obtain ⟨s3, e3, hw3, io3⟩ := ihr { m_root := t2, m_type := TREETYPE.AVL } or hw2 hk2
    refine ⟨s3, ?_, hw3, ?_⟩
    · simp only [rebuildAVL, e1, Option.some_bind, e2]
      exact e3
    · rw [io3, io2, io1]
      simp [inorder]
/-! ## Ascending insertion in `AVL` mode -/

theorem Perfect_nil_iff (n : Nat) : Perfect n Tree.nil ↔ n = 0 := by
  cases n <;> simp [Perfect]

theorem Asc_nil_iff (n : Nat) : Asc n Tree.nil ↔ n = 0 := by
  cases n <;> simp [Asc]

theorem Perfect_height (n : Nat) (t : Tree) (h : Perfect n t) : getHeight t = (n : Int) - 1 := by
  cases n with
  | zero => simp only [Perfect] at h; subst h; rfl
  | succ n =>
    cases t with
    | nil => simp [Perfect] at h
    | node l id ty st ht r =>
      simp only [Perfect] at h
      simp only [getHeight_node, h.1]; push_cast; omega

theorem Asc_height (n : Nat) (t : Tree) (h : Asc n t) : getHeight t = (n : Int) - 1 := by
  cases n with
  | zero => simp only [Asc] at h; subst h; rfl
  | succ n =>
    cases t with
    | nil => simp [Asc] at h
    | node l id ty st ht r =>
      simp only [Asc] at h
      simp only [getHeight_node, h.1]; push_cast; omega

theorem Perfect_asc (n : Nat) (t : Tree) (h : Perfect n t) : Asc n t := by
  induction n generalizing t with
  | zero => simpa [Perfect, Asc] using h
  | succ n ih =>
    cases t with
    | nil => simp [Perfect] at h
    | node l id ty st ht r =>
      simp only [Perfect] at h
      simp only [Asc]
      exact ⟨h.1, ih r h.2.2, Or.inl h.2.1⟩

theorem Grown_asc (n : Nat) (t : Tree) (h : Grown n t) : Asc (n + 1) t := by
  cases t with
  | nil => cases n <;> simp [Grown] at h
  | node l id ty st ht r =>
    cases n with
    | zero =>
      simp only [Grown] at h
      obtain ⟨h1, h2, h3⟩ := h
      subst h2; subst h3
      simp only [Asc]
      exact ⟨by simpa using h1, trivial, Or.inl (by simp [Perfect])⟩
    | succ m =>
      simp only [Grown] at h
      simp only [Asc]
      exact ⟨h.1, h.2.1, Or.inr ⟨by omega, by simpa using h.2.2⟩⟩

theorem Perfect_size (n : Nat) (t : Tree) (h : Perfect n t) : (keys t).length + 1 = 2 ^ n := by
  induction n generalizing t with
  | zero => simp only [Perfect] at h; subst h; rfl
  | succ n ih =>
    cases t with
    | nil => simp [Perfect] at h
    | node l id ty st ht r =>
      simp only [Perfect] at h
      have h1 := ih l h.2.1
      have h2 := ih r h.2.2
      simp only [keys, List.length_append, List.length_cons, pow_succ]
      omega

theorem Asc_size (n : Nat) (t : Tree) (h : Asc (n + 1) t) : 2 ^ n ≤ (keys t).length := by
  induction n generalizing t with
  | zero =>
    cases t with
    | nil => simp [Asc] at h
    | node l id ty st ht r => simp only [keys, List.length_append, List.length_cons]; omega
  | succ n ih =>
    cases t with
    | nil => simp [Asc] at h
    | node l id ty st ht r =>
      simp only [Asc] at h
      obtain ⟨-, hr, hl⟩ := h
      have h2 := ih r hr
      simp only [keys, List.length_append, List.length_cons, pow_succ]
      rcases hl with hl | ⟨-, hl⟩
      · have h1 := Perfect_size _ l hl
        simp only [pow_succ] at h1
        omega
      · have h1 := Perfect_size _ l hl
        simp only [Nat.add_sub_cancel] at h1
        omega

theorem balanceTree_noop (l r : Tree) (id : Int) (ty : ROBOTTYPE) (st : STATE) (h : Int)
    (h1 : ¬ getHeight l - getHeight r > 1) (h2 : ¬ getHeight l - getHeight r < -1) :
    balanceTree (Tree.node l id ty st h r) = some (Tree.node l id ty st h r) := by
  simp only [balanceTree, getBalance, h1, h2, if_false]

theorem balanceTree_right_right (l r : Tree) (id : Int) (ty : ROBOTTYPE) (st : STATE) (h : Int)
    (h1 : getHeight l - getHeight r < -1) (h2 : ¬ getBalance r > 0) :
    balanceTree (Tree.node l id ty st h r) = leftRotate (Tree.node l id ty st h r) := by
  have h0 : ¬ getBalance (Tree.node l id ty st h r) > 1 := by simp only [getBalance]; omega
  have h3 : getBalance (Tree.node l id ty st h r) < -1 := h1
  simp only [balanceTree, h0, h3, h2, if_false, if_true]

/-- Inserting a key above every key of a tree of the ascending shape: a perfect
tree grows by one level, any other tree keeps its number of levels, and the shape
is kept. -/
theorem insertHelper_asc (k : Int) (c : ROBOTTYPE) (s : STATE) (t : Tree) (n : Nat)
    (hA : Asc n t) (hk : ∀ a ∈ keys t, a < k) :
    ∃ t1, insertHelper TREETYPE.AVL (Robot.ctor k c s) t = some t1 ∧
      ((Perfect n t ∧ Grown n t1) ∨ (¬ Perfect n t ∧ Asc n t1)) := by
  induction t generalizing n with
  | nil =>
    have hn : n = 0 := (Asc_nil_iff n).1 hA
    subst hn
    refine ⟨_, rfl, Or.inl ⟨by simp [Perfect], ?_⟩⟩
    simp [Grown, Robot.toTree, Robot.ctor]
  | node l id ty st h r _ ihr =>
    cases n with
    | zero => simp [Asc] at hA
    | succ n =>
      simp only [Asc] at hA
      obtain ⟨eh, hr, hl⟩ := hA
      have hid : id < k := hk id (by simp [keys])
      have hkr : ∀ a ∈ keys r, a < k := fun a ha => hk a (by simp [keys, ha])
      obtain ⟨r1, e1, hcase⟩ := ihr n hr hkr
      have kid : (Robot.ctor k c s).m_id = k := rfl
      have c1 : ¬ k < id := by omega
      have c2 : k > id := by omega
      have eins : insertHelper TREETYPE.AVL (Robot.ctor k c s) (Tree.node l id ty st h r) =
          balanceTree (Tree.node l id ty st (1 + max (getHeight l) (getHeight r1)) r1) := by
        simp only [insertHelper, kid, c1, c2, if_false, if_true, e1, Option.some_bind,
          updateAndBalance]
      rw [eins]
      rcases hl with hl | ⟨hn1, hl⟩
      · have gl := Perfect_height n l hl
        rcases hcase with ⟨pr, gr⟩ | ⟨npr, ar⟩
        · have gr1 := Asc_height (n + 1) r1 (Grown_asc n r1 gr)
          push_cast at gr1
          refine ⟨_, balanceTree_noop _ _ _ _ _ _ (by omega) (by omega), Or.inl ⟨?_, ?_⟩⟩
          · simp only [Perfect]; exact ⟨eh, hl, pr⟩
          · simp only [Grown]
            refine ⟨?_, Grown_asc n r1 gr, hl⟩
            rw [gl, gr1]; push_cast; omega
        · have gr1 := Asc_height n r1 ar
          refine ⟨_, balanceTree_noop _ _ _ _ _ _ (by omega) (by omega), Or.inr ⟨?_, ?_⟩⟩
          · simp only [Perfect]; exact fun hp => npr hp.2.2
          · simp only [Asc]
            refine ⟨?_, ar, Or.inl hl⟩
            rw [gl, gr1]; omega
      · obtain ⟨p, hp⟩ : ∃ p, n = p + 1 := ⟨n - 1, by omega⟩
        subst hp
        simp only [Nat.add_sub_cancel] at hl
        have gl := Perfect_height p l hl
        have hnp : ¬ Perfect (p + 1 + 1) (Tree.node l id ty st h r) := by
          simp only [Perfect]
          intro hh
          have := Perfect_height (p + 1) l hh.2.1
          push_cast at this
          omega
        rcases hcase with ⟨pr, gr⟩ | ⟨npr, ar⟩
        · cases r1 with
          | nil => simp [Grown] at gr
          | node rl cid cty cst ch rr =>
            simp only [Grown] at gr
            obtain ⟨ech, arr, prl⟩ := gr
            have grl := Perfect_height p rl prl
            have grr := Asc_height (p + 1) rr arr
            push_cast at ech grr
            have hb : balanceTree (Tree.node l id ty st
                (1 + max (getHeight l) (getHeight (Tree.node rl cid cty cst ch rr)))
                (Tree.node rl cid cty cst ch rr)) =
                leftRotate (Tree.node l id ty st
                  (1 + max (getHeight l) (getHeight (Tree.node rl cid cty cst ch rr)))
                  (Tree.node rl cid cty cst ch rr)) := by
              apply balanceTree_right_right
              · simp only [getHeight_node]; omega
              · simp only [getBalance]; omega
            rw [hb]
            refine ⟨_, rfl, Or.inr ⟨hnp, ?_⟩⟩
            simp only [Asc, Perfect, getHeight_node]
            refine ⟨?_, arr, Or.inl ⟨?_, hl, prl⟩⟩
            · rw [gl, grl, grr]; push_cast; omega
            · rw [gl, grl]; omega
        · have gr1 := Asc_height (p + 1) r1 ar
          push_cast at gr1
          refine ⟨_, balanceTree_noop _ _ _ _ _ _ (by omega) (by omega), Or.inr ⟨hnp, ?_⟩⟩
          simp only [Asc]
          refine ⟨?_, ar, Or.inr ⟨by omega, by simpa using hl⟩⟩
          rw [gl, gr1]; push_cast; omega
/-! ## Runs of inserts in `AVL` mode: size and height -/

theorem insert_AVL_of_insertHelper (t t0 : Tree) (k : Int) (c : ROBOTTYPE) (s : STATE)
    (hw : WellFormed TREETYPE.AVL t)
    (e0 : insertHelper TREETYPE.AVL (Robot.ctor k c s) t = some t0) :
    insert { m_root := t, m_type := TREETYPE.AVL } (Robot.ctor k c s) =
      some { m_root := t0, m_type := TREETYPE.AVL } := by
  obtain ⟨t1, e1, -, hb1, -⟩ := insertHelper_wf TREETYPE.AVL k c s t hw.2.1 hw.2.2
  rw [e0, Option.some.injEq] at e1
  subst e1
  rw [insert_eq, e0, Option.some_bind]
  simp only [if_true, balanceTree_of_balanced t0 (hb1 rfl), Option.map_some']

theorem insertRobots_nil (s : Swarm) : insertRobots s [] = some s := rfl

theorem insertRobots_cons (s : Swarm) (e : Int × ROBOTTYPE × STATE)
    (es : List (Int × ROBOTTYPE × STATE)) :
    insertRobots s (e :: es) =
      (insert s (Robot.ctor e.1 e.2.1 e.2.2)).bind fun s1 => insertRobots s1 es := rfl

theorem insertKeys_eq_insertRobots (s : Swarm) (ks : List Int) :
    insertKeys s ks = insertRobots s (ks.map fun k => (k, ROBOTTYPE.DRONE, STATE.ALIVE)) := by
  simp only [insertKeys, insertRobots, List.map_map]
  rfl

/-- A run of inserts with strictly increasing keys, all above the stored keys,
keeps the ascending shape and appends the robots to the in-order sequence. -/
theorem insertRobots_ascending (es : List (Int × ROBOTTYPE × STATE)) (t : Tree) (n : Nat)
    (hw : WellFormed TREETYPE.AVL t) (hA : Asc n t)
    (hlt : ∀ a ∈ keys t, ∀ e ∈ es, a < e.1)
    (hs : es.Pairwise (fun a b => a.1 < b.1)) :
    ∃ t1 n1, insertRobots { m_root := t, m_type := TREETYPE.AVL } es =
        some { m_root := t1, m_type := TREETYPE.AVL } ∧
      WellFormed TREETYPE.AVL t1 ∧ Asc n1 t1 ∧ inorder t1 = inorder t ++ es := by
  induction es generalizing t n with
  | nil => exact ⟨t, n, rfl, hw, hA, by simp⟩
  | cons e es ih =>
    rw [List.pairwise_cons] at hs
    have hk : ∀ a ∈ keys t, a < e.1 := fun a ha => hlt a ha e (List.mem_cons_self _ _)
    obtain ⟨t1, e1, hw1, io1⟩ := insert_above TREETYPE.AVL t e.1 e.2.1 e.2.2 hw hk
    obtain ⟨t0, e0, hcase⟩ := insertHelper_asc e.1 e.2.1 e.2.2 t n hA hk
    have e2 := insert_AVL_of_insertHelper t t0 e.1 e.2.1 e.2.2 hw e0
    rw [e1, Option.some.injEq, Swarm.mk.injEq] at e2
    have e3 : t1 = t0 := e2.1
    subst e3
    have hA1 : ∃ n1, Asc n1 t1 := by
      rcases hcase with ⟨-, g⟩ | ⟨-, a⟩
      · exact ⟨n + 1, Grown_asc n t1 g⟩
      · exact ⟨n, a⟩
    obtain ⟨n1, hA1⟩ := hA1
    have hlt1 : ∀ a ∈ keys t1, ∀ x ∈ es, a < x.1 := by
      intro a ha x hx
      rw [keys_eq_map_inorder, io1, List.map_append, List.mem_append,
        ← keys_eq_map_inorder] at ha
      rcases ha with ha | ha
      · exact hlt a ha x (List.mem_cons_of_mem _ hx)
      · simp only [List.map_cons, List.map_nil, List.mem_singleton] at ha
        subst ha
        exact hs.1 x hx
    obtain ⟨t2, n2, e4, hw2, hA2, io2⟩ := ih t1 n1 hw1 hA1 hlt1 hs.2
    refine ⟨t2, n2, ?_, hw2, hA2, ?_⟩
    · rw [insertRobots_cons, e1, Option.some_bind]; exact e4
    · rw [io2, io1]; simp

/-- A run of inserts with pairwise distinct keys, none of them stored yet, stores
every robot of the run. -/
theorem insertRobots_distinct (m : TREETYPE) (es : List (Int × ROBOTTYPE × STATE)) (t : Tree)
    (hw : WellFormed m t) (hnd : (es.map Prod.fst).Nodup)
    (hfresh : ∀ e ∈ es, e.1 ∉ keys t) :
    ∃ t1, insertRobots { m_root := t, m_type := m } es = some { m_root := t1, m_type := m } ∧
      WellFormed m t1 ∧ (inorder t1).Perm (es ++ inorder t) := by
  induction es generalizing t with
  | nil => exact ⟨t, rfl, hw, by simp⟩
  | cons e es ih =>
    rw [List.map_cons, List.nodup_cons] at hnd
    have hk : e.1 ∉ keys t := hfresh e (List.mem_cons_self _ _)
    obtain ⟨t1, e1, hw1, io1⟩ := insert_spec m t e.1 e.2.1 e.2.2 hw
    simp only [hk, if_false] at io1
    have hs := split_at_key e.1 (inorder t) ((BSTOrdered_iff_inorder t).1 hw.1)
      (by rw [← keys_eq_map_inorder]; exact hk)
    have hp1 : (inorder t1).Perm (e :: inorder t) := by
      rw [io1, placeSorted]
      conv_rhs => rw [hs]
      exact List.perm_middle
    have hfresh1 : ∀ x ∈ es, x.1 ∉ keys t1 := by
      intro x hx hmem
      rw [keys_eq_map_inorder] at hmem
      have := (hp1.map Prod.fst).subset hmem
      simp only [List.map_cons, List.mem_cons] at this
      rcases this with h1 | h1
      · exact hnd.1 (h1 ▸ List.mem_map_of_mem Prod.fst hx)
      · rw [← keys_eq_map_inorder] at h1
        exact hfresh x (List.mem_cons_of_mem _ hx) h1
    obtain ⟨t2, e2, hw2, hp2⟩ := ih t1 hw1 hnd.2 hfresh1
    refine ⟨t2, ?_, hw2, ?_⟩
    · rw [insertRobots_cons, e1, Option.some_bind]; exact e2
    · refine hp2.trans ?_
      refine (List.Perm.append_left es hp1).trans ?_
      exact List.perm_middle

theorem minNodes_mono_succ (n : Nat) : minNodes n ≤ minNodes (n + 1) := by
  cases n with
  | zero => simp [minNodes]
  | succ n => simp only [minNodes]; omega

theorem minNodes_mono (a b : Nat) (h : a ≤ b) : minNodes a ≤ minNodes b := by
  induction h with
  | refl => exact le_rfl
  | step _ ih => exact le_trans ih (minNodes_mono_succ _)

/-- A balanced tree with correct cached heights has at least `minNodes` robots for
its number of levels. -/
theorem minNodes_le_size (t : Tree) (hc : isHeightCorrect t = true)
    (hb : isBalanced t = true) : minNodes (levels t) ≤ (keys t).length := by
  induction t with
  | nil => simp [levels, getHeight, minNodes]
  | node l id ty st h r ihl ihr =>
    rw [isHeightCorrect_node] at hc
    rw [isBalanced_node] at hb
    obtain ⟨eh, hl, hr⟩ := hc
    obtain ⟨⟨b1, b2⟩, bl, br⟩ := hb
    have gl := getHeight_ge l hl
    have gr := getHeight_ge r hr
    have h1 := ihl hl bl
    have h2 := ihr hr br
    simp only [keys, List.length_append, List.length_cons]
    obtain ⟨a, ha⟩ : ∃ a : Nat, levels l = a := ⟨_, rfl⟩
    obtain ⟨b, hb0⟩ : ∃ b : Nat, levels r = b := ⟨_, rfl⟩
    rw [ha] at h1
    rw [hb0] at h2
    have ea : getHeight l = (a : Int) - 1 := by simp only [levels] at ha; omega
    have eb : getHeight r = (b : Int) - 1 := by simp only [levels] at hb0; omega
    have et : levels (Tree.node l id ty st h r) = max a b + 1 := by
      simp only [levels, getHeight_node]; omega
    rw [et]
    rcases Nat.lt_trichotomy a b with hab | hab | hab
    · have : b = a + 1 := by omega
      subst this
      rw [Nat.max_eq_right (by omega)]
      simp only [minNodes]; omega
    · subst hab
      rw [Nat.max_self]
      have := minNodes_mono_succ a
      cases a with
      | zero => simp only [minNodes]; omega
      | succ a =>
        have := minNodes_mono_succ a
        simp only [minNodes]; omega
    · have : a = b + 1 := by omega
      subst this
      rw [Nat.max_eq_left (by omega)]
      simp only [minNodes]; omega

theorem pow_half_le_minNodes (n : Nat) : 2 ^ ((n + 1) / 2) ≤ minNodes (n + 1) := by
  induction n using Nat.strong_induction_on with
  | _ n ih =>
    match n with
    | 0 => simp [minNodes]
    | 1 => simp [minNodes]
    | n + 2 =>
      have h1 := ih n (by omega)
      have h2 := minNodes_mono_succ (n + 1)
      have e : (n + 2 + 1) / 2 = (n + 1) / 2 + 1 := by omega
      rw [e, pow_succ]
      simp only [minNodes] at h2 ⊢
      omega
/-! ## Which attributes `remove` leaves under which key -/

/-- Removing the key of the first robot in in-order position leaves the rest of
the in-order sequence, in every mode in which the call returns. -/
theorem removeHelper_first (m : TREETYPE) (t t1 : Tree) (ho : BSTOrdered t)
    (e : Int × ROBOTTYPE × STATE) (rest : List (Int × ROBOTTYPE × STATE))
    (hi : inorder t = e :: rest) (h : removeHelper m t e.1 = some t1) :
    inorder t1 = rest := by
  induction t generalizing rest t1 with
  | nil => simp [inorder] at hi
  | node l id ty st ht r ihl _ =>
    rw [BSTOrdered_node] at ho
    obtain ⟨ol, -, lo, -⟩ := ho
    cases l with
    | nil =>
      simp only [inorder, List.nil_append, List.cons.injEq] at hi
      obtain ⟨h1, h2⟩ := hi
      subst h1
      rw [removeHelper_left_nil m r id id ty st ht (by simp) (by simp),
        Option.some.injEq] at h
      subst h
      exact h2
    | node ll lid lty lst lh lr =>
      cases hl : inorder (Tree.node ll lid lty lst lh lr) with
      | nil => simp [inorder] at hl
      | cons e1 rest1 =>
        rw [inorder, hl, List.cons_append, List.cons.injEq] at hi
        obtain ⟨h1, h2⟩ := hi
        subst h1
        have hlt : e1.1 < id := by
          apply lo
          apply mem_keys_of_mem_inorder
          rw [hl]; exact List.mem_cons_self _ _
        rw [removeHelper_lt m _ r id e1.1 ty st ht hlt] at h
        cases e2 : removeHelper m (Tree.node ll lid lty lst lh lr) e1.1 with
        | none => simp [e2] at h
        | some l1 =>
          simp only [e2, Option.some_bind] at h
          rw [updateAndBalance_inorder _ _ _ h, inorder, ihl l1 ol rest1 hl e2, h2]

/-- The in-order sequence after `removeHelper(t, k)` on a BST-ordered tree: either
`k` is not stored and nothing changes, or the entry of `k` is dropped, or (when
the robot holding `k` has two children) the entry of `k` is dropped and the next
entry, the in-order successor, keeps its key but takes the category and state
that were stored under `k`. -/
theorem removeHelper_inorder_cases (m : TREETYPE) (t t1 : Tree) (k : Int)
    (ho : BSTOrdered t) (h : removeHelper m t k = some t1) :
    (k ∉ keys t ∧ inorder t1 = inorder t) ∨
    (∃ pre c s post, inorder t = pre ++ (k, c, s) :: post ∧ inorder t1 = pre ++ post) ∨
    (∃ pre c s j cj sj post, inorder t = pre ++ (k, c, s) :: (j, cj, sj) :: post ∧
      inorder t1 = pre ++ (j, c, s) :: post) := by
  induction t generalizing t1 with
  | nil =>
    simp only [removeHelper, Option.some.injEq] at h
    subst h
    exact Or.inl ⟨by simp [keys], rfl⟩
  | node l id ty st ht r ihl ihr =>
    have ho0 := ho
    rw [BSTOrdered_node] at ho
    obtain ⟨ol, or, lo, hi⟩ := ho
    by_cases c1 : k < id
    · rw [removeHelper_lt m l r id k ty st ht c1] at h
      cases e1 : removeHelper m l k with
      | none => simp [e1] at h
      | some l1 =>
        simp only [e1, Option.some_bind] at h
        have io := updateAndBalance_inorder _ _ _ h
        rw [io]
        simp only [inorder]
        rcases ihl l1 ol e1 with ⟨hn, e⟩ | ⟨pre, c, s, post, e, e'⟩ |
          ⟨pre, c, s, j, cj, sj, post, e, e'⟩
        · refine Or.inl ⟨?_, by rw [e]⟩
          simp only [keys, List.mem_append, List.mem_cons, not_or]
          exact ⟨hn, by omega, fun hk => by have := hi k hk; omega⟩
        · exact Or.inr (Or.inl ⟨pre, c, s, post ++ (id, ty, st) :: inorder r,
            by rw [e]; simp, by rw [e']; simp⟩)
        · exact Or.inr (Or.inr ⟨pre, c, s, j, cj, sj, post ++ (id, ty, st) :: inorder r,
            by rw [e]; simp, by rw [e']; simp⟩)
    · by_cases c2 : k > id
      · rw [removeHelper_gt m l r id k ty st ht c1 c2] at h
        cases e1 : removeHelper m r k with
        | none => simp [e1] at h
        | some r1 =>
          simp only [e1, Option.some_bind] at h
          have io := updateAndBalance_inorder _ _ _ h
          rw [io]
          simp only [inorder]
          rcases ihr r1 or e1 with ⟨hn, e⟩ | ⟨pre, c, s, post, e, e'⟩ |
            ⟨pre, c, s, j, cj, sj, post, e, e'⟩
          · refine Or.inl ⟨?_, by rw [e]⟩
            simp only [keys, List.mem_append, List.mem_cons, not_or]
            exact ⟨fun hk => by have := lo k hk; omega, by omega, hn⟩
          · exact Or.inr (Or.inl ⟨inorder l ++ (id, ty, st) :: pre, c, s, post,
              by rw [e]; simp, by rw [e']; simp⟩)
          · exact Or.inr (Or.inr ⟨inorder l ++ (id, ty, st) :: pre, c, s, j, cj, sj, post,
              by rw [e]; simp, by rw [e']; simp⟩)
      · have hk : k = id := by omega
        subst hk
        cases l with
        | nil =>
          rw [removeHelper_left_nil m r k k ty st ht c1 c2, Option.some.injEq] at h
          subst h
          exact Or.inr (Or.inl ⟨[], ty, st, inorder r, by simp [inorder], by simp⟩)
        | node ll lid lty lst lh lr =>
          cases r with
          | nil =>
            rw [removeHelper_right_nil m ll lr k lid k ty lty st lst ht lh c1 c2,
              Option.some.injEq] at h
            subst h
            exact Or.inr (Or.inl ⟨inorder (Tree.node ll lid lty lst lh lr), ty, st, [],
              by simp [inorder], by simp⟩)
          | node rl cid cty cst ch rr =>
            rw [removeHelper_two m ll lr rl rr k lid cid k ty lty cty st lst cst ht lh ch c1 c2]
              at h
            obtain ⟨mid, krest, e0, ek⟩ := getMinNode_spec (Tree.node rl cid cty cst ch rr)
              (by simp)
            rw [e0, Option.some_bind] at h
            cases hio : inorder (Tree.node rl cid cty cst ch rr) with
            | nil => rw [keys_eq_map_inorder, hio] at ek; simp at ek
            | cons minE rest =>
              have hmid : mid = minE.1 := by
                rw [keys_eq_map_inorder, hio, List.map_cons, List.cons.injEq] at ek
                exact ek.1.symm
              subst hmid
              cases e1 : removeHelper m (Tree.node rl cid cty cst ch rr) minE.1 with
              | none => simp [e1] at h
              | some r1 =>
                simp only [e1, Option.some_bind] at h
                have io1 := removeHelper_first m _ r1 or minE rest hio e1
                have io := updateAndBalance_inorder _ _ _ h
                refine Or.inr (Or.inr ⟨inorder (Tree.node ll lid lty lst lh lr), ty, st,
                  minE.1, minE.2.1, minE.2.2, rest, ?_, ?_⟩)
                · rw [inorder, hio]
                · rw [io, inorder, io1]

/-! ## Height correctness alone keeps `insert` defined -/

theorem insertHelper_hc (m : TREETYPE) (k : Int) (c : ROBOTTYPE) (s : STATE) (t : Tree)
    (ht : isHeightCorrect t = true) :
    ∃ t1, insertHelper m (Robot.ctor k c s) t = some t1 ∧ isHeightCorrect t1 = true := by
  induction t with
  | nil =>
    refine ⟨_, rfl, ?_⟩
    simp [Robot.toTree, Robot.ctor, isHeightCorrect, getHeight]
  | node l id ty st h r ihl ihr =>
    rw [isHeightCorrect_node] at ht
    obtain ⟨-, hl, hr⟩ := ht
    have kid : (Robot.ctor k c s).m_id = k := rfl
    simp only [insertHelper, kid]
    by_cases c1 : k < id
    · obtain ⟨l1, e1, hl1⟩ := ihl hl
      obtain ⟨t1, e2, ht1⟩ := updateAndBalance_hc m l1 r id ty st h hl1 hr
      exact ⟨t1, by simp only [c1, if_true, e1, Option.some_bind]; exact e2, ht1⟩
    · by_cases c2 : k > id
      · obtain ⟨r1, e1, hr1⟩ := ihr hr
        obtain ⟨t1, e2, ht1⟩ := updateAndBalance_hc m l r1 id ty st h hl hr1
        exact ⟨t1, by simp only [c1, c2, if_true, if_false, e1, Option.some_bind]; exact e2,
          ht1⟩
      · obtain ⟨t1, e2, ht1⟩ := updateAndBalance_hc m l r id ty st h hl hr
        exact ⟨t1, by simp only [c1, c2, if_false]; exact e2, ht1⟩

theorem balanceTree_hc_any (t : Tree) (hc : isHeightCorrect t = true) :
    ∃ t1, balanceTree t = some t1 ∧ isHeightCorrect t1 = true := by
  cases t with
  | nil => exact ⟨Tree.nil, rfl, rfl⟩
  | node l id ty st h r =>
    rw [isHeightCorrect_node] at hc
    rw [hc.1]
    exact balanceTree_hc l r id ty st hc.2.1 hc.2.2

/-- `insert` of a freshly constructed robot returns on every tree with correct
cached heights, in every mode, BST-ordered and balanced or not. -/
theorem insert_hc (m : TREETYPE) (t : Tree) (k : Int) (c : ROBOTTYPE) (s : STATE)
    (hc : isHeightCorrect t = true) :
    ∃ t1, insert { m_root := t, m_type := m } (Robot.ctor k c s) =
        some { m_root := t1, m_type := m } ∧ isHeightCorrect t1 = true := by
  obtain ⟨t0, e0, hc0⟩ := insertHelper_hc m k c s t hc
  rw [insert_eq, e0, Option.some_bind]
  by_cases h1 : m = TREETYPE.AVL
  · simp only [h1, if_true]
    obtain ⟨t1, e1, hc1⟩ := balanceTree_hc_any t0 hc0
    rw [e1]
    exact ⟨t1, rfl, hc1⟩
  · simp only [h1, if_false]
    by_cases h2 : m = TREETYPE.SPLAY
    · simp only [h2, if_true]
      obtain ⟨t1, e1, -, hc1, -⟩ := splay_spec t0 (Robot.ctor k c s).m_id
      rw [e1]
      exact ⟨t1, rfl, hc1 hc0⟩
    · simp only [h2, if_false]
      exact ⟨t0, rfl, hc0⟩

/-- `remove` returns on every tree with correct cached heights, in every mode,
BST-ordered and balanced or not. -/
theorem remove_some_of_hc (m : TREETYPE) (t : Tree) (k : Int)
    (hc : isHeightCorrect t = true) :
    ∃ t1, remove { m_root := t, m_type := m } k = some { m_root := t1, m_type := m } ∧
      isHeightCorrect t1 = true := by
  obtain ⟨t0, e0, hc0⟩ := removeHelper_hc m t k hc
  rw [remove_eq, e0, Option.some_bind]
  by_cases h1 : m = TREETYPE.AVL
  · simp only [h1, if_true]
    obtain ⟨t1, e1, hc1⟩ := balanceTree_hc_any t0 hc0
    rw [e1]
    exact ⟨t1, rfl, hc1⟩
  · simp only [h1, if_false]
    by_cases h2 : m = TREETYPE.SPLAY
    · simp only [h2, if_true]
      obtain ⟨t1, e1, -, hc1, -⟩ := splay_spec t0 k
      rw [e1]
      exact ⟨t1, rfl, hc1 hc0⟩
    · simp only [h2, if_false]
      exact ⟨t0, rfl, hc0⟩

theorem leftRotate_eq_none_iff (x : Tree) : leftRotate x = none ↔ hasRight x = false := by
  cases x with
  | nil => simp [leftRotate, hasRight]
  | node l id ty st h r => cases r <;> simp [leftRotate, hasRight]

theorem rightRotate_eq_none_iff (y : Tree) : rightRotate y = none ↔ hasLeft y = false := by
  cases y with
  | nil => simp [rightRotate, hasLeft]
  | node l id ty st h r => cases l <;> simp [rightRotate, hasLeft]

theorem getMinNode_eq_none_iff (t : Tree) : getMinNode t = none ↔ t = Tree.nil := by
  constructor
  · intro h
    by_contra hne
    obtain ⟨mid, rest, e, -⟩ := getMinNode_spec t hne
    rw [h] at e
    simp at e
  · intro h; subst h; rfl

/-! ## Heights stay inside the range of `int` on trees with correct cached heights -/

theorem heightsInIntRange_node (l r : Tree) (id : Int) (ty : ROBOTTYPE) (st : STATE) (h : Int) :
    heightsInIntRange (Tree.node l id ty st h r) = true ↔
      (INT_MIN ≤ h ∧ h ≤ INT_MAX) ∧ heightsInIntRange l = true ∧ heightsInIntRange r = true := by
  simp only [heightsInIntRange, Bool.and_eq_true, decide_eq_true_eq, and_assoc]

/-- In a tree with correct cached heights every cached height lies between 0 and
the height cached at the root. -/
theorem heightsInIntRange_of_hc (t : Tree) (hc : isHeightCorrect t = true)
    (hb : getHeight t ≤ INT_MAX) : heightsInIntRange t = true := by
  induction t with
  | nil => rfl
  | node l id ty st h r ihl ihr =>
    rw [isHeightCorrect_node] at hc
    obtain ⟨eh, hl, hr⟩ := hc
    have gl := getHeight_ge l hl
    have gr := getHeight_ge r hr
    simp only [getHeight_node] at hb
    rw [heightsInIntRange_node]
    refine ⟨⟨?_, hb⟩, ihl hl (by omega), ihr hr (by omega)⟩
    simp only [INT_MIN]; omega

theorem wrapInt_of_inRange (x : Int) (h1 : INT_MIN ≤ x) (h2 : x ≤ INT_MAX) : wrapInt x = x := by
  simp only [INT_MIN, INT_MAX] at h1 h2
  simp only [wrapInt]
  omega

/-! ## Claims -/

/-- C1. BST order is preserved by insert and remove in every mode: on a tree that
is BST-ordered with correct cached heights (and AVL-balanced in `AVL` mode),
`insert` of a freshly constructed robot and `remove` of any key both return, and
the resulting tree has a strictly increasing in-order key sequence (and passes
`Tester::isBST`); consequently every run of inserts and removes from the empty
tree returns a BST-ordered tree. -/
theorem C1_bst_order_preserved (m : TREETYPE) (t : Tree) (hw : WellFormed m t)
    (k : Int) (c : ROBOTTYPE) (s : STATE) (j : Int) (ops : List Op) :
    (∃ s1, insert { m_root := t, m_type := m } (Robot.ctor k c s) = some s1 ∧
      BSTOrdered s1.m_root ∧ isBST s1.m_root none none = true) ∧
    (∃ s2, remove { m_root := t, m_type := m } j = some s2 ∧
      BSTOrdered s2.m_root ∧ isBST s2.m_root none none = true) ∧
    (∃ s3, runOps { m_root := Tree.nil, m_type := m } ops = some s3 ∧
      BSTOrdered s3.m_root ∧ isBST s3.m_root none none = true) := by
  obtain ⟨t1, e1, hw1, -⟩ := insert_spec m t k c s hw
  obtain ⟨t2, e2, hw2, -⟩ := remove_spec m t j hw
  obtain ⟨t3, e3, hw3⟩ := runOps_spec m ops Tree.nil (wellFormed_nil m)
  exact ⟨⟨_, e1, hw1.1, (isBST_iff_BSTOrdered t1).2 hw1.1⟩,
    ⟨_, e2, hw2.1, (isBST_iff_BSTOrdered t2).2 hw2.1⟩,
    ⟨_, e3, hw3.1, (isBST_iff_BSTOrdered t3).2 hw3.1⟩⟩

theorem C1_bst_order_preserved_witness :
    WellFormed TREETYPE.AVL sampleTree ∧
    ((∃ s1, insert { m_root := sampleTree, m_type := TREETYPE.AVL }
        (Robot.ctor 10004 ROBOTTYPE.DRONE STATE.ALIVE) = some s1 ∧
      BSTOrdered s1.m_root ∧ isBST s1.m_root none none = true) ∧
    (∃ s2, remove { m_root := sampleTree, m_type := TREETYPE.AVL } 10002 = some s2 ∧
      BSTOrdered s2.m_root ∧ isBST s2.m_root none none = true) ∧
    (∃ s3, runOps { m_root := Tree.nil, m_type := TREETYPE.AVL }
        [Op.ins 10001 ROBOTTYPE.DRONE STATE.ALIVE, Op.rem 10001] = some s3 ∧
      BSTOrdered s3.m_root ∧ isBST s3.m_root none none = true)) :=
  ⟨by decide, C1_bst_order_preserved TREETYPE.AVL sampleTree (by decide) 10004
    ROBOTTYPE.DRONE STATE.ALIVE 10002
    [Op.ins 10001 ROBOTTYPE.DRONE STATE.ALIVE, Op.rem 10001]⟩

/-- C2. AVL balance is preserved by insert and remove in `AVL` mode: on a tree
that is BST-ordered, has correct cached heights and is balanced at every robot,
`insert` of a freshly constructed robot and `remove` of any key both return a
tree in which every robot satisfies |height(left) - height(right)| <= 1
(`Tester::isBalanced`, absent subtree height `-1`). -/
theorem C2_avl_balance_preserved (t : Tree) (hw : WellFormed TREETYPE.AVL t)
    (k : Int) (c : ROBOTTYPE) (s : STATE) (j : Int) :
    (∃ s1, insert { m_root := t, m_type := TREETYPE.AVL } (Robot.ctor k c s) = some s1 ∧
      s1.m_type = TREETYPE.AVL ∧ isBalanced s1.m_root = true) ∧
    (∃ s2, remove { m_root := t, m_type := TREETYPE.AVL } j = some s2 ∧
      s2.m_type = TREETYPE.AVL ∧ isBalanced s2.m_root = true) := by
  obtain ⟨t1, e1, hw1, -⟩ := insert_spec TREETYPE.AVL t k c s hw
  obtain ⟨t2, e2, hw2, -⟩ := remove_spec TREETYPE.AVL t j hw
  exact ⟨⟨_, e1, rfl, hw1.2.2 rfl⟩, ⟨_, e2, rfl, hw2.2.2 rfl⟩⟩

theorem C2_avl_balance_preserved_witness :
    WellFormed TREETYPE.AVL sampleTree ∧
    ((∃ s1, insert { m_root := sampleTree, m_type := TREETYPE.AVL }
        (Robot.ctor 10004 ROBOTTYPE.DRONE STATE.ALIVE) = some s1 ∧
      s1.m_type = TREETYPE.AVL ∧ isBalanced s1.m_root = true) ∧
    (∃ s2, remove { m_root := sampleTree, m_type := TREETYPE.AVL } 10001 = some s2 ∧
      s2.m_type = TREETYPE.AVL ∧ isBalanced s2.m_root = true)) :=
  ⟨by decide, C2_avl_balance_preserved sampleTree (by decide) 10004
    ROBOTTYPE.DRONE STATE.ALIVE 10001⟩

/-- C3. Height correctness is preserved by insert and remove in every mode
(`SPLAY` included, where the splay rotations run after the structural change): on
a well-formed tree, `insert` of a freshly constructed robot and `remove` of any
key both return a tree in which every cached height equals
1 + max(height(left), height(right)) (`Tester::isHeightCorrect`). -/
theorem C3_height_correct_preserved (m : TREETYPE) (t : Tree) (hw : WellFormed m t)
    (k : Int) (c : ROBOTTYPE) (s : STATE) (j : Int) :
    (∃ s1, insert { m_root := t, m_type := m } (Robot.ctor k c s) = some s1 ∧
      isHeightCorrect s1.m_root = true) ∧
    (∃ s2, remove { m_root := t, m_type := m } j = some s2 ∧
      isHeightCorrect s2.m_root = true) := by
  obtain ⟨t1, e1, hw1, -⟩ := insert_spec m t k c s hw
  obtain ⟨t2, e2, hw2, -⟩ := remove_spec m t j hw
  exact ⟨⟨_, e1, hw1.2.1⟩, ⟨_, e2, hw2.2.1⟩⟩

theorem C3_height_correct_preserved_witness :
    WellFormed TREETYPE.SPLAY sampleTree ∧
    ((∃ s1, insert { m_root := sampleTree, m_type := TREETYPE.SPLAY }
        (Robot.ctor 10004 ROBOTTYPE.DRONE STATE.ALIVE) = some s1 ∧
      isHeightCorrect s1.m_root = true) ∧
    (∃ s2, remove { m_root := sampleTree, m_type := TREETYPE.SPLAY } 10002 = some s2 ∧
      isHeightCorrect s2.m_root = true)) :=
  ⟨by decide, C3_height_correct_preserved TREETYPE.SPLAY sampleTree (by decide) 10004
    ROBOTTYPE.DRONE STATE.ALIVE 10002⟩

/-- C4. Splay-to-root on insert: for every BST-ordered tree in `SPLAY` mode and
every freshly constructed robot with key `k`, `insert` returns and the root then
holds `k`: the new robot when `k` was absent, the robot already stored under `k`
when it was present.  Scenario of `Tester::testSplayOperation`: inserting
10001..10010 in order leaves the just-inserted key at the root after each insert,
and inserting 10005 again leaves 10005 at the root. -/
theorem C4_splay_to_root_on_insert (t : Tree) (ho : BSTOrdered t)
    (k : Int) (c : ROBOTTYPE) (s : STATE) :
    (∃ t1, insert { m_root := t, m_type := TREETYPE.SPLAY } (Robot.ctor k c s) =
        some { m_root := t1, m_type := TREETYPE.SPLAY } ∧
      getID t1 = some k ∧
      (k ∉ keys t → rootEntity t1 = some (k, c, s)) ∧
      (k ∈ keys t → ∃ c0 s0, (k, c0, s0) ∈ inorder t ∧ rootEntity t1 = some (k, c0, s0))) ∧
    (∀ n ∈ List.range 10,
      rootKey (insertKeys { m_root := Tree.nil, m_type := TREETYPE.SPLAY } (idsUpTo (n + 1))) =
        some (MINID + 1 + (n : Int))) ∧
    rootKey (insertKeys { m_root := Tree.nil, m_type := TREETYPE.SPLAY }
      (idsUpTo 10 ++ [MINID + 5])) = some (MINID + 5) := by
  refine ⟨?_, by decide, by decide⟩
  have hm : TREETYPE.SPLAY ≠ TREETYPE.AVL := by decide
  obtain ⟨t0, e0⟩ := insertHelper_some_of_ne_AVL TREETYPE.SPLAY hm (Robot.ctor k c s) t
  have io0 := insertHelper_inorder TREETYPE.SPLAY k c s t t0 ho e0
  obtain ⟨t1, e1, io1, -, re1⟩ := splay_spec t0 k
  have ho0 : BSTOrdered t0 := by
    rw [BSTOrdered_iff_inorder, io0]
    split_ifs
    · exact (BSTOrdered_iff_inorder t).1 ho
    · exact placeSorted_pairwise k c s _ ((BSTOrdered_iff_inorder t).1 ho)
  have hk0 : k ∈ keys t0 := by
    rw [keys_eq_map_inorder, io0]
    split_ifs with hk
    · rw [← keys_eq_map_inorder]; exact hk
    · exact List.mem_map_of_mem Prod.fst (mem_keys_placeSorted k c s _)
  obtain ⟨c0, s0, es, hmem⟩ := searchStop_of_mem t0 k ho0 hk0
  rw [es] at re1
  refine ⟨t1, ?_, ?_, ?_, ?_⟩
  · rw [insert_eq, e0, Option.some_bind]
    simp only [hm, if_false, if_true]
    have : (Robot.ctor k c s).m_id = k := rfl
    rw [this, e1]; rfl
  · cases t1 with
    | nil => simp [rootEntity] at re1
    | node _ _ _ _ _ _ =>
      simp only [rootEntity, Option.some.injEq, Prod.mk.injEq] at re1
      simp only [getID, re1.1]
  · intro hk
    simp only [hk, if_false] at io0
    rw [io0] at hmem
    rw [re1, mem_placeSorted_key k (k, c, s) (k, c0, s0) _ hmem rfl]
  · intro hk
    simp only [hk, if_true] at io0
    rw [io0] at hmem
    exact ⟨c0, s0, hmem, re1⟩

theorem C4_splay_to_root_on_insert_witness :
    BSTOrdered sampleTree ∧
    ((∃ t1, insert { m_root := sampleTree, m_type := TREETYPE.SPLAY }
          (Robot.ctor 10003 ROBOTTYPE.DRONE STATE.DEAD) =
        some { m_root := t1, m_type := TREETYPE.SPLAY } ∧
      getID t1 = some 10003 ∧
      (10003 ∉ keys sampleTree → rootEntity t1 = some (10003, ROBOTTYPE.DRONE, STATE.DEAD)) ∧
      (10003 ∈ keys sampleTree → ∃ c0 s0, (10003, c0, s0) ∈ inorder sampleTree ∧
        rootEntity t1 = some (10003, c0, s0))) ∧
    (∀ n ∈ List.range 10,
      rootKey (insertKeys { m_root := Tree.nil, m_type := TREETYPE.SPLAY } (idsUpTo (n + 1))) =
        some (MINID + 1 + (n : Int))) ∧
    rootKey (insertKeys { m_root := Tree.nil, m_type := TREETYPE.SPLAY }
      (idsUpTo 10 ++ [MINID + 5])) = some (MINID + 5)) :=
  ⟨by decide, C4_splay_to_root_on_insert sampleTree (by decide) 10003
    ROBOTTYPE.DRONE STATE.DEAD⟩

/-- C5. Insert adds exactly the new robot: in every mode, on a well-formed tree `t`
and for a freshly constructed robot whose key `k` is not in `t`, the in-order
sequence of (key, category, state) after `insert` is that of `t` with the new
robot placed at its sorted position (every robot before it has a smaller key,
every robot after it a larger one), so the number of robots grows by exactly
one; when `k` is already in `t` the number of robots is unchanged. -/
theorem C5_insert_adds_exactly_one (m : TREETYPE) (t : Tree) (hw : WellFormed m t)
    (k : Int) (c : ROBOTTYPE) (s : STATE) :
    ∃ t1, insert { m_root := t, m_type := m } (Robot.ctor k c s) =
        some { m_root := t1, m_type := m } ∧
      (k ∉ keys t →
        (∃ front back, inorder t = front ++ back ∧ inorder t1 = front ++ (k, c, s) :: back ∧
          (∀ y ∈ front, y.1 < k) ∧ (∀ y ∈ back, k < y.1)) ∧
        (inorder t1).length = (inorder t).length + 1) ∧
      (k ∈ keys t → (inorder t1).length = (inorder t).length) := by
  obtain ⟨t1, e1, -, io⟩ := insert_spec m t k c s hw
  refine ⟨t1, e1, ?_, ?_⟩
  · intro hk
    simp only [hk, if_false] at io
    have hs := split_at_key k (inorder t) ((BSTOrdered_iff_inorder t).1 hw.1)
      (by rw [← keys_eq_map_inorder]; exact hk)
    refine ⟨⟨_, _, hs, io, ?_, ?_⟩, ?_⟩
    · intro y hy
      simpa using (List.mem_filter.1 hy).2
    · intro y hy
      simpa using (List.mem_filter.1 hy).2
    · rw [io, placeSorted]
      conv_rhs => rw [hs]
      simp only [List.length_append, List.length_cons]
      omega
  · intro hk
    simp only [hk, if_true] at io
    rw [io]

theorem C5_insert_adds_exactly_one_witness :
    WellFormed TREETYPE.BST sampleTree ∧
    ∃ t1, insert { m_root := sampleTree, m_type := TREETYPE.BST }
          (Robot.ctor 10000 ROBOTTYPE.REPTILE STATE.ALIVE) =
        some { m_root := t1, m_type := TREETYPE.BST } ∧
      (10000 ∉ keys sampleTree →
        (∃ front back, inorder sampleTree = front ++ back ∧
          inorder t1 = front ++ (10000, ROBOTTYPE.REPTILE, STATE.ALIVE) :: back ∧
          (∀ y ∈ front, y.1 < 10000) ∧ (∀ y ∈ back, 10000 < y.1)) ∧
        (inorder t1).length = (inorder sampleTree).length + 1) ∧
      (10000 ∈ keys sampleTree → (inorder t1).length = (inorder sampleTree).length) :=
  ⟨by decide, C5_insert_adds_exactly_one TREETYPE.BST sampleTree (by decide) 10000
    ROBOTTYPE.REPTILE STATE.ALIVE⟩

/-- C6. Removal completeness: in every mode, on a well-formed tree `t`, `remove(k)`
returns a tree whose in-order key sequence is that of `t` with `k` erased; the
BST lookup `contains` of `k` in the result fails, every other key of `t` is still
found, and removing the key of a one-robot tree leaves the root absent. -/
theorem C6_removal_completeness (m : TREETYPE) (t : Tree) (hw : WellFormed m t) (k : Int) :
    ∃ t1, remove { m_root := t, m_type := m } k = some { m_root := t1, m_type := m } ∧
      keys t1 = (keys t).erase k ∧
      contains t1 k = false ∧
      (∀ j ∈ keys t, j ≠ k → contains t1 j = true) ∧
      (keys t = [k] → t1 = Tree.nil) := by
  obtain ⟨t1, e1, hw1, ks⟩ := remove_spec m t k hw
  have hnd := BSTOrdered.nodup t hw.1
  refine ⟨t1, e1, ks, ?_, ?_, ?_⟩
  · have : ¬ contains t1 k = true := by
      rw [contains_iff_mem t1 k hw1.1, ks]
      exact hnd.not_mem_erase
    simpa using this
  · intro j hj hne
    rw [contains_iff_mem t1 j hw1.1, ks]
    exact (List.mem_erase_of_ne hne).2 hj
  · intro h1
    apply keys_eq_nil
    rw [ks, h1]
    simp

theorem C6_removal_completeness_witness :
    WellFormed TREETYPE.AVL sampleTree ∧
    ∃ t1, remove { m_root := sampleTree, m_type := TREETYPE.AVL } 10002 =
        some { m_root := t1, m_type := TREETYPE.AVL } ∧
      keys t1 = (keys sampleTree).erase 10002 ∧
      contains t1 10002 = false ∧
      (∀ j ∈ keys sampleTree, j ≠ 10002 → contains t1 j = true) ∧
      (keys sampleTree = [10002] → t1 = Tree.nil) :=
  ⟨by decide, C6_removal_completeness TREETYPE.AVL sampleTree (by decide) 10002⟩

/-- C7. Duplicate insert does not insert: in every mode, on a well-formed tree `t`
that already holds key `k`, `insert` of a robot with key `k` (any category and
state) returns a tree with the same in-order sequence of (key, category, state),
so the stored robot keeps its own category and state; in modes `NONE`, `BST` and
`AVL` the returned tree is `t` itself (same shape and cached heights). -/
theorem C7_duplicate_insert_ignored (m : TREETYPE) (t : Tree) (hw : WellFormed m t)
    (k : Int) (hk : k ∈ keys t) (c : ROBOTTYPE) (s : STATE) :
    ∃ t1, insert { m_root := t, m_type := m } (Robot.ctor k c s) =
        some { m_root := t1, m_type := m } ∧
      inorder t1 = inorder t ∧ (m ≠ TREETYPE.SPLAY → t1 = t) := by
  have e0 := insertHelper_dup m k c s t hw hk
  rw [insert_eq, e0, Option.some_bind]
  by_cases h1 : m = TREETYPE.AVL
  · simp only [h1, if_true]
    rw [balanceTree_of_balanced t (hw.2.2 h1)]
    exact ⟨t, rfl, rfl, fun _ => rfl⟩
  · simp only [h1, if_false]
    by_cases h2 : m = TREETYPE.SPLAY
    · simp only [h2, if_true]
      obtain ⟨t1, e1, io1, -, -⟩ := splay_spec t (Robot.ctor k c s).m_id
      rw [e1]
      exact ⟨t1, rfl, io1, fun hh => absurd rfl hh⟩
    · simp only [h2, if_false]
      exact ⟨t, rfl, rfl, fun _ => rfl⟩

theorem C7_duplicate_insert_ignored_witness :
    WellFormed TREETYPE.AVL sampleTree ∧ (10003 : Int) ∈ keys sampleTree ∧
    ∃ t1, insert { m_root := sampleTree, m_type := TREETYPE.AVL }
          (Robot.ctor 10003 ROBOTTYPE.QUADRUPED STATE.DEAD) =
        some { m_root := t1, m_type := TREETYPE.AVL } ∧
      inorder t1 = inorder sampleTree ∧ (TREETYPE.AVL ≠ TREETYPE.SPLAY → t1 = sampleTree) :=
  ⟨by decide, by decide, C7_duplicate_insert_ignored TREETYPE.AVL sampleTree (by decide) 10003
    (by decide) ROBOTTYPE.QUADRUPED STATE.DEAD⟩

/-- C8 (counterexample). `insert` makes no range check: the key 100000 lies above
`MAXID`, yet inserting it into the empty `BST`-mode tree stores it, so the tree is
not left unchanged. -/
theorem C8_out_of_range_counterexample :
    MAXID < 100000 ∧
    insert { m_root := Tree.nil, m_type := TREETYPE.BST }
        (Robot.ctor 100000 ROBOTTYPE.DRONE STATE.ALIVE) =
      some { m_root := Tree.node Tree.nil 100000 ROBOTTYPE.DRONE STATE.ALIVE 0 Tree.nil,
             m_type := TREETYPE.BST } ∧
    insert { m_root := Tree.nil, m_type := TREETYPE.BST }
        (Robot.ctor 100000 ROBOTTYPE.DRONE STATE.ALIVE) ≠
      some { m_root := Tree.nil, m_type := TREETYPE.BST } := by
  decide

/-- C8 (amended). Out-of-range keys are stored like any other key: in every mode,
on a well-formed tree `t`, `insert` of a freshly constructed robot whose key `k`
lies outside `[MINID, MAXID]` returns a tree in which the lookup `contains` finds
`k`, so the tree then holds a key outside the identifier range; when `k` was not in `t` the robot sits at its sorted position, the tree has
one robot more and differs from `t`. -/
theorem C8_out_of_range_is_stored (m : TREETYPE) (t : Tree) (hw : WellFormed m t)
    (k : Int) (hr : k < MINID ∨ MAXID < k) (c : ROBOTTYPE) (s : STATE) :
    ∃ t1, insert { m_root := t, m_type := m } (Robot.ctor k c s) =
        some { m_root := t1, m_type := m } ∧
      contains t1 k = true ∧
      (∃ x ∈ keys t1, x < MINID ∨ MAXID < x) ∧
      (k ∉ keys t →
        inorder t1 = placeSorted k (k, c, s) (inorder t) ∧
        (inorder t1).length = (inorder t).length + 1 ∧ t1 ≠ t) := by
  obtain ⟨t1, e1, hw1, io⟩ := insert_spec m t k c s hw
  have hk1 : k ∈ keys t1 := by
    rw [keys_eq_map_inorder, io]
    split_ifs with hk
    · rw [← keys_eq_map_inorder]; exact hk
    · exact List.mem_map_of_mem Prod.fst (mem_keys_placeSorted k c s _)
  refine ⟨t1, e1, (contains_iff_mem t1 k hw1.1).2 hk1, ⟨k, hk1, hr⟩, ?_⟩
  intro hk
  simp only [hk, if_false] at io
  have hs := split_at_key k (inorder t) ((BSTOrdered_iff_inorder t).1 hw.1)
    (by rw [← keys_eq_map_inorder]; exact hk)
  refine ⟨io, ?_, fun hh => hk (hh ▸ hk1)⟩
  rw [io, placeSorted]
  conv_rhs => rw [hs]
  simp only [List.length_append, List.length_cons]
  omega

theorem C8_out_of_range_is_stored_witness :
    WellFormed TREETYPE.AVL sampleTree ∧ ((9999 : Int) < MINID ∨ MAXID < 9999) ∧
    ∃ t1, insert { m_root := sampleTree, m_type := TREETYPE.AVL }
          (Robot.ctor 9999 ROBOTTYPE.DRONE STATE.ALIVE) =
        some { m_root := t1, m_type := TREETYPE.AVL } ∧
      contains t1 9999 = true ∧
      (∃ x ∈ keys t1, x < MINID ∨ MAXID < x) ∧
      ((9999 : Int) ∉ keys sampleTree →
        inorder t1 = placeSorted 9999 (9999, ROBOTTYPE.DRONE, STATE.ALIVE) (inorder sampleTree) ∧
        (inorder t1).length = (inorder sampleTree).length + 1 ∧ t1 ≠ sampleTree) :=
  ⟨by decide, by decide, C8_out_of_range_is_stored TREETYPE.AVL sampleTree (by decide) 9999
    (by decide) ROBOTTYPE.DRONE STATE.ALIVE⟩

/-- C9 (counterexample). In `SPLAY` mode `remove` of a key that is not stored still
splays: on the well-formed tree `((10001) 10002 (10003))` the absent key 10000
makes 10001 the root, so the tree is not left identical. -/
theorem C9_remove_missing_counterexample :
    WellFormed TREETYPE.SPLAY sampleTree ∧ (10000 : Int) ∉ keys sampleTree ∧
    remove { m_root := sampleTree, m_type := TREETYPE.SPLAY } 10000 =
      some { m_root :=
               Tree.node Tree.nil 10001 ROBOTTYPE.DRONE STATE.ALIVE 2
                 (Tree.node Tree.nil 10002 ROBOTTYPE.BIRD STATE.DEAD 1
                   (Tree.node Tree.nil 10003 ROBOTTYPE.SUB STATE.ALIVE 0 Tree.nil)),
             m_type := TREETYPE.SPLAY } ∧
    remove { m_root := sampleTree, m_type := TREETYPE.SPLAY } 10000 ≠
      some { m_root := sampleTree, m_type := TREETYPE.SPLAY } := by
  decide

/-- C9 (amended). Remove of a missing key: in every mode, on a well-formed tree
`t` that is empty or does not hold `k`, `remove(k)` returns, leaves the mode and
the in-order sequence of (key, category, state) unchanged and keeps the cached
heights correct; in modes `NONE`, `BST` and `AVL`, and on the empty tree in every
mode, the tree is `t` itself; in `SPLAY` mode the root becomes the robot at which
the search for `k` stops. -/
theorem C9_remove_missing_key (m : TREETYPE) (t : Tree) (hw : WellFormed m t)
    (k : Int) (hk : t = Tree.nil ∨ k ∉ keys t) :
    ∃ t1, remove { m_root := t, m_type := m } k = some { m_root := t1, m_type := m } ∧
      inorder t1 = inorder t ∧ isHeightCorrect t1 = true ∧
      (m ≠ TREETYPE.SPLAY ∨ t = Tree.nil → t1 = t) ∧
      (m = TREETYPE.SPLAY → rootEntity t1 = searchStop t k) := by
  have hk1 : k ∉ keys t := by
    rcases hk with hk | hk
    · subst hk; simp [keys]
    · exact hk
  have e0 := removeHelper_absent m k t hw hk1
  rw [remove_eq, e0, Option.some_bind]
  by_cases h1 : m = TREETYPE.AVL
  · simp only [h1, if_true]
    rw [balanceTree_of_balanced t (hw.2.2 h1)]
    exact ⟨t, rfl, rfl, hw.2.1, fun _ => rfl, fun hh => by cases hh⟩
  · simp only [h1, if_false]
    by_cases h2 : m = TREETYPE.SPLAY
    · simp only [h2, if_true]
      obtain ⟨t1, e1, io1, hc1, re1⟩ := splay_spec t k
      rw [e1]
      refine ⟨t1, rfl, io1, hc1 hw.2.1, ?_, fun _ => re1⟩
      rintro (hh | hh)
      · exact absurd rfl hh
      · subst hh
        simp only [splay, Option.some.injEq] at e1
        exact e1.symm
    · simp only [h2, if_false]
      exact ⟨t, rfl, rfl, hw.2.1, fun _ => rfl, fun hh => hh.elim⟩

theorem C9_remove_missing_key_witness :
    WellFormed TREETYPE.AVL sampleTree ∧
    (sampleTree = Tree.nil ∨ (10000 : Int) ∉ keys sampleTree) ∧
    ∃ t1, remove { m_root := sampleTree, m_type := TREETYPE.AVL } 10000 =
        some { m_root := t1, m_type := TREETYPE.AVL } ∧
      inorder t1 = inorder sampleTree ∧ isHeightCorrect t1 = true ∧
      (TREETYPE.AVL ≠ TREETYPE.SPLAY ∨ sampleTree = Tree.nil → t1 = sampleTree) ∧
      (TREETYPE.AVL = TREETYPE.SPLAY → rootEntity t1 = searchStop sampleTree 10000) :=
  ⟨by decide, by decide, C9_remove_missing_key TREETYPE.AVL sampleTree (by decide) 10000
    (by decide)⟩

/-- C10. Splay-to-root on remove: for every BST-ordered tree in `SPLAY` mode and
every key `k`, `remove(k)` returns, and when the returned tree is non-empty its
root is the robot at which the BST search for `k` stops among the remaining
robots (the tree `removeHelper` left); its key is a remaining key different from
`k`, and is the largest remaining key below `k` or the smallest remaining key
above `k`.  Equivalently, for every non-empty BST-ordered tree `u` that does not
hold `k`, `splay(u, k)` returns a tree whose root is the robot at which the
search for `k` in `u` stops. -/
theorem C10_splay_to_root_on_remove (t : Tree) (ho : BSTOrdered t) (k : Int) :
    (∃ t0 t1, removeHelper TREETYPE.SPLAY t k = some t0 ∧
      remove { m_root := t, m_type := TREETYPE.SPLAY } k =
        some { m_root := t1, m_type := TREETYPE.SPLAY } ∧
      keys t1 = (keys t).erase k ∧
      (t1 ≠ Tree.nil →
        rootEntity t1 = searchStop t0 k ∧
        ∃ r, getID t1 = some r ∧ r ∈ keys t1 ∧ r ≠ k ∧
          (r < k → ∀ x ∈ keys t1, x < k → x ≤ r) ∧
          (k < r → ∀ x ∈ keys t1, k < x → r ≤ x))) ∧
    (∀ u : Tree, u ≠ Tree.nil → BSTOrdered u → k ∉ keys u →
      ∃ u1, splay u k = some u1 ∧ rootEntity u1 = searchStop u k ∧
        ∃ e, rootEntity u1 = some e ∧ e ∈ inorder u) := by
  constructor
  · have hm : TREETYPE.SPLAY ≠ TREETYPE.AVL := by decide
    obtain ⟨t0, e0⟩ := removeHelper_some_of_ne_AVL TREETYPE.SPLAY hm t k
    have ks0 := removeHelper_keys TREETYPE.SPLAY t t0 k ho e0
    have ho0 : BSTOrdered t0 := by
      unfold BSTOrdered at ho ⊢
      rw [ks0]
      exact ho.sublist (List.erase_sublist k (keys t))
    have hk0 : k ∉ keys t0 := by
      rw [ks0]; exact (BSTOrdered.nodup t ho).not_mem_erase
    obtain ⟨t1, e1, io1, -, re1⟩ := splay_spec t0 k
    have ks1 : keys t1 = keys t0 := by rw [keys_eq_map_inorder, io1, ← keys_eq_map_inorder]
    refine ⟨t0, t1, e0, ?_, by rw [ks1]; exact ks0, ?_⟩
    · rw [remove_eq, e0, Option.some_bind]
      simp only [hm, if_false, if_true]
      rw [e1]; rfl
    · intro hne
      refine ⟨re1, ?_⟩
      cases t1 with
      | nil => exact absurd rfl hne
      | node l1 r ty st h r1 =>
        have hs : searchStop t0 k = some (r, ty, st) := by rw [← re1]; rfl
        obtain ⟨m1, m2, m3, m4⟩ := searchStop_neighbor t0 k ho0 hk0 (r, ty, st) hs
        rw [ks1]
        exact ⟨r, rfl, mem_keys_of_mem_inorder t0 _ m1, m2, m3, m4⟩
  · intro u hne hou hku
    obtain ⟨u1, e1, -, -, re1⟩ := splay_spec u k
    refine ⟨u1, e1, re1, ?_⟩
    cases hs : searchStop u k with
    | none => exact absurd ((searchStop_eq_none u k).1 hs) hne
    | some e =>
      exact ⟨e, by rw [re1, hs], (searchStop_neighbor u k hou hku e hs).1⟩

theorem C10_splay_to_root_on_remove_witness :
    BSTOrdered sampleTree ∧
    ((∃ t0 t1, removeHelper TREETYPE.SPLAY sampleTree 10002 = some t0 ∧
      remove { m_root := sampleTree, m_type := TREETYPE.SPLAY } 10002 =
        some { m_root := t1, m_type := TREETYPE.SPLAY } ∧
      keys t1 = (keys sampleTree).erase 10002 ∧
      (t1 ≠ Tree.nil →
        rootEntity t1 = searchStop t0 10002 ∧
        ∃ r, getID t1 = some r ∧ r ∈ keys t1 ∧ r ≠ 10002 ∧
          (r < 10002 → ∀ x ∈ keys t1, x < 10002 → x ≤ r) ∧
          (10002 < r → ∀ x ∈ keys t1, 10002 < x → r ≤ x))) ∧
    (∀ u : Tree, u ≠ Tree.nil → BSTOrdered u → (10002 : Int) ∉ keys u →
      ∃ u1, splay u 10002 = some u1 ∧ rootEntity u1 = searchStop u 10002 ∧
        ∃ e, rootEntity u1 = some e ∧ e ∈ inorder u)) :=
  ⟨by decide, C10_splay_to_root_on_remove sampleTree (by decide) 10002⟩

/-- C11 (counterexample). The bound floor(log2 N) + 1 fails for some insertion
orders of distinct keys: the 54 keys of `keys54` build an `AVL`-mode tree of root
height 7, while floor(log2 54) + 1 = 6; and the 100 keys of `keys100` build one of
root height 8, above the stated 7. -/
theorem C11_avl_height_bound_counterexample :
    keys54.Nodup ∧ keys54.length = 54 ∧
    rootHeight (insertKeys { m_root := Tree.nil, m_type := TREETYPE.AVL } keys54) = some 7 ∧
    Nat.log 2 54 + 1 = 6 ∧
    keys100.Nodup ∧ keys100.length = 100 ∧
    rootHeight (insertKeys { m_root := Tree.nil, m_type := TREETYPE.AVL } keys100) = some 8 ∧
    Nat.log 2 100 + 1 = 7 := by
  have l54 : Nat.log 2 54 = 5 := by rw [Nat.log_eq_iff (by norm_num)]; norm_num
  have l100 : Nat.log 2 100 = 6 := by rw [Nat.log_eq_iff (by norm_num)]; norm_num
  refine ⟨by decide, by decide, by decide, by rw [l54], by decide, by decide, by decide,
    by rw [l100]⟩

/-- C11 (amended). AVL height bound: for every N >= 1 and every sequence of N
freshly constructed robots with pairwise distinct keys, inserting them in that
order into an empty `AVL`-mode tree returns a tree that stores all N robots and
whose number of levels `n` (root cached height + 1) satisfies minNodes(n) <= N,
where minNodes = 0, 1, 2, 4, 7, 12, 20, 33, 54, 88, 143, ...; hence the root height
is at most 2 * floor(log2 N) for every N, at most floor(log2 N) + 1 when N < 54,
and at most 8 when N = 100. -/
theorem C11_avl_height_bound (es : List (Int × ROBOTTYPE × STATE)) (hne : es ≠ [])
    (hnd : (es.map Prod.fst).Nodup) :
    ∃ t1, insertRobots { m_root := Tree.nil, m_type := TREETYPE.AVL } es =
        some { m_root := t1, m_type := TREETYPE.AVL } ∧
      (keys t1).length = es.length ∧
      getHeight t1 + 1 = (levels t1 : Int) ∧
      minNodes (levels t1) ≤ es.length ∧
      getHeight t1 ≤ 2 * (Nat.log 2 es.length : Int) ∧
      (es.length < 54 → getHeight t1 ≤ (Nat.log 2 es.length : Int) + 1) ∧
      (es.length = 100 → getHeight t1 ≤ 8) := by
  obtain ⟨t1, e1, hw1, hp⟩ := insertRobots_distinct TREETYPE.AVL es Tree.nil
    (wellFormed_nil TREETYPE.AVL) hnd (fun e _ => by simp [keys])
  have hlen : (keys t1).length = es.length := by
    rw [← length_inorder, hp.length_eq]; simp [inorder]
  have hmin := minNodes_le_size t1 hw1.2.1 (hw1.2.2 rfl)
  rw [hlen] at hmin
  have hge := getHeight_ge t1 hw1.2.1
  have hlev : getHeight t1 + 1 = (levels t1 : Int) := by simp only [levels]; omega
  have hpos : es.length ≠ 0 := fun h => hne (List.eq_nil_of_length_eq_zero h)
  refine ⟨t1, e1, hlen, hlev, hmin, ?_, ?_, ?_⟩
  · cases hn : levels t1 with
    | zero => rw [hn] at hlev; push_cast at hlev; omega
    | succ p =>
      rw [hn] at hlev hmin
      have h1 := pow_half_le_minNodes p
      have h2 : (p + 1) / 2 ≤ Nat.log 2 es.length :=
        Nat.le_log_of_pow_le (by norm_num) (le_trans h1 hmin)
      push_cast at hlev
      omega
  · intro hN
    have h8 : minNodes 8 = 54 := by decide
    have hn7 : levels t1 < 8 := by
      by_contra hcon
      have := minNodes_mono 8 (levels t1) (by omega)
      omega
    by_cases hn2 : 2 ≤ levels t1
    · have hpow : ∀ n < 8, 2 ≤ n → 2 ^ (n - 2) ≤ minNodes n := by decide
      have h2 : levels t1 - 2 ≤ Nat.log 2 es.length :=
        Nat.le_log_of_pow_le (by norm_num) (le_trans (hpow _ hn7 hn2) hmin)
      omega
    · omega
  · intro hN
    have h10 : minNodes 10 = 143 := by decide
    have hn9 : levels t1 < 10 := by
      by_contra hcon
      have := minNodes_mono 10 (levels t1) (by omega)
      omega
    omega

theorem C11_avl_height_bound_witness :
    sampleRun ≠ [] ∧ (sampleRun.map Prod.fst).Nodup ∧
    ∃ t1, insertRobots { m_root := Tree.nil, m_type := TREETYPE.AVL } sampleRun =
        some { m_root := t1, m_type := TREETYPE.AVL } ∧
      (keys t1).length = sampleRun.length ∧
      getHeight t1 + 1 = (levels t1 : Int) ∧
      minNodes (levels t1) ≤ sampleRun.length ∧
      getHeight t1 ≤ 2 * (Nat.log 2 sampleRun.length : Int) ∧
      (sampleRun.length < 54 → getHeight t1 ≤ (Nat.log 2 sampleRun.length : Int) + 1) ∧
      (sampleRun.length = 100 → getHeight t1 ≤ 8) :=
  ⟨by decide, by decide, C11_avl_height_bound sampleRun (by decide) (by decide)⟩

/-- C12. Switching to `AVL` rebuilds a balanced tree with the same robots: for
every BST-ordered tree `t` in mode `NONE`, `BST` or `SPLAY` (of any shape and with
any cached heights, e.g. a degenerate chain), `setType(AVL)` returns, the mode is
then `AVL`, and the tree is BST-ordered, has correct cached heights, is balanced
at every robot, and has the in-order sequence of (key, category, state) of `t`. -/
theorem C12_setType_avl_rebuilds (fuel : Nat) (t : Tree) (m : TREETYPE)
    (hm : m = TREETYPE.NONE ∨ m = TREETYPE.BST ∨ m = TREETYPE.SPLAY) (ho : BSTOrdered t) :
    ∃ s1, setType fuel { m_root := t, m_type := m } TREETYPE.AVL = some s1 ∧
      getType s1 = TREETYPE.AVL ∧ BSTOrdered s1.m_root ∧ isHeightCorrect s1.m_root = true ∧
      isBalanced s1.m_root = true ∧ inorder s1.m_root = inorder t := by
  have h0 : ¬ m = TREETYPE.AVL := by rcases hm with hm | hm | hm <;> subst hm <;> decide
  obtain ⟨s1, e1, hw1, io1⟩ := rebuildAVL_spec t { m_root := Tree.nil, m_type := m } ho
    (wellFormed_nil TREETYPE.AVL) (fun a ha => by simp [keys] at ha)
  refine ⟨{ m_root := s1.m_root, m_type := TREETYPE.AVL }, ?_, rfl, hw1.1, hw1.2.1,
    hw1.2.2 rfl, by simpa [inorder] using io1⟩
  have h1 : ¬ TREETYPE.AVL = TREETYPE.NONE := by decide
  simp only [setType, h0, h1, if_false, ne_eq, not_false_eq_true, and_self, if_true, e1,
    Option.map_some']

theorem C12_setType_avl_rebuilds_witness :
    (TREETYPE.BST = TREETYPE.NONE ∨ TREETYPE.BST = TREETYPE.BST ∨
      TREETYPE.BST = TREETYPE.SPLAY) ∧ BSTOrdered chainTree ∧
    ∃ s1, setType 0 { m_root := chainTree, m_type := TREETYPE.BST } TREETYPE.AVL = some s1 ∧
      getType s1 = TREETYPE.AVL ∧ BSTOrdered s1.m_root ∧ isHeightCorrect s1.m_root = true ∧
      isBalanced s1.m_root = true ∧ inorder s1.m_root = inorder chainTree :=
  ⟨by decide, by decide, C12_setType_avl_rebuilds 0 chainTree TREETYPE.BST (by decide)
    (by decide)⟩

/-- C13 (counterexample). Assignment clears the left-hand side first, and `clear`
relies on BST order: on the left-hand side `loopTree` (mode `BST`), the call
`remove(10005)` made by the loop leaves the tree as it was, so no number of
iterations empties it and the assignment never returns. -/
theorem C13_assignment_counterexample :
    remove { m_root := loopTree, m_type := TREETYPE.BST } 10005 =
      some { m_root := loopTree, m_type := TREETYPE.BST } ∧
    ∀ fuel : Nat,
      assign fuel { m_root := loopTree, m_type := TREETYPE.BST }
        { m_root := sampleTree, m_type := TREETYPE.AVL } = none := by
  have hr : remove { m_root := loopTree, m_type := TREETYPE.BST } 10005 =
      some { m_root := loopTree, m_type := TREETYPE.BST } := by decide
  refine ⟨hr, ?_⟩
  have hc : ∀ fuel : Nat, clear fuel { m_root := loopTree, m_type := TREETYPE.BST } = none := by
    intro fuel
    induction fuel with
    | zero => rfl
    | succ n ih =>
      have : clear (n + 1) { m_root := loopTree, m_type := TREETYPE.BST } =
          (remove { m_root := loopTree, m_type := TREETYPE.BST } 10005).bind (clear n) := rfl
      rw [this, hr, Option.some_bind, ih]
  intro fuel
  simp only [assign, hc fuel, Option.map_none']

/-- C13 (amended). Assignment is a full structural copy: for every left-hand side
`a` whose tree is BST-ordered with correct cached heights and every right-hand
side `b` (any tree, any mode), `a = b` returns once `clear` is allowed as many
iterations as `a` has robots, and `a` is then `b`: same mode and the same tree at
every position (key, category, state, cached height); `b` is only read.  Hence
`a` is BST-ordered, height-correct and balanced exactly when `b` is. -/
theorem C13_assignment_copies (fuel : Nat) (a b : Swarm) (ho : BSTOrdered a.m_root)
    (hc : isHeightCorrect a.m_root = true) (hf : (keys a.m_root).length ≤ fuel) :
    ∃ a1, assign fuel a b = some a1 ∧ a1 = b ∧ getType a1 = getType b ∧
      a1.m_root = b.m_root ∧ clone b.m_root = b.m_root ∧
      (BSTOrdered a1.m_root ↔ BSTOrdered b.m_root) ∧
      (isBalanced a1.m_root = true ↔ isBalanced b.m_root = true) := by
  have e := clear_spec a.m_type fuel a.m_root ho hc hf
  refine ⟨b, ?_, rfl, rfl, rfl, clone_eq _, Iff.rfl, Iff.rfl⟩
  have ha : a = { m_root := a.m_root, m_type := a.m_type } := rfl
  rw [assign, ha, e, Option.map_some', clone_eq]

theorem C13_assignment_copies_witness :
    BSTOrdered sampleTree ∧ isHeightCorrect sampleTree = true ∧
    (keys sampleTree).length ≤ 3 ∧
    ∃ a1, assign 3 { m_root := sampleTree, m_type := TREETYPE.SPLAY }
        { m_root := chainTree, m_type := TREETYPE.BST } = some a1 ∧
      a1 = { m_root := chainTree, m_type := TREETYPE.BST } ∧
      getType a1 = getType { m_root := chainTree, m_type := TREETYPE.BST } ∧
      a1.m_root = chainTree ∧ clone chainTree = chainTree ∧
      (BSTOrdered a1.m_root ↔ BSTOrdered chainTree) ∧
      (isBalanced a1.m_root = true ↔ isBalanced chainTree = true) :=
  ⟨by decide, by decide, by decide,
    C13_assignment_copies 3 { m_root := sampleTree, m_type := TREETYPE.SPLAY }
      { m_root := chainTree, m_type := TREETYPE.BST } (by decide) (by decide) (by decide)⟩

/-- C14. `clear` empties the tree and terminates: in every mode, on every
BST-ordered tree with correct cached heights, of any size, the loop of `clear`
ends after as many removals as the tree has robots (and so under every larger
bound), leaving the root absent and the mode unchanged; on an empty tree `clear`
changes nothing, so clearing the cleared container again returns it unchanged. -/
theorem C14_clear_empties_and_terminates (m : TREETYPE) (t : Tree) (ho : BSTOrdered t)
    (hc : isHeightCorrect t = true) :
    clear (keys t).length { m_root := t, m_type := m } =
      some { m_root := Tree.nil, m_type := m } ∧
    (∀ fuel, (keys t).length ≤ fuel →
      clear fuel { m_root := t, m_type := m } = some { m_root := Tree.nil, m_type := m }) ∧
    (∀ fuel, clear fuel { m_root := Tree.nil, m_type := m } =
      some { m_root := Tree.nil, m_type := m }) ∧
    (∀ fuel fuel1, (keys t).length ≤ fuel →
      (clear fuel { m_root := t, m_type := m }).bind (clear fuel1) =
        clear fuel { m_root := t, m_type := m }) := by
  refine ⟨clear_spec m _ t ho hc le_rfl, fun fuel hf => clear_spec m fuel t ho hc hf,
    fun fuel => clear_nil fuel m, ?_⟩
  intro fuel fuel1 hf
  rw [clear_spec m fuel t ho hc hf, Option.some_bind, clear_nil]

theorem C14_clear_empties_and_terminates_witness :
    BSTOrdered sampleTree ∧ isHeightCorrect sampleTree = true ∧
    (clear (keys sampleTree).length { m_root := sampleTree, m_type := TREETYPE.AVL } =
      some { m_root := Tree.nil, m_type := TREETYPE.AVL } ∧
    (∀ fuel, (keys sampleTree).length ≤ fuel →
      clear fuel { m_root := sampleTree, m_type := TREETYPE.AVL } =
        some { m_root := Tree.nil, m_type := TREETYPE.AVL }) ∧
    (∀ fuel, clear fuel { m_root := Tree.nil, m_type := TREETYPE.AVL } =
      some { m_root := Tree.nil, m_type := TREETYPE.AVL }) ∧
    (∀ fuel fuel1, (keys sampleTree).length ≤ fuel →
      (clear fuel { m_root := sampleTree, m_type := TREETYPE.AVL }).bind (clear fuel1) =
        clear fuel { m_root := sampleTree, m_type := TREETYPE.AVL })) :=
  ⟨by decide, by decide,
    C14_clear_empties_and_terminates TREETYPE.AVL sampleTree (by decide) (by decide)⟩

/-- C15. Switching to `NONE` clears the tree: for every well-formed tree whose mode
is `BST`, `AVL` or `SPLAY`, `setType(NONE)` returns (once `clear` is allowed as many
iterations as the tree has robots) with the root absent and `getType()` equal to
`NONE`; and for every tree and every mode `m` equal to the current mode,
`setType(m)` leaves both the tree and the mode unchanged. -/
theorem C15_setType_none_clears (fuel : Nat) (t : Tree) (m : TREETYPE)
    (hm : m = TREETYPE.BST ∨ m = TREETYPE.AVL ∨ m = TREETYPE.SPLAY) (hw : WellFormed m t)
    (hf : (keys t).length ≤ fuel) :
    (∃ s1, setType fuel { m_root := t, m_type := m } TREETYPE.NONE = some s1 ∧
      s1.m_root = Tree.nil ∧ getType s1 = TREETYPE.NONE) ∧
    (∀ (n : Nat) (t0 : Tree) (m0 : TREETYPE),
      setType n { m_root := t0, m_type := m0 } m0 = some { m_root := t0, m_type := m0 }) := by
  constructor
  · have h0 : ¬ m = TREETYPE.NONE := by rcases hm with hm | hm | hm <;> subst hm <;> decide
    refine ⟨{ m_root := Tree.nil, m_type := TREETYPE.NONE }, ?_, rfl, rfl⟩
    simp only [setType, h0, if_false, if_true, clear_spec m fuel t hw.1 hw.2.1 hf,
      Option.map_some']
  · intro n t0 m0
    simp only [setType, if_true]

theorem C15_setType_none_clears_witness :
    (TREETYPE.SPLAY = TREETYPE.BST ∨ TREETYPE.SPLAY = TREETYPE.AVL ∨
      TREETYPE.SPLAY = TREETYPE.SPLAY) ∧
    WellFormed TREETYPE.SPLAY sampleTree ∧ (keys sampleTree).length ≤ 3 ∧
    ((∃ s1, setType 3 { m_root := sampleTree, m_type := TREETYPE.SPLAY } TREETYPE.NONE =
        some s1 ∧ s1.m_root = Tree.nil ∧ getType s1 = TREETYPE.NONE) ∧
    (∀ (n : Nat) (t0 : Tree) (m0 : TREETYPE),
      setType n { m_root := t0, m_type := m0 } m0 = some { m_root := t0, m_type := m0 })) :=
  ⟨by decide, by decide, by decide,
    C15_setType_none_clears 3 sampleTree TREETYPE.SPLAY (by decide) (by decide) (by decide)⟩

/-- C16. Switching to `BST` or `SPLAY` only changes the mode flag: for every tree
(of any shape) in any mode and every target mode `m` in {`BST`, `SPLAY`},
`setType(m)` returns, `getType()` is then `m`, and the tree is the same tree
(root, shape, keys, categories, states and cached heights). -/
theorem C16_setType_bst_splay_keeps_tree (fuel : Nat) (t : Tree) (m0 m : TREETYPE)
    (hm : m = TREETYPE.BST ∨ m = TREETYPE.SPLAY) :
    ∃ s1, setType fuel { m_root := t, m_type := m0 } m = some s1 ∧
      getType s1 = m ∧ s1.m_root = t := by
  by_cases h0 : m0 = m
  · subst h0
    exact ⟨{ m_root := t, m_type := m0 }, by simp only [setType, if_true], rfl, rfl⟩
  · have h1 : ¬ m = TREETYPE.NONE := by rcases hm with hm | hm <;> subst hm <;> decide
    have h2 : ¬ m = TREETYPE.AVL := by rcases hm with hm | hm <;> subst hm <;> decide
    exact ⟨{ m_root := t, m_type := m }, by simp only [setType, h0, h1, h2, if_false, false_and],
      rfl, rfl⟩

theorem C16_setType_bst_splay_keeps_tree_witness :
    (TREETYPE.SPLAY = TREETYPE.BST ∨ TREETYPE.SPLAY = TREETYPE.SPLAY) ∧
    ∃ s1, setType 0 { m_root := sampleTree, m_type := TREETYPE.AVL } TREETYPE.SPLAY = some s1 ∧
      getType s1 = TREETYPE.SPLAY ∧ s1.m_root = sampleTree :=
  ⟨by decide, C16_setType_bst_splay_keeps_tree 0 sampleTree TREETYPE.AVL TREETYPE.SPLAY
    (by decide)⟩

/-- C17. Splay only relocates robots: for every tree `t` (BST-ordered or not) and
every key `k`, `splay(t, k)` returns a tree with the same in-order sequence of
(key, category, state), so nothing is added, dropped, duplicated or reordered,
and the result is BST-ordered exactly when `t` is; the same holds for
`leftRotate` on a node that has a right child and for `rightRotate` on a node
that has a left child. -/
theorem C17_splay_only_relocates (t : Tree) (k : Int)
    (a b c : Tree) (xid yid : Int) (xty yty : ROBOTTYPE) (xst yst : STATE) (xh yh : Int) :
    (∃ t1, splay t k = some t1 ∧ inorder t1 = inorder t ∧ (BSTOrdered t1 ↔ BSTOrdered t)) ∧
    (∃ t1, leftRotate (Tree.node a xid xty xst xh (Tree.node b yid yty yst yh c)) = some t1 ∧
      inorder t1 = inorder (Tree.node a xid xty xst xh (Tree.node b yid yty yst yh c)) ∧
      (BSTOrdered t1 ↔ BSTOrdered (Tree.node a xid xty xst xh (Tree.node b yid yty yst yh c)))) ∧
    (∃ t1, rightRotate (Tree.node (Tree.node a xid xty xst xh b) yid yty yst yh c) = some t1 ∧
      inorder t1 = inorder (Tree.node (Tree.node a xid xty xst xh b) yid yty yst yh c) ∧
      (BSTOrdered t1 ↔ BSTOrdered (Tree.node (Tree.node a xid xty xst xh b) yid yty yst yh c))) := by
  obtain ⟨t1, e1, io1, -, -⟩ := splay_spec t k
  refine ⟨⟨t1, e1, io1, BSTOrdered_of_inorder_eq t t1 io1⟩, ⟨_, rfl, ?_, ?_⟩, ⟨_, rfl, ?_, ?_⟩⟩
  · exact leftRotate_inorder _ _ rfl
  · exact BSTOrdered_of_inorder_eq _ _ (leftRotate_inorder _ _ rfl)
  · exact rightRotate_inorder _ _ rfl
  · exact BSTOrdered_of_inorder_eq _ _ (rightRotate_inorder _ _ rfl)

/-- C18. The AVL rotation policy restores balance at a node: for every node `n`
with correct cached heights whose two subtrees are balanced and whose balance
factor height(left) - height(right) lies in {-2, ..., 2}, `balanceTree(n)`
returns a tree that is balanced at every robot, has correct cached heights and
has the in-order sequence of `n`; when the balance factor is in {-1, 0, 1} the
result is `n` itself. -/
theorem C18_balanceTree_restores_balance (l r : Tree) (id : Int) (ty : ROBOTTYPE) (st : STATE)
    (h : Int) (hc : isHeightCorrect (Tree.node l id ty st h r) = true)
    (bl : isBalanced l = true) (br : isBalanced r = true)
    (d1 : -2 ≤ getBalance (Tree.node l id ty st h r))
    (d2 : getBalance (Tree.node l id ty st h r) ≤ 2) :
    ∃ t1, balanceTree (Tree.node l id ty st h r) = some t1 ∧
      isBalanced t1 = true ∧ isHeightCorrect t1 = true ∧
      inorder t1 = inorder (Tree.node l id ty st h r) ∧
      (-1 ≤ getBalance (Tree.node l id ty st h r) ∧ getBalance (Tree.node l id ty st h r) ≤ 1 →
        t1 = Tree.node l id ty st h r) := by
  rw [isHeightCorrect_node] at hc
  obtain ⟨eh, hl, hr⟩ := hc
  simp only [getBalance] at d1 d2 ⊢
  obtain ⟨t1, e1, c1, b1, -, same⟩ := balanceTree_spec l r id ty st hl hr bl br (by omega)
    (by omega)
  rw [← eh] at e1 same
  exact ⟨t1, e1, b1, c1, balanceTree_inorder _ _ e1, fun hb => same ⟨by omega, by omega⟩⟩

theorem C18_balanceTree_restores_balance_witness :
    isHeightCorrect (Tree.node sampleTree 10005 ROBOTTYPE.DRONE STATE.ALIVE 2 Tree.nil) = true ∧
    isBalanced sampleTree = true ∧ isBalanced Tree.nil = true ∧
    -2 ≤ getBalance (Tree.node sampleTree 10005 ROBOTTYPE.DRONE STATE.ALIVE 2 Tree.nil) ∧
    getBalance (Tree.node sampleTree 10005 ROBOTTYPE.DRONE STATE.ALIVE 2 Tree.nil) ≤ 2 ∧
    ∃ t1, balanceTree (Tree.node sampleTree 10005 ROBOTTYPE.DRONE STATE.ALIVE 2 Tree.nil) =
        some t1 ∧
      isBalanced t1 = true ∧ isHeightCorrect t1 = true ∧
      inorder t1 = inorder (Tree.node sampleTree 10005 ROBOTTYPE.DRONE STATE.ALIVE 2 Tree.nil) ∧
      (-1 ≤ getBalance (Tree.node sampleTree 10005 ROBOTTYPE.DRONE STATE.ALIVE 2 Tree.nil) ∧
        getBalance (Tree.node sampleTree 10005 ROBOTTYPE.DRONE STATE.ALIVE 2 Tree.nil) ≤ 1 →
        t1 = Tree.node sampleTree 10005 ROBOTTYPE.DRONE STATE.ALIVE 2 Tree.nil) :=
  ⟨by decide, by decide, by decide, by decide, by decide,
    C18_balanceTree_restores_balance sampleTree Tree.nil 10005 ROBOTTYPE.DRONE STATE.ALIVE 2
      (by decide) (by decide) (by decide) (by decide) (by decide)⟩

/-- C19 (counterexample). BST order alone does not keep the recomputed height an
`int`: `overflowTree` = `((10001) 10002 (10003))` in mode `BST`, whose left child
caches the height `INT_MAX`, is BST-ordered with two children at the root and
every cached height an `int`; `getMinNode` finds 10003 and removing it from the
right subtree leaves the empty tree, so the height 1 + max(height(left),
height(right)) would be 1 + max(2147483647, -1) = 2147483648, which exceeds
`INT_MAX`: no value of the `int` field `m_height` equals it, and the 32-bit sum of
line 113 wraps to -2147483648. -/
theorem C19_two_child_removal_counterexample :
    BSTOrdered overflowTree ∧ overflowLeft ≠ Tree.nil ∧ overflowRight ≠ Tree.nil ∧
    heightsInIntRange overflowTree = true ∧ isHeightCorrect overflowTree = false ∧
    (getMinNode overflowRight).bind getID = some 10003 ∧
    removeHelper TREETYPE.BST overflowRight 10003 = some Tree.nil ∧
    1 + max (getHeight overflowLeft) (getHeight Tree.nil) = 2147483648 ∧
    INT_MAX < 1 + max (getHeight overflowLeft) (getHeight Tree.nil) ∧
    (∀ v : Int, v ≤ INT_MAX → v ≠ 1 + max (getHeight overflowLeft) (getHeight Tree.nil)) ∧
    wrapInt (1 + max (getHeight overflowLeft) (getHeight Tree.nil)) = -2147483648 := by
  refine ⟨by decide, by decide, by decide, by decide, by decide, by decide, by decide,
    by decide, by decide, ?_, by decide⟩
  intro v hv
  have e : 1 + max (getHeight overflowLeft) (getHeight Tree.nil) = 2147483648 := by decide
  rw [e]
  simp only [INT_MAX] at hv
  omega

/-- C19 (amended). Two-child deletion uses the in-order successor: for every
BST-ordered tree with correct cached heights (all of them `int` values) in mode
`BST` or `NONE` whose root has key `k` and two children `L` and `R`, `remove(k)`
returns the tree whose root key is the minimum key of `R` (the one `getMinNode`
finds), whose left subtree is `L` unchanged, whose right subtree is `R` with its
first in-order robot removed, and whose root height is recomputed as
1 + max(height(left), height(right)); that sum is an `int` value (the 32-bit
computation does not overflow), and the cached heights of the returned tree are
again correct and `int` values. -/
theorem C19_two_child_removal_uses_successor (m : TREETYPE)
    (hm : m = TREETYPE.BST ∨ m = TREETYPE.NONE) (L R : Tree) (k : Int) (ty : ROBOTTYPE)
    (st : STATE) (h : Int) (hL : L ≠ Tree.nil) (hR : R ≠ Tree.nil)
    (ho : BSTOrdered (Tree.node L k ty st h R))
    (hc : isHeightCorrect (Tree.node L k ty st h R) = true)
    (hr : heightsInIntRange (Tree.node L k ty st h R) = true) :
    ∃ minE rest R1, inorder R = minE :: rest ∧ (∀ x ∈ keys R, minE.1 ≤ x) ∧
      (getMinNode R).bind getID = some minE.1 ∧
      removeHelper m R minE.1 = some R1 ∧ inorder R1 = rest ∧
      remove { m_root := Tree.node L k ty st h R, m_type := m } k =
        some { m_root := Tree.node L minE.1 ty st (1 + max (getHeight L) (getHeight R1)) R1,
               m_type := m } ∧
      wrapInt (1 + max (getHeight L) (getHeight R1)) = 1 + max (getHeight L) (getHeight R1) ∧
      isHeightCorrect
        (Tree.node L minE.1 ty st (1 + max (getHeight L) (getHeight R1)) R1) = true ∧
      heightsInIntRange
        (Tree.node L minE.1 ty st (1 + max (getHeight L) (getHeight R1)) R1) = true := by
  have h1 : m ≠ TREETYPE.AVL := by rcases hm with hm | hm <;> subst hm <;> decide
  have h2 : m ≠ TREETYPE.SPLAY := by rcases hm with hm | hm <;> subst hm <;> decide
  have hoR : BSTOrdered R := ((BSTOrdered_node L R k ty st h).1 ho).2.1
  obtain ⟨eh, hcL, hcR⟩ := (isHeightCorrect_node L R k ty st h).1 hc
  obtain ⟨⟨-, hmax⟩, -, -⟩ := (heightsInIntRange_node L R k ty st h).1 hr
  obtain ⟨mid, krest, e0, ek⟩ := getMinNode_spec R hR
  cases hi : inorder R with
  | nil => rw [keys_eq_map_inorder, hi] at ek; simp at ek
  | cons minE rest =>
    have hmid : mid = minE.1 := by
      rw [keys_eq_map_inorder, hi, List.map_cons, List.cons.injEq] at ek
      exact ek.1.symm
    subst hmid
    obtain ⟨R1, e1, io1⟩ := removeHelper_min m h1 R hoR minE rest hi
    obtain ⟨R2, e2, hcR2, -, hh⟩ := removeHelper_wf m R minE.1 hcR (fun c => absurd c h1)
    have eR : R2 = R1 := Option.some.inj (e2.symm.trans e1)
    subst eR
    have gL := getHeight_ge L hcL
    have hcN : isHeightCorrect
        (Tree.node L minE.1 ty st (1 + max (getHeight L) (getHeight R2)) R2) = true :=
      (isHeightCorrect_node L R2 minE.1 ty st _).2 ⟨rfl, hcL, hcR2⟩
    have hle : 1 + max (getHeight L) (getHeight R2) ≤ INT_MAX := by
      rcases hh with hh | hh <;> omega
    refine ⟨minE, rest, R2, rfl, ?_, e0, e1, io1, ?_, ?_, hcN, ?_⟩
    · intro x hx
      unfold BSTOrdered at hoR
      rw [ek, List.pairwise_cons] at hoR
      rw [ek, List.mem_cons] at hx
      rcases hx with hx | hx
      · omega
      · have := hoR.1 x hx; omega
    · rw [remove_eq]
      cases L with
      | nil => exact absurd rfl hL
      | node ll lid lty lst lh lr =>
        cases R with
        | nil => exact absurd rfl hR
        | node rl cid cty cst ch rr =>
          rw [removeHelper_two m ll lr rl rr k lid cid k ty lty cty st lst cst h lh ch
            (by simp) (by simp), e0, Option.some_bind, e1, Option.some_bind,
            updateAndBalance_of_ne_AVL m h1, Option.some_bind]
          simp only [h1, h2, if_false]
    · apply wrapInt_of_inRange _ _ hle
      simp only [INT_MIN]; omega
    · exact heightsInIntRange_of_hc _ hcN (by simpa only [getHeight_node] using hle)

/-- C19 (witness). The tree `((10001) 10002 (10003))` in mode `BST`, key 10002. -/
theorem C19_two_child_removal_uses_successor_witness :
    (TREETYPE.BST = TREETYPE.BST ∨ TREETYPE.BST = TREETYPE.NONE) ∧
    Tree.node Tree.nil 10001 ROBOTTYPE.DRONE STATE.ALIVE 0 Tree.nil ≠ Tree.nil ∧
    Tree.node Tree.nil 10003 ROBOTTYPE.SUB STATE.ALIVE 0 Tree.nil ≠ Tree.nil ∧
    BSTOrdered sampleTree ∧ isHeightCorrect sampleTree = true ∧
    heightsInIntRange sampleTree = true ∧
    ∃ minE rest R1,
      inorder (Tree.node Tree.nil 10003 ROBOTTYPE.SUB STATE.ALIVE 0 Tree.nil) = minE :: rest ∧
      (∀ x ∈ keys (Tree.node Tree.nil 10003 ROBOTTYPE.SUB STATE.ALIVE 0 Tree.nil), minE.1 ≤ x) ∧
      (getMinNode (Tree.node Tree.nil 10003 ROBOTTYPE.SUB STATE.ALIVE 0 Tree.nil)).bind getID =
        some minE.1 ∧
      removeHelper TREETYPE.BST (Tree.node Tree.nil 10003 ROBOTTYPE.SUB STATE.ALIVE 0 Tree.nil)
        minE.1 = some R1 ∧
      inorder R1 = rest ∧
      remove { m_root := Tree.node (Tree.node Tree.nil 10001 ROBOTTYPE.DRONE STATE.ALIVE 0 Tree.nil)
                 10002 ROBOTTYPE.BIRD STATE.DEAD 1
                 (Tree.node Tree.nil 10003 ROBOTTYPE.SUB STATE.ALIVE 0 Tree.nil),
               m_type := TREETYPE.BST } 10002 =
        some { m_root := Tree.node (Tree.node Tree.nil 10001 ROBOTTYPE.DRONE STATE.ALIVE 0 Tree.nil)
                 minE.1 ROBOTTYPE.BIRD STATE.DEAD
                 (1 + max (getHeight (Tree.node Tree.nil 10001 ROBOTTYPE.DRONE STATE.ALIVE 0
                   Tree.nil)) (getHeight R1)) R1,
               m_type := TREETYPE.BST } ∧
      wrapInt (1 + max (getHeight (Tree.node Tree.nil 10001 ROBOTTYPE.DRONE STATE.ALIVE 0
          Tree.nil)) (getHeight R1)) =
        1 + max (getHeight (Tree.node Tree.nil 10001 ROBOTTYPE.DRONE STATE.ALIVE 0 Tree.nil))
          (getHeight R1) ∧
      isHeightCorrect
        (Tree.node (Tree.node Tree.nil 10001 ROBOTTYPE.DRONE STATE.ALIVE 0 Tree.nil)
          minE.1 ROBOTTYPE.BIRD STATE.DEAD
          (1 + max (getHeight (Tree.node Tree.nil 10001 ROBOTTYPE.DRONE STATE.ALIVE 0
            Tree.nil)) (getHeight R1)) R1) = true ∧
      heightsInIntRange
        (Tree.node (Tree.node Tree.nil 10001 ROBOTTYPE.DRONE STATE.ALIVE 0 Tree.nil)
          minE.1 ROBOTTYPE.BIRD STATE.DEAD
          (1 + max (getHeight (Tree.node Tree.nil 10001 ROBOTTYPE.DRONE STATE.ALIVE 0
            Tree.nil)) (getHeight R1)) R1) = true :=
  ⟨by decide, by decide, by decide, by decide, by decide, by decide,
    C19_two_child_removal_uses_successor TREETYPE.BST (by decide)
      (Tree.node Tree.nil 10001 ROBOTTYPE.DRONE STATE.ALIVE 0 Tree.nil)
      (Tree.node Tree.nil 10003 ROBOTTYPE.SUB STATE.ALIVE 0 Tree.nil)
      10002 ROBOTTYPE.BIRD STATE.DEAD 1 (by decide) (by decide) (by decide) (by decide)
      (by decide)⟩

/-- C20. AVL height under ascending insertion: for every N >= 1, inserting N
freshly constructed robots with strictly increasing keys one by one into an empty
`AVL`-mode tree returns a tree that stores them all and whose root cached height
is at most floor(log2 N), hence at most floor(log2 N) + 1; the instance of
`Tester::testAVLTreeHeight`, the keys MINID+1 .. MINID+100, gives root height 6,
within the bound 7. -/
theorem C20_avl_height_ascending (es : List (Int × ROBOTTYPE × STATE)) (hne : es ≠ [])
    (hs : es.Pairwise (fun a b => a.1 < b.1)) :
    (∃ t1, insertRobots { m_root := Tree.nil, m_type := TREETYPE.AVL } es =
        some { m_root := t1, m_type := TREETYPE.AVL } ∧
      inorder t1 = es ∧
      getHeight t1 ≤ (Nat.log 2 es.length : Int) ∧
      getHeight t1 ≤ (Nat.log 2 es.length : Int) + 1) ∧
    rootHeight (insertKeys { m_root := Tree.nil, m_type := TREETYPE.AVL } (idsUpTo 100)) =
      some 6 ∧
    (6 : Int) ≤ (Nat.log 2 100 : Int) + 1 ∧ (Nat.log 2 100 : Int) + 1 = 7 := by
  have l100 : Nat.log 2 100 = 6 := by rw [Nat.log_eq_iff (by norm_num)]; norm_num
  refine ⟨?_, by decide, by rw [l100]; norm_num, by rw [l100]; norm_num⟩
  obtain ⟨t1, n1, e1, -, hA1, io1⟩ := insertRobots_ascending es Tree.nil 0
    (wellFormed_nil TREETYPE.AVL) (by simp [Asc]) (fun a ha => by simp [keys] at ha) hs
  have io : inorder t1 = es := by simpa [inorder] using io1
  have hlen : (keys t1).length = es.length := by rw [← length_inorder, io]
  have hh := Asc_height n1 t1 hA1
  cases n1 with
  | zero =>
    simp only [Asc] at hA1
    subst hA1
    exact absurd io.symm hne
  | succ p =>
    have h1 := Asc_size p t1 hA1
    rw [hlen] at h1
    have h2 : p ≤ Nat.log 2 es.length := Nat.le_log_of_pow_le (by norm_num) h1
    push_cast at hh
    exact ⟨t1, e1, io, by omega, by omega⟩

theorem C20_avl_height_ascending_witness :
    ascendingRun ≠ [] ∧ ascendingRun.Pairwise (fun a b => a.1 < b.1) ∧
    ((∃ t1, insertRobots { m_root := Tree.nil, m_type := TREETYPE.AVL } ascendingRun =
        some { m_root := t1, m_type := TREETYPE.AVL } ∧
      inorder t1 = ascendingRun ∧
      getHeight t1 ≤ (Nat.log 2 ascendingRun.length : Int) ∧
      getHeight t1 ≤ (Nat.log 2 ascendingRun.length : Int) + 1) ∧
    rootHeight (insertKeys { m_root := Tree.nil, m_type := TREETYPE.AVL } (idsUpTo 100)) =
      some 6 ∧
    (6 : Int) ≤ (Nat.log 2 100 : Int) + 1 ∧ (Nat.log 2 100 : Int) + 1 = 7) :=
  ⟨by decide, by decide, C20_avl_height_ascending ascendingRun (by decide) (by decide)⟩

/-- C21 (the code at the failing input). `remove` of a key whose robot has two
children overwrites the attributes stored under the in-order successor: the tree
`sampleTree` (built by `sampleOps`, well-formed in every mode) stores
(`SUB`, `ALIVE`) under 10003 and (`BIRD`, `DEAD`) under 10002; after
`remove(10002)`, in every mode, the key 10003 carries (`BIRD`, `DEAD`), the
attributes of the removed robot, while 10001 keeps its own. -/
theorem C21_remove_overwrites_successor_attributes :
    runOps { m_root := Tree.nil, m_type := TREETYPE.BST } sampleOps =
      some { m_root := sampleTree, m_type := TREETYPE.BST } ∧
    WellFormed TREETYPE.NONE sampleTree ∧ WellFormed TREETYPE.BST sampleTree ∧
    WellFormed TREETYPE.AVL sampleTree ∧ WellFormed TREETYPE.SPLAY sampleTree ∧
    attributesAt sampleTree 10002 = some (ROBOTTYPE.BIRD, STATE.DEAD) ∧
    attributesAt sampleTree 10003 = some (ROBOTTYPE.SUB, STATE.ALIVE) ∧
    attributesAfter (remove { m_root := sampleTree, m_type := TREETYPE.NONE } 10002) 10003 =
      some (ROBOTTYPE.BIRD, STATE.DEAD) ∧
    attributesAfter (remove { m_root := sampleTree, m_type := TREETYPE.BST } 10002) 10003 =
      some (ROBOTTYPE.BIRD, STATE.DEAD) ∧
    attributesAfter (remove { m_root := sampleTree, m_type := TREETYPE.AVL } 10002) 10003 =
      some (ROBOTTYPE.BIRD, STATE.DEAD) ∧
    attributesAfter (remove { m_root := sampleTree, m_type := TREETYPE.SPLAY } 10002) 10003 =
      some (ROBOTTYPE.BIRD, STATE.DEAD) ∧
    inorderAfter (remove { m_root := sampleTree, m_type := TREETYPE.BST } 10002) =
      some [(10001, ROBOTTYPE.DRONE, STATE.ALIVE), (10003, ROBOTTYPE.BIRD, STATE.DEAD)] ∧
    attributesAfter (remove { m_root := sampleTree, m_type := TREETYPE.BST } 10002) 10001 =
      attributesAt sampleTree 10001 := by
  decide

/-- C22 (the code at the failing input). `insert` copies the link fields and the
cached height of its argument (`new Robot(robot)`): inserting `tallRobot`, whose
height was set to 5, into an empty tree gives in every mode a root with cached
height 5, which is not height-correct; inserting `linkedRobot`, whose left link
was set, gives a root with a left child, so the tree holds two robots (10009
before 10005 in in-order position, which is not BST order). -/
theorem C22_insert_copies_link_fields :
    insert { m_root := Tree.nil, m_type := TREETYPE.NONE } tallRobot =
      some { m_root := Tree.node Tree.nil 10001 ROBOTTYPE.DRONE STATE.ALIVE 5 Tree.nil,
             m_type := TREETYPE.NONE } ∧
    insert { m_root := Tree.nil, m_type := TREETYPE.BST } tallRobot =
      some { m_root := Tree.node Tree.nil 10001 ROBOTTYPE.DRONE STATE.ALIVE 5 Tree.nil,
             m_type := TREETYPE.BST } ∧
    insert { m_root := Tree.nil, m_type := TREETYPE.AVL } tallRobot =
      some { m_root := Tree.node Tree.nil 10001 ROBOTTYPE.DRONE STATE.ALIVE 5 Tree.nil,
             m_type := TREETYPE.AVL } ∧
    insert { m_root := Tree.nil, m_type := TREETYPE.SPLAY } tallRobot =
      some { m_root := Tree.node Tree.nil 10001 ROBOTTYPE.DRONE STATE.ALIVE 5 Tree.nil,
             m_type := TREETYPE.SPLAY } ∧
    rootHeight (insert { m_root := Tree.nil, m_type := TREETYPE.BST } tallRobot) = some 5 ∧
    isHeightCorrect (Tree.node Tree.nil 10001 ROBOTTYPE.DRONE STATE.ALIVE 5 Tree.nil) = false ∧
    insert { m_root := Tree.nil, m_type := TREETYPE.BST } linkedRobot =
      some { m_root :=
               Tree.node (Tree.node Tree.nil 10009 ROBOTTYPE.DRONE STATE.ALIVE 0 Tree.nil)
                 10005 ROBOTTYPE.DRONE STATE.ALIVE 0 Tree.nil,
             m_type := TREETYPE.BST } ∧
    inorderAfter (insert { m_root := Tree.nil, m_type := TREETYPE.BST } linkedRobot) =
      some [(10009, ROBOTTYPE.DRONE, STATE.ALIVE), (10005, ROBOTTYPE.DRONE, STATE.ALIVE)] ∧
    ¬ BSTOrdered (Tree.node (Tree.node Tree.nil 10009 ROBOTTYPE.DRONE STATE.ALIVE 0 Tree.nil)
      10005 ROBOTTYPE.DRONE STATE.ALIVE 0 Tree.nil) := by
  decide

/-- C23. Rotations never pivot on an absent child: on every tree with correct
cached heights (BST-ordered and balanced or not), in every mode, `insert` of a
freshly constructed robot and `remove` of any key return, and `splay` returns on
every tree with no precondition.  The embedding returns `none` exactly when
`leftRotate` meets a node without right child, `rightRotate` a node without left
child, or `getMinNode` an absent subtree, so no call of these runs reaches one. -/
theorem C23_rotations_never_pivot_on_absent_child (m : TREETYPE) (t : Tree)
    (hc : isHeightCorrect t = true) (k : Int) (c : ROBOTTYPE) (s : STATE) (j : Int)
    (u : Tree) (i : Int) :
    (∃ s1, insert { m_root := t, m_type := m } (Robot.ctor k c s) = some s1) ∧
    (∃ s2, remove { m_root := t, m_type := m } j = some s2) ∧
    (∃ u1, splay u i = some u1) ∧
    (∀ x, leftRotate x = none ↔ hasRight x = false) ∧
    (∀ y, rightRotate y = none ↔ hasLeft y = false) ∧
    (∀ r, getMinNode r = none ↔ r = Tree.nil) := by
  obtain ⟨t1, e1, -⟩ := insert_hc m t k c s hc
  obtain ⟨t2, e2, -⟩ := remove_some_of_hc m t j hc
  obtain ⟨u1, e3, -⟩ := splay_spec u i
  exact ⟨⟨_, e1⟩, ⟨_, e2⟩, ⟨u1, e3⟩, leftRotate_eq_none_iff, rightRotate_eq_none_iff,
    getMinNode_eq_none_iff⟩

theorem C23_rotations_never_pivot_on_absent_child_witness :
    isHeightCorrect sampleTree = true ∧
    ((∃ s1, insert { m_root := sampleTree, m_type := TREETYPE.AVL }
        (Robot.ctor 10004 ROBOTTYPE.DRONE STATE.ALIVE) = some s1) ∧
    (∃ s2, remove { m_root := sampleTree, m_type := TREETYPE.AVL } 10002 = some s2) ∧
    (∃ u1, splay loopTree 10003 = some u1) ∧
    (∀ x, leftRotate x = none ↔ hasRight x = false) ∧
    (∀ y, rightRotate y = none ↔ hasLeft y = false) ∧
    (∀ r, getMinNode r = none ↔ r = Tree.nil)) :=
  ⟨by decide, C23_rotations_never_pivot_on_absent_child TREETYPE.AVL sampleTree (by decide)
    10004 ROBOTTYPE.DRONE STATE.ALIVE 10002 loopTree 10003⟩

end SwarmModel
